import Mathlib

/-!
Verification model of the embedded_emul SoC simulation core.

The definitions below are shallow embeddings of the Rust sources:
machine integers (`u64`, `u16`, `u8`, `usize`) become `Nat` with explicit
`% 2 ^ 64` (written `U64`) where wrapping matters, fallible functions
return `Except`/`Option`, and `BTreeMap` becomes a key-sorted association
list.  Source file and function names are kept wherever Lean allows.
-/

deriving instance DecidableEq for Except

namespace Emul

/-- Modulus of a 64-bit machine word. -/
def U64 : Nat := 2 ^ 64

/-- Modulus of a 128-bit machine word (the accumulator type of `extract_data`). -/
def U128 : Nat := 2 ^ 128

/-- Model of `mask_for_width` (src/soc/prog/types/bitfield.rs):
`1u64.unbounded_shl(width).wrapping_sub(1)`.  For `width ≥ 64` the
unbounded shift yields `0`, and the wrapping subtraction gives `u64::MAX`. -/
def mask_for_width (width : Nat) : Nat :=
  if 64 ≤ width then U64 - 1 else 2 ^ width - 1

/-- Model of `lower_bits_mask` (bitfield.rs). -/
def lower_bits_mask (offset : Nat) : Nat :=
  if offset = 0 then 0
  else if 64 ≤ offset then U64 - 1
  else 2 ^ offset - 1

/-- Halving loop of the population count, with structural fuel. -/
def popcountAux : Nat → Nat → Nat
  | 0, _ => 0
  | fuel + 1, n => n % 2 + popcountAux fuel (n / 2)

/-- Population count, modelling `u64::count_ones`; `n + 1` halvings
always exhaust `n`, so the fuel is never short. -/
def popcount (n : Nat) : Nat := popcountAux (n + 1) n

/-- Model of `prefix_popcount` (bitfield.rs): number of set bits of `mask`
strictly below bit `offset`. -/
def prefix_popcount (mask offset : Nat) : Nat :=
  popcount (mask &&& lower_bits_mask offset)

/-- Bitwise complement within 64 bits, modelling Rust `!mask` on `u64`
(meaningful for `mask < 2 ^ 64`). -/
def not64 (mask : Nat) : Nat := (U64 - 1) ^^^ mask

/-- Mathematical model of the BMI2 `PEXT` instruction, processing `fuel`
mask bits from the least significant end: every set bit of the mask
selects the corresponding source bit, and the selected bits are packed
contiguously from bit 0 of the result. -/
def pextAux : Nat → Nat → Nat → Nat
  | 0, _, _ => 0
  | fuel + 1, x, m =>
    if m % 2 = 1 then x % 2 + 2 * pextAux fuel (x / 2) (m / 2)
    else pextAux fuel (x / 2) (m / 2)

/-- Model of `_pext_u64` (64-bit parallel bit extract). -/
def pext64 (x m : Nat) : Nat := pextAux 64 (x % U64) (m % U64)

/-- Mathematical model of the BMI2 `PDEP` instruction: the low bits of the
source are deposited, in order, at the set bit positions of the mask. -/
def pdepAux : Nat → Nat → Nat → Nat
  | 0, _, _ => 0
  | fuel + 1, x, m =>
    if m % 2 = 1 then x % 2 + 2 * pdepAux fuel (x / 2) (m / 2)
    else 2 * pdepAux fuel x (m / 2)

/-- Model of `_pdep_u64` (64-bit parallel bit deposit). -/
def pdep64 (x m : Nat) : Nat := pdepAux 64 (x % U64) (m % U64)

/-- Maximal container width (bitfield.rs `MAX_BITFIELD_BITS`). -/
def MAX_BITFIELD_BITS : Nat := 64

/-- Model of `BitFieldError` (bitfield.rs). -/
inductive BitFieldError where
  | EmptySpec
  | InvalidToken (tok : String)
  | InvalidNumber (tok : String)
  | InvalidLiteral (tok : String)
  | LiteralTooWide (width : Nat)
  | ZeroWidthSlice
  | SliceTooWide (width : Nat)
  | SliceOutOfRange (offset width : Nat)
  | DuplicatePad
  | PadExceedsContainer (container_bits data_bits : Nat)
  | ContainerTooWide (bits : Nat)
  | TotalWidthExceeded (bits : Nat)
  | MissingSegments
  | PadBitsMismatch
  | LiteralMismatch (expected actual : Nat) (width : Nat)
  | ValueTooWide (bits total : Nat)
deriving DecidableEq, Repr

/-- Model of `BitSlice` (bitfield.rs): a contiguous run of container bits. -/
structure BitSlice where
  offset : Nat
  width : Nat
  mask : Nat
deriving DecidableEq, Repr

/-- Model of `BitSlice::new`. -/
def BitSlice.new (offset width : Nat) : Except BitFieldError BitSlice :=
  if width = 0 then .error .ZeroWidthSlice
  else if MAX_BITFIELD_BITS < width then .error (.SliceTooWide width)
  else if MAX_BITFIELD_BITS ≤ offset ∨ MAX_BITFIELD_BITS < offset + width then
    .error (.SliceOutOfRange offset width)
  else .ok { offset := offset, width := width, mask := mask_for_width width <<< offset }

/-- Model of `BitFieldSegment` (bitfield.rs). -/
inductive BitFieldSegment where
  | Slice (slice : BitSlice)
  | Literal (value width : Nat)
deriving DecidableEq, Repr

/-- Model of `PadKind` (bitfield.rs). -/
inductive PadKind where
  | Zero
  | Sign
deriving DecidableEq, Repr

/-- Model of `PadSpec` (bitfield.rs). -/
structure PadSpec where
  kind : PadKind
  width : Nat
deriving DecidableEq, Repr

/-- Model of `SliceMeta` (bitfield.rs): cached PEXT/PDEP rank data. -/
structure SliceMeta where
  rank_start : Nat
  width : Nat
deriving DecidableEq, Repr

/-- Model of `BitFieldSpec` (bitfield.rs).  The `storage` field records the
container bit width handed to `ScalarStorage::for_bits`; the byte-rounding
of `ScalarStorage` is not consulted by any operation modelled here. -/
structure BitFieldSpec where
  storage : Nat
  segments : List BitFieldSegment
  pad : Option PadSpec
  signed : Bool
  mask : Nat
  slice_meta : List (Option SliceMeta)
deriving DecidableEq, Repr

/-- Width contributed by one segment (the summand of `data_width`). -/
def segWidth : BitFieldSegment → Nat
  | .Slice slice => slice.width
  | .Literal _ width => width

/-- Model of `BitFieldSpec::data_width`. -/
def BitFieldSpec.data_width (spec : BitFieldSpec) : Nat :=
  (spec.segments.map segWidth).sum

/-- Model of `BitFieldSpec::total_width`. -/
def BitFieldSpec.total_width (spec : BitFieldSpec) : Nat :=
  spec.data_width + (match spec.pad with | some pad => pad.width | none => 0)

/-- Model of `BitFieldSpec::is_signed`. -/
def BitFieldSpec.is_signed (spec : BitFieldSpec) : Bool :=
  spec.signed || (match spec.pad with
    | some pad => pad.kind = PadKind.Sign
    | none => false)

/-- Union mask of all slice segments, as computed by the first loop of
`BitFieldSpec::rebuild_cache`. -/
def cacheMask (segments : List BitFieldSegment) : Nat :=
  segments.foldl
    (fun acc seg => match seg with
      | .Slice slice => acc ||| slice.mask
      | .Literal _ _ => acc) 0

/-- Per-segment rank metadata, as computed by the second loop of
`BitFieldSpec::rebuild_cache`. -/
def cacheMeta (mask : Nat) (segments : List BitFieldSegment) : List (Option SliceMeta) :=
  segments.map fun seg => match seg with
    | .Slice slice => some { rank_start := prefix_popcount mask slice.offset, width := slice.width }
    | .Literal _ _ => none

/-- Model of `BitFieldSpec::rebuild_cache`. -/
def BitFieldSpec.rebuild_cache (spec : BitFieldSpec) : BitFieldSpec :=
  { spec with
    mask := cacheMask spec.segments
    slice_meta := cacheMeta (cacheMask spec.segments) spec.segments }

/-- One iteration of the portable `extract_data` loop (bitfield.rs).  The
running accumulator lives in a `u128` in the source, hence the `% U128`. -/
def extractStep (bits : Nat) (st : Nat × Nat) (seg : BitFieldSegment) : Nat × Nat :=
  match seg with
  | .Slice slice =>
    ((st.1 <<< slice.width ||| ((bits &&& slice.mask) >>> slice.offset)) % U128,
     st.2 + slice.width)
  | .Literal value width =>
    ((st.1 <<< width ||| (value &&& mask_for_width width)) % U128,
     st.2 + width)

/-- Model of `BitFieldSpec::extract_data` (the portable segment loop).
The final `% U64` is the `acc as u64` narrowing. -/
def BitFieldSpec.extract_data (spec : BitFieldSpec) (bits : Nat) : Nat × Nat :=
  let st := spec.segments.foldl (extractStep bits) (0, 0)
  (st.1 % U64, st.2)

/-- Model of `BitFieldSpec::apply_pad`. -/
def BitFieldSpec.apply_pad (spec : BitFieldSpec) (value width : Nat) : Nat × Nat :=
  match spec.pad with
  | some pad =>
    if pad.kind = PadKind.Sign ∧ 0 < width then
      if (value >>> (width - 1)) &&& 1 = 1 then
        (value ||| mask_for_width pad.width <<< width, width + pad.width)
      else (value, width + pad.width)
    else (value, width + pad.width)
  | none => (value, width)

/-- Model of `BitFieldSpec::read_bits`.  The source first consults the
BMI2 `extract_data_parallel` path and falls back to `extract_data`;
the two extraction paths agree whenever the cached metadata is the one
`rebuild_cache` computes (proved below as `extract_data_parallel_eq`),
so the portable path is taken as the reference semantics here. -/
def BitFieldSpec.read_bits (spec : BitFieldSpec) (bits : Nat) : Nat × Nat :=
  let st := spec.extract_data bits
  spec.apply_pad st.1 st.2

/-- Arithmetic right shift of a 64-bit value, modelling
`((x << 0) as i64) >> shift) as u64` style reinterpretation: the top
`shift` bits of the result replicate the sign bit. -/
def sar64 (x shift : Nat) : Nat :=
  let y := x % U64
  if y < 2 ^ 63 then y >>> shift
  else y >>> shift + (U64 - U64 >>> shift)

/-- Model of `BitFieldSpec::read_from`: sign- or zero-extends the field
value to 64 bits according to `is_signed`. -/
def BitFieldSpec.read_from (spec : BitFieldSpec) (bits : Nat) : Nat :=
  let st := spec.read_bits bits
  if st.2 = 0 then 0
  else if spec.is_signed then
    sar64 ((st.1 <<< (64 - min st.2 64)) % U64) (64 - min st.2 64)
  else st.1

/-- Pad verification and data masking performed by `write_to` before the
segment loop (bitfield.rs lines 376-396). -/
def padCheckAndMask (pad? : Option PadSpec) (data_width value : Nat) :
    Except BitFieldError Nat :=
  match pad? with
  | some pad =>
    let pad_mask := mask_for_width pad.width
    let pad_bits := value >>> data_width
    match pad.kind with
    | .Zero =>
      if pad_bits ≠ 0 then .error .PadBitsMismatch
      else .ok (value &&& mask_for_width data_width)
    | .Sign =>
      if 0 < data_width then
        let expected := if (value >>> (data_width - 1)) &&& 1 = 1 then pad_mask else 0
        if pad_bits ≠ expected then .error .PadBitsMismatch
        else .ok (value &&& mask_for_width data_width)
      else .ok (value &&& mask_for_width data_width)
  | none => .ok value

/-- The portable segment loop of `write_to` (bitfield.rs lines 400-441):
threads the container and the `remaining` width; `checked_sub` failure
becomes the `ValueTooWide` error of the source. -/
def write_segments (value data_width total : Nat) :
    List BitFieldSegment → Nat → Nat → Except BitFieldError (Nat × Nat)
  | [], container, remaining => .ok (container, remaining)
  | .Slice slice :: rest, container, remaining =>
    if remaining < slice.width then .error (.ValueTooWide data_width total)
    else
      let remaining' := remaining - slice.width
      let part := (value >>> remaining') &&& mask_for_width slice.width
      write_segments value data_width total rest
        (container &&& not64 slice.mask ||| (part <<< slice.offset) &&& slice.mask)
        remaining'
  | .Literal lit width :: rest, container, remaining =>
    if remaining < width then .error (.ValueTooWide data_width total)
    else
      let remaining' := remaining - width
      let part := (value >>> remaining') &&& mask_for_width width
      if part ≠ lit &&& mask_for_width width then
        .error (.LiteralMismatch (lit &&& mask_for_width width) part width)
      else write_segments value data_width total rest container remaining'

/-- Model of `BitFieldSpec::write_to`.  The source dispatches to the
PDEP-based `try_write_parallel` when BMI2 is available; that path agrees
with the portable loop for disjoint slices (proved below), so the
portable loop is taken as the reference semantics here. -/
def BitFieldSpec.write_to (spec : BitFieldSpec) (container value : Nat) :
    Except BitFieldError Nat :=
  let total := spec.total_width
  if total = 0 then .ok container
  else if total < 64 ∧ value >>> total ≠ 0 then .error (.ValueTooWide total total)
  else
    match padCheckAndMask spec.pad spec.data_width value with
    | .error e => .error e
    | .ok v =>
      match write_segments v spec.data_width total spec.segments container spec.data_width with
      | .error e => .error e
      | .ok (c, remaining) =>
        if remaining ≠ 0 then .error (.ValueTooWide spec.data_width total)
        else .ok c

/-- Loop of `extract_data_parallel` over the zipped segment/metadata
lists (bitfield.rs lines 458-475); a slice lacking cached metadata makes
the whole parallel path decline (`return None`). -/
def edpLoop (extracted : Nat) :
    List (BitFieldSegment × Option SliceMeta) → Nat → Nat → Option (Nat × Nat)
  | [], acc, accw => some (acc, accw)
  | (.Slice _, some meta) :: rest, acc, accw =>
    edpLoop extracted rest
      ((acc <<< meta.width |||
        ((extracted >>> meta.rank_start) &&& mask_for_width meta.width)) % U128)
      (accw + meta.width)
  | (.Slice _, none) :: _, _, _ => none
  | (.Literal value width, _) :: rest, acc, accw =>
    edpLoop extracted rest
      ((acc <<< width ||| (value &&& mask_for_width width)) % U128) (accw + width)

/-- Model of `BitFieldSpec::extract_data_parallel`, with the BMI2 `PEXT`
availability taken as given (`pext64`). -/
def BitFieldSpec.extract_data_parallel (spec : BitFieldSpec) (bits : Nat) :
    Option (Nat × Nat) :=
  if spec.mask = 0 then none
  else
    match edpLoop (pext64 bits spec.mask) (spec.segments.zip spec.slice_meta) 0 0 with
    | some st => some (st.1 % U64, st.2)
    | none => none

/-- Loop of `try_write_parallel` (bitfield.rs lines 491-533).  The
`checked_sub(..).ok_or(..).ok()?` idiom of the source turns a width
underflow into `None` (decline), while a literal mismatch is reported as
`Some(Err(..))`. -/
def twpLoop (value data_width total : Nat) :
    List (BitFieldSegment × Option SliceMeta) → Nat → Nat →
    Option (Except BitFieldError (Nat × Nat))
  | [], deposit, remaining => some (.ok (deposit, remaining))
  | (.Slice _, some meta) :: rest, deposit, remaining =>
    if remaining < meta.width then none
    else
      let remaining' := remaining - meta.width
      let part := (value >>> remaining') &&& mask_for_width meta.width
      twpLoop value data_width total rest (deposit ||| part <<< meta.rank_start) remaining'
  | (.Slice _, none) :: _, _, _ => none
  | (.Literal lit width, _) :: rest, deposit, remaining =>
    if remaining < width then none
    else
      let remaining' := remaining - width
      let part := (value >>> remaining') &&& mask_for_width width
      if part ≠ lit &&& mask_for_width width then
        some (.error (.LiteralMismatch (lit &&& mask_for_width width) part width))
      else twpLoop value data_width total rest deposit remaining'

/-- Model of `BitFieldSpec::try_write_parallel`, with the BMI2 `PDEP`
availability taken as given (`pdep64`). -/
def BitFieldSpec.try_write_parallel (spec : BitFieldSpec)
    (container value data_width total : Nat) : Option (Except BitFieldError Nat) :=
  if spec.mask = 0 then none
  else
    match twpLoop value data_width total (spec.segments.zip spec.slice_meta) 0 data_width with
    | none => none
    | some (.error e) => some (.error e)
    | some (.ok (deposit, remaining)) =>
      if remaining ≠ 0 then some (.error (.ValueTooWide data_width total))
      else some (.ok (container &&& not64 spec.mask ||| pdep64 deposit spec.mask))

/-! Spec-string parsing (`from_spec_str` and helpers, bitfield.rs).
Rust `&str` values are modelled as `List Char`; `str::trim`,
`str::split('|')`, `strip_prefix` and `strip_suffix` are re-implemented
structurally so that concrete parses reduce in the kernel. -/

/-- Both-ends whitespace trim, modelling `str::trim`. -/
def trimChars (l : List Char) : List Char :=
  ((l.dropWhile Char.isWhitespace).reverse.dropWhile Char.isWhitespace).reverse

/-- Split at every occurrence of `sep`, modelling `str::split(sep)`. -/
def splitCh (sep : Char) : List Char → List (List Char)
  | [] => [[]]
  | a :: rest =>
    match splitCh sep rest with
    | [] => [[]]
    | cur :: done => if a = sep then [] :: cur :: done else (a :: cur) :: done

/-- Model of `str::strip_prefix` for a literal prefix. -/
def stripPfx : List Char → List Char → Option (List Char)
  | [], l => some l
  | _, [] => none
  | p :: ps, c :: cs => if p = c then stripPfx ps cs else none

/-- Model of `str::strip_suffix` for a single closing character. -/
def stripSfx (suffix : Char) (l : List Char) : Option (List Char) :=
  match l.reverse with
  | [] => none
  | c :: rest => if c = suffix then some rest.reverse else none

/-- Value of one digit character under `radix`, case-insensitive as in
Rust `from_str_radix`. -/
def digitVal (radix : Nat) (c : Char) : Option Nat :=
  let v :=
    if '0' ≤ c ∧ c ≤ '9' then some (c.toNat - '0'.toNat)
    else if 'a' ≤ c ∧ c ≤ 'f' then some (c.toNat - 'a'.toNat + 10)
    else if 'A' ≤ c ∧ c ≤ 'F' then some (c.toNat - 'A'.toNat + 10)
    else none
  match v with
  | some d => if d < radix then some d else none
  | none => none

/-- Model of `uN::from_str_radix`: an optional leading `+`, then at least
one digit; `bound` is the modulus of the target integer type, and values
reaching it overflow into a parse error. -/
def fromStrRadix (bound radix : Nat) (cs : List Char) : Option Nat :=
  let cs := match cs with
    | '+' :: rest => rest
    | other => other
  if cs = [] then none
  else cs.foldl
    (fun acc? c => acc?.bind fun acc => (digitVal radix c).map (fun d => acc * radix + d))
    (some 0) |>.bind fun v => if v < bound then some v else none

/-- Model of `SegmentToken` (bitfield.rs). -/
inductive SegmentToken where
  | Literal (value width : Nat)
  | Range (start stop : Nat)
deriving DecidableEq, Repr

/-- Model of `extract_spec_body` (bitfield.rs). -/
def extract_spec_body (spec : List Char) : Except BitFieldError (List Char) :=
  let trimmed := trimChars spec
  match stripPfx ['@', '('] trimmed with
  | some rest =>
    match stripSfx ')' rest with
    | some body => .ok body
    | none => .error (.InvalidToken (String.mk trimmed))
  | none =>
    match stripPfx ['('] trimmed with
    | some rest =>
      match stripSfx ')' rest with
      | some body => .ok body
      | none => .error (.InvalidToken (String.mk trimmed))
    | none => .ok trimmed

/-- Model of `parse_pad` (bitfield.rs). -/
def parse_pad (token : List Char) : Except BitFieldError (Option PadKind) :=
  match stripPfx ['?'] token with
  | some rest =>
    match trimChars rest with
    | ['0'] => .ok (some PadKind.Zero)
    | ['1'] => .ok (some PadKind.Sign)
    | _ => .error (.InvalidToken (String.mk token))
  | none => .ok none

/-- Model of `parse_literal` (bitfield.rs). -/
def parse_literal (token : List Char) : Except BitFieldError (Option (Nat × Nat)) :=
  match stripPfx ['0', 'b'] token with
  | some rest =>
    let bits := trimChars rest
    if bits = [] then .error (.InvalidLiteral (String.mk token))
    else if 64 < bits.length then .error (.LiteralTooWide bits.length)
    else
      match fromStrRadix U64 2 bits with
      | some value => .ok (some (value, bits.length))
      | none => .error (.InvalidLiteral (String.mk token))
  | none => .ok none

/-- Model of `parse_number` (bitfield.rs); the target type is `u16`. -/
def parse_number (token : List Char) : Except BitFieldError Nat :=
  if token = [] then .error (.InvalidNumber (String.mk token))
  else
    let parsed :=
      match stripPfx ['0', 'x'] token with
      | some rest => fromStrRadix (2 ^ 16) 16 rest
      | none =>
        match stripPfx ['0', 'o'] token with
        | some rest => fromStrRadix (2 ^ 16) 8 rest
        | none =>
          match stripPfx ['0', 'b'] token with
          | some rest => fromStrRadix (2 ^ 16) 2 rest
          | none => fromStrRadix (2 ^ 16) 10 token
    match parsed with
    | some value => .ok value
    | none => .error (.InvalidNumber (String.mk token))

/-- Split a token at the first `..`, modelling `str::split_once("..")`. -/
def splitDotDot : List Char → Option (List Char × List Char)
  | [] => none
  | '.' :: '.' :: rest => some ([], rest)
  | c :: rest => (splitDotDot rest).map fun p => (c :: p.1, p.2)

/-- Model of `parse_range` (bitfield.rs). -/
def parse_range (token : List Char) : Except BitFieldError (Nat × Nat) :=
  let trimmed := trimChars token
  match splitDotDot trimmed with
  | some (s, e) =>
    if trimChars s = [] ∨ trimChars e = [] then .error (.InvalidToken (String.mk trimmed))
    else
      match parse_number (trimChars s) with
      | .error err => .error err
      | .ok start =>
        match parse_number (trimChars e) with
        | .error err => .error err
        | .ok stop =>
          if stop < start then .error (.InvalidToken (String.mk trimmed))
          else .ok (start, stop)
  | none =>
    match parse_number trimmed with
    | .error err => .error err
    | .ok bit => .ok (bit, bit)

/-- Model of `msb_range_to_lsb_offset` (bitfield.rs). -/
def msb_range_to_lsb_offset (start stop container_bits : Nat) :
    Except BitFieldError (Nat × Nat) :=
  if container_bits ≤ start ∨ container_bits ≤ stop then
    .error (.SliceOutOfRange start (stop - start + 1))
  else .ok (container_bits - 1 - stop, stop - start + 1)

/-- First loop of `from_spec_str`: classify the `|`-separated tokens. -/
def collectTokens :
    List (List Char) → Option PadKind → List SegmentToken →
    Except BitFieldError (Option PadKind × List SegmentToken)
  | [], pad, segs => .ok (pad, segs)
  | t :: rest, pad, segs =>
    let token := trimChars t
    if token = [] then collectTokens rest pad segs
    else
      match parse_pad token with
      | .error e => .error e
      | .ok (some kind) =>
        if pad.isSome then .error .DuplicatePad
        else collectTokens rest (some kind) segs
      | .ok none =>
        match parse_literal token with
        | .error e => .error e
        | .ok (some (value, width)) =>
          collectTokens rest pad (segs ++ [SegmentToken.Literal value width])
        | .ok none =>
          match parse_range token with
          | .error e => .error e
          | .ok (start, stop) =>
            collectTokens rest pad (segs ++ [SegmentToken.Range start stop])

/-- Second loop of `from_spec_str`: lower raw tokens into segments. -/
def buildSegments (store_bitw : Nat) :
    List SegmentToken → Except BitFieldError (List BitFieldSegment)
  | [] => .ok []
  | SegmentToken.Literal value width :: rest =>
    if width = 0 ∨ MAX_BITFIELD_BITS < width then .error (.LiteralTooWide width)
    else
      match buildSegments store_bitw rest with
      | .error e => .error e
      | .ok segs => .ok (BitFieldSegment.Literal value width :: segs)
  | SegmentToken.Range start stop :: rest =>
    match msb_range_to_lsb_offset start stop store_bitw with
    | .error e => .error e
    | .ok (offset, width) =>
      match BitSlice.new offset width with
      | .error e => .error e
      | .ok slice =>
        match buildSegments store_bitw rest with
        | .error e => .error e
        | .ok segs => .ok (BitFieldSegment.Slice slice :: segs)

/-- Model of `BitFieldSpec::from_spec_str`. -/
def BitFieldSpec.from_spec_str (store_bitw : Nat) (spec : String) :
    Except BitFieldError BitFieldSpec :=
  if store_bitw = 0 ∨ MAX_BITFIELD_BITS < store_bitw then
    .error (.ContainerTooWide store_bitw)
  else
    match extract_spec_body spec.data with
    | .error e => .error e
    | .ok body =>
      match collectTokens (splitCh '|' body) none [] with
      | .error e => .error e
      | .ok (pad_kind, raw_segments) =>
        if raw_segments = [] then .error .MissingSegments
        else
          match buildSegments store_bitw raw_segments with
          | .error e => .error e
          | .ok segments =>
            let base : BitFieldSpec :=
              { storage := store_bitw, segments := segments, pad := none
                signed := false, mask := 0, slice_meta := [] }
            match pad_kind with
            | some kind =>
              let data_bits := base.data_width
              if store_bitw < data_bits then
                .error (.PadExceedsContainer store_bitw data_bits)
              else
                let withPad :=
                  if 0 < store_bitw - data_bits then
                    { base with pad := some { kind := kind, width := store_bitw - data_bits } }
                  else base
                if MAX_BITFIELD_BITS < withPad.total_width then
                  .error (.TotalWidthExceeded withPad.total_width)
                else .ok withPad.rebuild_cache
            | none =>
              if MAX_BITFIELD_BITS < base.total_width then
                .error (.TotalWidthExceeded base.total_width)
              else .ok base.rebuild_cache

/-! Device model (src/soc/device).  The `Device` trait is modelled by the
data a bus consumer observes: the span, the endianness and whether the
RAM fast-path capability (`as_ram`) is offered. -/

/-- Model of `Endianness` (src/soc/device/endianness.rs). -/
inductive Endianness where
  | Little
  | Big
deriving DecidableEq, Repr

/-- Modelled from the spec: `DeviceError` kinds `OutOfRange{offset,len,capacity}`,
`Unsupported(op)`, `LockPoisoned(name)`; the enum's defining file
(src/soc/device/error.rs) is absent from the tree, but `ram.rs` constructs
exactly the `OutOfRange` shape given here. -/
inductive DeviceError where
  | OutOfRange (offset len capacity : Nat)
  | Unsupported (op : String)
  | LockPoisoned (name : String)
deriving DecidableEq, Repr

/-- Model of `RamMemory` (src/soc/device/ram.rs).  The backing vector is
allocated with 7 guard bytes past `len`. -/
structure RamMemory where
  name : String
  bytes : List Nat
  len : Nat
  endian : Endianness
deriving DecidableEq, Repr

/-- Model of `RamMemory::new`. -/
def RamMemory.new (name : String) (len : Nat) (endian : Endianness) : RamMemory :=
  { name := name, bytes := List.replicate (len + 7) 0, len := len, endian := endian }

/-- Model of `RamMemory::read` (`Device` impl in ram.rs): the filled output
buffer is returned in place of the out-parameter. -/
def RamMemory.read (ram : RamMemory) (offset out_len : Nat) :
    Except DeviceError (List Nat) :=
  if out_len = 0 then .ok []
  else if ram.len < offset + out_len then
    .error (.OutOfRange offset out_len ram.len)
  else .ok ((ram.bytes.drop offset).take out_len)

/-- Model of `RamMemory::write` (`Device` impl in ram.rs). -/
def RamMemory.write (ram : RamMemory) (offset : Nat) (data_in : List Nat) :
    Except DeviceError RamMemory :=
  if data_in = [] then .ok ram
  else if ram.len < offset + data_in.length then
    .error (.OutOfRange offset data_in.length ram.len)
  else .ok { ram with
    bytes := ram.bytes.take offset ++ data_in ++ ram.bytes.drop (offset + data_in.length) }

/-- Observable data of a `dyn Device` as used by the bus, the handle and
the software MMU: `span()`, `endianness()`, and whether `as_ram()` yields
the fast path.  `ram_base` stands for the (opaque) host address of the
backing buffer, used only to model pointer arithmetic in the MMU. -/
structure DeviceM where
  span_start : Nat
  span_end : Nat
  endianness : Endianness
  is_ram : Bool
  ram_base : Nat
deriving DecidableEq, Repr

/-- Model of `Range::len` for a device span. -/
def DeviceM.span_len (d : DeviceM) : Nat := d.span_end - d.span_start

/-! Bus error and range model (src/soc/bus). -/

/-- Model of `BusError`.  The enum in src/soc/bus/error.rs is a stale
variant that lacks `InvalidAddress`, `HandleOutOfRange` and `PageFault`,
all three of which are constructed by device_bus.rs, handle.rs and
softmmu.rs; the union of the constructed shapes is modelled. -/
inductive BusError where
  | NotMapped (address : Nat)
  | Overlap (address : Nat) (details : String)
  | RedirectInvalid (source size target : Nat) (reason : String)
  | InvalidAddress (address : Nat)
  | HandleOutOfRange (offset : Nat) (delta : Int)
  | PageFault (details : String)
  | DeviceFault (device : String)
  | OutOfRange (address stop : Nat)
  | InvalidDeviceSpan (device : String)
  | HandleNotPositioned
deriving DecidableEq, Repr

/-- Model of `RangeKind` (src/soc/bus/range.rs). -/
inductive RangeKind where
  | Device
  | Redirect
deriving DecidableEq, Repr

/-- Model of `BusRange` (src/soc/bus/range.rs). -/
structure BusRange where
  bus_start : Nat
  bus_end : Nat
  device_offset : Nat
  device_id : Nat
  priority : Nat
  kind : RangeKind
deriving DecidableEq, Repr

/-- Model of `BusRange::contains`. -/
def BusRange.containsAddr (r : BusRange) (addr : Nat) : Prop :=
  r.bus_start ≤ addr ∧ addr < r.bus_end

instance (r : BusRange) (addr : Nat) : Decidable (r.containsAddr addr) :=
  inferInstanceAs (Decidable (_ ∧ _))

/-! The `BTreeMap<usize, BusRange>` of `DeviceBus` is modelled as its
ordered entry list; each operation below implements the ordered-map
semantics of the corresponding `BTreeMap` call. -/

/-- Entry list of the bus map, ordered by key. -/
abbrev BusMap := List (Nat × BusRange)

/-- Model of `BTreeMap::insert` on the ordered entry list. -/
def mapInsert (k : Nat) (v : BusRange) : BusMap → BusMap
  | [] => [(k, v)]
  | (k', v') :: rest =>
    if k < k' then (k, v) :: (k', v') :: rest
    else if k = k' then (k, v) :: rest
    else (k', v') :: mapInsert k v rest

/-- Model of `BTreeMap::remove`, returning the removed value and the rest. -/
def mapTake (k : Nat) : BusMap → Option BusRange × BusMap
  | [] => (none, [])
  | (k', v') :: rest =>
    if k = k' then (some v', rest)
    else
      let r := mapTake k rest
      (r.1, (k', v') :: r.2)

/-- Model of `map.range(..=a).next_back()`: the last entry whose key is
at most `a`. -/
def predLE (a : Nat) : BusMap → Option (Nat × BusRange)
  | [] => none
  | (k, v) :: rest =>
    match predLE a rest with
    | some p => some p
    | none => if k ≤ a then some (k, v) else none

/-- Keys yielded by `map.range(start..stop)`, in order. -/
def keysInRange (start stop : Nat) (m : BusMap) : List Nat :=
  (m.filter fun kv => start ≤ kv.1 && kv.1 < stop).map Prod.fst

/-- Model of `Vec::dedup`: drop consecutive duplicates. -/
def dedupAdj : List Nat → List Nat
  | [] => []
  | [a] => [a]
  | a :: b :: rest =>
    if a = b then dedupAdj (b :: rest) else a :: dedupAdj (b :: rest)

/-- Insertion sort standing in for `sort_unstable` on the key vector. -/
def sortNat (l : List Nat) : List Nat :=
  l.foldr (fun a sorted => sortedInsert a sorted) []
where
  sortedInsert (a : Nat) : List Nat → List Nat
    | [] => [a]
    | b :: rest => if a ≤ b then a :: b :: rest else b :: sortedInsert a rest

/-- Model of `DeviceBus::range_for_address` (device_bus.rs). -/
def range_for_address (m : BusMap) (address : Nat) : Option BusRange :=
  match predLE address m with
  | some (_, r) => if address < r.bus_end then some r else none
  | none => none

/-- Model of `DeviceBus::range_key_for_address` (device_bus.rs). -/
def range_key_for_address (m : BusMap) (address : Nat) : Option Nat :=
  match predLE address m with
  | some (k, r) => if address < r.bus_end then some k else none
  | none => none

/-- Model of `DeviceBus::collect_overlap_keys` (device_bus.rs). -/
def collect_overlap_keys (m : BusMap) (start stop : Nat) : List Nat :=
  let first :=
    match predLE start m with
    | some (k, r) => if start < r.bus_end then [k] else []
    | none => []
  dedupAdj (sortNat (first ++ keysInRange start stop m))

/-- Model of `DeviceBus::slice_range` (device_bus.rs). -/
def slice_range (source : BusRange) (start stop : Nat) : BusRange :=
  { source with
    bus_start := start
    bus_end := stop
    device_offset := source.device_offset + (start - source.bus_start) }

/-- Reinsert a list of saved segments keyed by their `bus_start`
(the `for segment in reinserts` loops of `clear_overlaps`). -/
def insertAll (segs : List BusRange) (m : BusMap) : BusMap :=
  segs.foldl (fun m seg => mapInsert seg.bus_start seg m) m

/-- Key loop of `DeviceBus::clear_overlaps`: threads the map and the
pending `reinserts`; the error case performs the in-loop rollback of the
source and reports the mutated map. -/
def clearLoop (range : BusRange) :
    List Nat → BusMap → List BusRange → BusMap × List BusRange × Option BusError
  | [], m, reinserts => (m, reinserts, none)
  | key :: keys, m, reinserts =>
    match mapTake key m with
    | (none, m') => clearLoop range keys m' reinserts
    | (some existing, m') =>
      if existing.bus_end ≤ range.bus_start ∨ range.bus_end ≤ existing.bus_start then
        clearLoop range keys m' (reinserts ++ [existing])
      else if range.priority ≤ existing.priority then
        (insertAll (reinserts ++ [existing]) m', [],
          some (.Overlap range.bus_start "higher priority mapping already present"))
      else
        let r1 :=
          if existing.bus_start < range.bus_start then
            reinserts ++ [slice_range existing existing.bus_start range.bus_start]
          else reinserts
        let r2 :=
          if range.bus_end < existing.bus_end then
            r1 ++ [slice_range existing range.bus_end existing.bus_end]
          else r1
        clearLoop range keys m' r2

/-- Model of `DeviceBus::clear_overlaps`: returns the mutated map together
with the optional error (the source mutates `self.map` in place). -/
def clear_overlaps (m : BusMap) (range : BusRange) : BusMap × Option BusError :=
  let keys := collect_overlap_keys m range.bus_start range.bus_end
  match clearLoop range keys m [] with
  | (m', reinserts, none) => (insertAll reinserts m', none)
  | (m', _, some e) => (m', some e)

/-- Model of `DeviceBus::insert_range`. -/
def insert_range (m : BusMap) (range : BusRange) : BusMap × Option BusError :=
  match clear_overlaps m range with
  | (m', some e) => (m', some e)
  | (m', none) => (mapInsert range.bus_start range m', none)

/-- Model of `DeviceBus`: the device table plus the address map. -/
structure DeviceBus where
  devices : List DeviceM
  map : BusMap
deriving DecidableEq, Repr

/-- Model of `DeviceBus::map_device`: the device is appended to the table
and a `Device`-kind range covering its span is inserted. -/
def DeviceBus.map_device (bus : DeviceBus) (device : DeviceM) (address priority : Nat) :
    DeviceBus × Option BusError :=
  let devices := bus.devices ++ [device]
  let device_id := devices.length - 1
  let range : BusRange :=
    { bus_start := address
      bus_end := address + device.span_len
      device_offset := device.span_start
      device_id := device_id
      priority := priority
      kind := RangeKind.Device }
  let res := insert_range bus.map range
  ({ devices := devices, map := res.1 }, res.2)

/-- Model of `DeviceBus::map_range` (redirect installation).  The
`checked_add` overflow branches of the source cannot fire on `Nat` and
are therefore not represented. -/
def DeviceBus.map_rangeRedirect (bus : DeviceBus) (start len redirect priority : Nat) :
    DeviceBus × Option BusError :=
  if len = 0 then
    (bus, some (.RedirectInvalid start len redirect "zero-length range"))
  else
    match range_for_address bus.map redirect with
    | none => (bus, some (.RedirectInvalid start len redirect "redirect target is unmapped"))
    | some target_range =>
      if target_range.bus_end < redirect + len then
        (bus, some (.RedirectInvalid start len redirect "redirect spans multiple ranges"))
      else
        let range : BusRange :=
          { bus_start := start
            bus_end := start + len
            device_offset := target_range.device_offset + (redirect - target_range.bus_start)
            device_id := target_range.device_id
            priority := priority
            kind := RangeKind.Redirect }
        let res := insert_range bus.map range
        ({ bus with map := res.1 }, res.2)

/-- Model of `DeviceBus::unmap`. -/
def DeviceBus.unmap (bus : DeviceBus) (address : Nat) : DeviceBus × Option BusError :=
  match range_key_for_address bus.map address with
  | none => (bus, some (.NotMapped address))
  | some key => ({ bus with map := (mapTake key bus.map).2 }, none)

/-- Fallback device for the (unreachable in well-formed buses) case of a
dangling `device_id`; `self.devices[range.device_id]` in the source would
panic there. -/
def defaultDevice : DeviceM :=
  { span_start := 0, span_end := 0, endianness := Endianness.Little
    is_ram := false, ram_base := 0 }

/-- Model of `DeviceHandle` (src/soc/bus/handle.rs): the resolved device
plus the pin/offset/size cursor state. -/
structure DeviceHandle where
  device : DeviceM
  endian : Endianness
  pin : Nat
  offset : Nat
  size : Nat
deriving DecidableEq, Repr

/-- Model of `DeviceHandle::new`. -/
def DeviceHandle.new (device : DeviceM) (offset : Nat) : DeviceHandle :=
  { device := device
    endian := device.endianness
    pin := offset
    offset := offset
    size := device.span_len }

/-- Model of `DeviceBus::resolve`. -/
def DeviceBus.resolve (bus : DeviceBus) (address : Nat) : Except BusError DeviceHandle :=
  match range_for_address bus.map address with
  | none => .error (.InvalidAddress address)
  | some range =>
    .ok (DeviceHandle.new (bus.devices.getD range.device_id defaultDevice)
      ((address - range.bus_start) + range.device_offset))

/-! Cursor movements of `DeviceHandle` (src/soc/bus/handle.rs).  Each Rust
method mutates `self` and returns `BusResult<()>`; the model returns the
mutated handle paired with the optional error. -/

/-- Model of `usize::saturating_add`. -/
def satAdd64 (a b : Nat) : Nat := min (a + b) (U64 - 1)

/-- Model of `delta as isize` reinterpretation. -/
def isizeOfUsize (d : Nat) : Int :=
  if d < 2 ^ 63 then (d : Int) else (d : Int) - (U64 : Int)

/-- Model of `DeviceHandle::pin`. -/
def DeviceHandle.pinTo (h : DeviceHandle) (new_offset : Nat) :
    DeviceHandle × Option BusError :=
  if h.size ≤ new_offset then
    ({ h with pin := h.size, offset := h.size },
      some (.HandleOutOfRange new_offset 0))
  else ({ h with pin := new_offset, offset := new_offset }, none)

/-- Model of `DeviceHandle::adv_off_pin`. -/
def DeviceHandle.adv_off_pin (h : DeviceHandle) (delta : Nat) :
    DeviceHandle × Option BusError :=
  if h.size < h.pin + delta then
    ({ h with offset := h.size }, some (.HandleOutOfRange h.pin (isizeOfUsize delta)))
  else ({ h with offset := satAdd64 h.pin delta }, none)

/-- Model of `DeviceHandle::ret_off_pin`. -/
def DeviceHandle.ret_off_pin (h : DeviceHandle) (delta : Nat) :
    DeviceHandle × Option BusError :=
  if h.pin < delta then
    ({ h with offset := 0 }, some (.HandleOutOfRange h.pin (-(isizeOfUsize delta))))
  else ({ h with offset := h.pin - delta }, none)

/-- Model of `DeviceHandle::reset`. -/
def DeviceHandle.reset (h : DeviceHandle) : DeviceHandle :=
  { h with offset := h.pin }

/-- Model of `DeviceHandle::seek`. -/
def DeviceHandle.seek (h : DeviceHandle) (new_offset : Nat) :
    DeviceHandle × Option BusError :=
  if h.size ≤ new_offset then
    ({ h with offset := h.size }, some (.HandleOutOfRange new_offset 0))
  else ({ h with offset := new_offset }, none)

/-- Model of `DeviceHandle::advance`.  The source first saturating-adds
`delta` into the cursor, and on the in-range branch adds `delta` again
with `self.offset += delta` before returning `Ok`. -/
def DeviceHandle.advance (h : DeviceHandle) (delta : Nat) :
    DeviceHandle × Option BusError :=
  let moved := satAdd64 h.offset delta
  if h.size < moved then
    ({ h with offset := h.size }, some (.HandleOutOfRange moved (isizeOfUsize delta)))
  else ({ h with offset := moved + delta }, none)

/-- Model of `DeviceHandle::retreat`. -/
def DeviceHandle.retreat (h : DeviceHandle) (delta : Nat) :
    DeviceHandle × Option BusError :=
  if h.offset < delta then
    ({ h with offset := 0 }, some (.HandleOutOfRange h.offset (-(isizeOfUsize delta))))
  else ({ h with offset := h.offset - delta }, none)

/-! Software MMU model (src/soc/bus/softmmu.rs). -/

/-- Modulus of a 32-bit machine word (`MMUFlags` is a `u32` bitset). -/
def U32 : Nat := 2 ^ 32

/-- Bitwise complement within 32 bits (`bitflags` `remove` is `&= !F`). -/
def not32 (m : Nat) : Nat := (U32 - 1) ^^^ m

/-- The `MMUFlags` bit constants. -/
def FLAG_VALID : Nat := 0b1

def FLAG_READ : Nat := 0b10

def FLAG_WRITE : Nat := 0b100

def FLAG_EXEC : Nat := 0b1000

def FLAG_RAM : Nat := 0b10000

def FLAG_BIGENDIAN : Nat := 0b100000

/-- Model of `AddressMode` (softmmu.rs). -/
inductive AddressMode where
  | Physical
  | Effective
deriving DecidableEq, Repr

/-- Model of `MMUEntry` (softmmu.rs). -/
structure MMUEntry where
  vaddr : Nat
  paddr : Nat
  size : Nat
  flags : Nat
  device_offset : Nat
  device : DeviceM
deriving DecidableEq, Repr

/-- Model of `SoftMMU` (softmmu.rs); `regions` is the ordered entry list
of the virtual `BTreeMap`. -/
structure SoftMMU where
  regions : List (Nat × MMUEntry)
  bus : DeviceBus
  mode : AddressMode
deriving DecidableEq, Repr

/-- Model of `map.range(..=a).next_back()` on the virtual region map. -/
def predLEEntry (a : Nat) : List (Nat × MMUEntry) → Option (Nat × MMUEntry)
  | [] => none
  | (k, v) :: rest =>
    match predLEEntry a rest with
    | some p => some p
    | none => if k ≤ a then some (k, v) else none

/-- Model of `BTreeMap::insert` on the virtual region map. -/
def regionsInsert (k : Nat) (v : MMUEntry) : List (Nat × MMUEntry) → List (Nat × MMUEntry)
  | [] => [(k, v)]
  | (k', v') :: rest =>
    if k < k' then (k, v) :: (k', v') :: rest
    else if k = k' then (k, v) :: rest
    else (k', v') :: regionsInsert k v rest

/-- Modelled from the spec: `DeviceBus::resolve_device_at` is called by
softmmu.rs but defined in a bus variant absent from the tree; per §4.C it
resolves an address to the containing range and its device (the lookup of
`range_for_address`), failing like `resolve` when the address is unmapped. -/
def DeviceBus.resolve_device_at (bus : DeviceBus) (address : Nat) :
    Except BusError (DeviceM × BusRange) :=
  match range_for_address bus.map address with
  | none => .error (.InvalidAddress address)
  | some range => .ok (bus.devices.getD range.device_id defaultDevice, range)

/-- Model of `validate_physical_span` (softmmu.rs). -/
def validate_physical_span (start size : Nat) (range : BusRange) : Option BusError :=
  if range.bus_end < start + size then
    some (.RedirectInvalid start size range.bus_start "mapping spans multiple physical devices")
  else none

/-- Model of `SoftMMU::overlaps`. -/
def SoftMMU.overlapsV (mmu : SoftMMU) (start stop : Nat) : Bool :=
  (match predLEEntry start mmu.regions with
    | some (_, region) => decide (start < region.vaddr + region.size)
    | none => false)
  || (mmu.regions.filter fun kv => start ≤ kv.1 && kv.1 < stop).length ≠ 0

/-- Model of `SoftMMU::flags_for_device_flags`. -/
def flags_for_device_flags (device : DeviceM) (flags : Nat) : Nat :=
  let flags1 :=
    match device.endianness with
    | .Big => flags ||| FLAG_BIGENDIAN
    | _ => flags &&& not32 FLAG_BIGENDIAN
  if device.is_ram then flags1 ||| FLAG_RAM else flags1 &&& not32 FLAG_RAM

/-- Model of `SoftMMU::map_region`.  The `checked_add` overflow branch
cannot fire on `Nat` and is not represented. -/
def SoftMMU.map_region (mmu : SoftMMU) (vaddr paddr size flags : Nat) :
    SoftMMU × Option BusError :=
  if size = 0 then
    (mmu, some (.RedirectInvalid vaddr size paddr "zero-length region"))
  else if mmu.overlapsV vaddr (vaddr + size) then
    (mmu, some (.Overlap vaddr "virtual range overlaps existing mapping"))
  else
    match mmu.bus.resolve_device_at paddr with
    | .error e => (mmu, some e)
    | .ok (device, phys_range) =>
      match validate_physical_span paddr size phys_range with
      | some e => (mmu, some e)
      | none =>
        let device_offset := phys_range.device_offset + (paddr - phys_range.bus_start)
        let flags' := flags_for_device_flags device (flags ||| FLAG_VALID)
        let entry : MMUEntry :=
          { vaddr := vaddr, paddr := paddr, size := size, flags := flags'
            device_offset := device_offset, device := device }
        ({ mmu with regions := regionsInsert vaddr entry mmu.regions }, none)

/-- Model of `usize` wrapping subtraction (`wrapping_sub`). -/
def wrapSub64 (a b : Nat) : Nat := (a % U64 + U64 - b % U64) % U64

/-- Uppercase hex rendering with the `0x` prefix, modelling `{:#X}`. -/
def formatHexUpper (n : Nat) : String :=
  "0x" ++ String.map Char.toUpper (String.mk (Nat.toDigits 16 n))

/-- Model of `SoftMMU::translate_physical`.  `ram.ptr_at(device_offset)`
becomes `device.ram_base + device_offset` with the backing buffer address
kept opaque. -/
def SoftMMU.translate_physical (mmu : SoftMMU) (addr : Nat) :
    Except BusError (Nat × Nat × DeviceM) :=
  match mmu.bus.resolve_device_at addr with
  | .error e => .error e
  | .ok (device, phys_range) =>
    let device_offset := phys_range.device_offset + (addr - phys_range.bus_start)
    let flags := flags_for_device_flags device
      (FLAG_VALID ||| FLAG_READ ||| FLAG_WRITE ||| FLAG_EXEC)
    if device.is_ram then
      .ok (wrapSub64 (device.ram_base + device_offset) addr, flags, device)
    else .ok (wrapSub64 device_offset addr, flags, device)

/-- Model of `SoftMMU::translate_effective`. -/
def SoftMMU.translate_effective (mmu : SoftMMU) (vaddr : Nat) :
    Except BusError (Nat × Nat × DeviceM) :=
  match predLEEntry vaddr mmu.regions with
  | none =>
    .error (.PageFault ("No mapping for virtual address " ++ formatHexUpper vaddr))
  | some (_, entry) =>
    if entry.vaddr + entry.size ≤ vaddr then
      .error (.PageFault ("Address " ++ formatHexUpper vaddr ++
        " outside of mapped region [" ++ formatHexUpper entry.vaddr ++ " - " ++
        formatHexUpper (entry.vaddr + entry.size) ++ "]"))
    else
      let device_offset := entry.device_offset + (vaddr - entry.vaddr)
      let flags := flags_for_device_flags entry.device (entry.flags ||| FLAG_VALID)
      if entry.device.is_ram then
        .ok (wrapSub64 (entry.device.ram_base + device_offset) vaddr, flags, entry.device)
      else .ok (wrapSub64 device_offset vaddr, flags, entry.device)

/-- Model of `SoftMMU::translate`. -/
def SoftMMU.translate (mmu : SoftMMU) (vaddr : Nat) :
    Except BusError (Nat × Nat × DeviceM) :=
  match mmu.mode with
  | .Physical => mmu.translate_physical vaddr
  | .Effective => mmu.translate_effective vaddr

/-! ISA machine model (src/soc/isa/machine.rs and machine/disassembly.rs;
both coexisting variants implement the identical decode loop,
`select_space` and `best_match`).  The operand/display rendering
subsystem (`decode_operands`, `render_display`, format.rs) produces the
string fields of a listing entry; no claim consults those strings and
they are not modelled. -/

/-- The four binary operators admitted by `EnableExpr::compile`. -/
inductive BinaryOperator where
  | Eq
  | Ne
  | LogicalAnd
  | LogicalOr
deriving DecidableEq, Repr

/-- Model of the compiled `EnableExpr` (machine.rs). -/
inductive EnableExpr where
  | Literal (value : Nat)
  | BoolVal (value : Bool)
  | BitField (spec : BitFieldSpec)
  | Binary (op : BinaryOperator) (lhs rhs : EnableExpr)
deriving DecidableEq, Repr

/-- Model of `EnableValue` (machine.rs). -/
inductive EnableValue where
  | Number (value : Nat)
  | BoolVal (value : Bool)
deriving DecidableEq, Repr

/-- Model of `EnableValue::as_bool`. -/
def EnableValue.as_bool : EnableValue → Bool
  | .BoolVal value => value
  | .Number value => value ≠ 0

/-- Model of `EnableValue::as_number`. -/
def EnableValue.as_number : EnableValue → Nat
  | .Number value => value
  | .BoolVal value => if value then 1 else 0

/-- Model of `EnableExpr::evaluate`.  The source short-circuits
`LogicalAnd`/`LogicalOr`; evaluation is pure, so the result agrees with
the unconditional form used here. -/
def EnableExpr.evaluate (bits : Nat) : EnableExpr → EnableValue
  | .Literal value => .Number value
  | .BoolVal value => .BoolVal value
  | .BitField spec => .Number (spec.read_bits bits).1
  | .Binary op lhs rhs =>
    match op with
    | .Eq => .BoolVal ((lhs.evaluate bits).as_number = (rhs.evaluate bits).as_number)
    | .Ne => .BoolVal ((lhs.evaluate bits).as_number ≠ (rhs.evaluate bits).as_number)
    | .LogicalAnd => .BoolVal ((lhs.evaluate bits).as_bool && (rhs.evaluate bits).as_bool)
    | .LogicalOr => .BoolVal ((lhs.evaluate bits).as_bool || (rhs.evaluate bits).as_bool)

/-- Model of `LogicDecodeSpace` (the `EnablePredicate` wrapper is
flattened into the optional compiled expression it holds). -/
structure LogicDecodeSpace where
  name : String
  word_bits : Nat
  word_bytes : Nat
  mask : Nat
  endianness : Endianness
  enable : Option EnableExpr
deriving DecidableEq, Repr

/-- Model of `Instruction` restricted to the fields the decode loop
reads (`name`; `space` kept for context).  The remaining declaration
fields feed the pattern builder, which is outside the claims. -/
structure Instruction where
  space : String
  name : String
deriving DecidableEq, Repr

/-- Model of `InstructionPattern` (machine/instruction.rs). -/
structure InstructionPattern where
  instruction_idx : Nat
  space : String
  form : Option String
  mask : Nat
  value : Nat
  operand_names : List String
  display : Option String
  operator : Option String
  specificity : Nat
deriving DecidableEq, Repr

/-- Model of `MachineDescription` restricted to the decode state
(`spaces` feeds operand rendering and the builder only). -/
structure MachineDescription where
  instructions : List Instruction
  patterns : List InstructionPattern
  decode_spaces : List LogicDecodeSpace
deriving DecidableEq, Repr

/-- Model of `decode_word` (machine.rs / machine/disassembly.rs).  The
big-endian accumulator wraps at 64 bits like the `u64` it models. -/
def decode_word (bytes : List Nat) (endianness : Endianness) : Nat :=
  match endianness with
  | .Little => (bytes.enum.foldl (fun acc p => acc ||| p.2 <<< (p.1 * 8)) 0)
  | .Big => bytes.foldl (fun acc byte => ((acc <<< 8) % U64) ||| byte) 0

/-- Model of `MachineDescription::select_space`: the first decode space
(ascending word width) whose word fits and whose enable accepts it. -/
def MachineDescription.select_space (m : MachineDescription) (bytes : List Nat) :
    Option LogicDecodeSpace :=
  m.decode_spaces.find? fun space =>
    if bytes.length < space.word_bytes then false
    else
      match space.enable with
      | some predicate =>
        (predicate.evaluate (decode_word (bytes.take space.word_bytes) space.endianness &&&
          space.mask)).as_bool
      | none => true

/-- Model of `Iterator::max_by_key`: it keeps the current maximum only
when it is strictly greater, so among equal maxima the last one wins. -/
def max_by_specificity (l : List InstructionPattern) : Option InstructionPattern :=
  l.foldl
    (fun acc p =>
      match acc with
      | none => some p
      | some best => if p.specificity < best.specificity then some best else some p)
    none

/-- Model of `MachineDescription::best_match`. -/
def MachineDescription.best_match (m : MachineDescription) (space : String) (bits : Nat) :
    Option InstructionPattern :=
  max_by_specificity
    (m.patterns.filter fun p => p.space == space && bits &&& p.mask == p.value)

/-- Model of a `Disassembly` listing entry, restricted to the fields the
claims consult (address, masked opcode, mnemonic). -/
structure Disassembly where
  address : Nat
  opcode : Nat
  mnemonic : String
deriving DecidableEq, Repr

/-- The `while cursor < bytes.len()` loop of `disassemble_from`, written
with structural fuel: each emitted entry consumes at least one byte, so
`bytes.length` fuel is exact at the top-level call.  When a selected
space has `word_bytes = 0` the source loops forever; the model cuts the
listing there, which no terminating execution can observe. -/
def disassembleGo (m : MachineDescription) : Nat → List Nat → Nat → List Disassembly
  | 0, _, _ => []
  | fuel + 1, bytes, address =>
    if bytes = [] then []
    else
      match m.select_space bytes with
      | none => []
      | some space =>
        if bytes.length < space.word_bytes then []
        else if 0 < space.word_bytes then
          let bits := decode_word (bytes.take space.word_bytes) space.endianness &&& space.mask
          let entry :=
            match m.best_match space.name bits with
            | some pattern =>
              { address := address, opcode := bits
                mnemonic := (m.instructions.getD pattern.instruction_idx
                  { space := "", name := "" }).name }
            | none => { address := address, opcode := bits, mnemonic := "unknown" }
          entry ::
            disassembleGo m fuel (bytes.drop space.word_bytes) ((address + space.word_bytes) % U64)
        else []

/-- Model of `MachineDescription::disassemble_from`. -/
def MachineDescription.disassemble_from (m : MachineDescription) (bytes : List Nat)
    (base_address : Nat) : List Disassembly :=
  if m.decode_spaces = [] then [] else disassembleGo m bytes.length bytes base_address

/-! Concrete instances used by counterexamples and witnesses. -/

/-- Low-priority range `[0x00, 0x10)` (priority 0). -/
def rangeLowC1 : BusRange :=
  { bus_start := 0, bus_end := 0x10, device_offset := 0, device_id := 0
    priority := 0, kind := RangeKind.Device }

/-- High-priority range `[0x10, 0x20)` (priority 5). -/
def rangeHighC1 : BusRange :=
  { bus_start := 0x10, bus_end := 0x20, device_offset := 0, device_id := 1
    priority := 5, kind := RangeKind.Device }

/-- A two-range bus map about to receive a rejected insertion. -/
def mapC1 : BusMap := [(0, rangeLowC1), (0x10, rangeHighC1)]

/-- Priority-3 insertion `[0x08, 0x18)` overlapping both ranges. -/
def rangeNewC1 : BusRange :=
  { bus_start := 0x8, bus_end := 0x18, device_offset := 0, device_id := 2
    priority := 3, kind := RangeKind.Device }

/-- A 0x2000-byte RAM-backed device (the handle test fixture of handle.rs). -/
def devRam2000 : DeviceM :=
  { span_start := 0, span_end := 0x2000, endianness := Endianness.Little
    is_ram := true, ram_base := 0 }

/-- A 3-byte device exposing the cursor-past-size overflow of `advance`. -/
def devTiny3 : DeviceM :=
  { span_start := 0, span_end := 3, endianness := Endianness.Little
    is_ram := true, ram_base := 0 }

/-- The parse result of `from_spec_str(32, "@(16..29|0b00)")`. -/
def spec32C8 : BitFieldSpec :=
  { storage := 32
    segments := [.Slice { offset := 2, width := 14, mask := 0xFFFC }, .Literal 0 2]
    pad := none, signed := false, mask := 0xFFFC
    slice_meta := [some { rank_start := 0, width := 14 }, none] }

/-- A sign-padded spec (pad width 16 over a 32-bit container): the parse
result of `from_spec_str(32, "@(?1|16..29|0b00)")`. -/
def specSignC4 : BitFieldSpec :=
  { spec32C8 with pad := some { kind := PadKind.Sign, width := 16 } }

/-- A spec with two identical (hence overlapping) slices, as the builder
`BitFieldSpec::builder(16).range(0,4).range(0,4).finish()` produces. -/
def specOverlapC5 : BitFieldSpec :=
  (BitFieldSpec.mk 16
    [.Slice { offset := 0, width := 4, mask := 0xF },
     .Slice { offset := 0, width := 4, mask := 0xF }]
    none false 0 []).rebuild_cache

/-- First of two equally specific patterns over the same mask. -/
def patFirstC7 : InstructionPattern :=
  { instruction_idx := 0, space := "logic", form := none, mask := 0xF0, value := 0x10
    operand_names := [], display := none, operator := none, specificity := 4 }

/-- Second pattern, identical selection data, different instruction. -/
def patSecondC7 : InstructionPattern :=
  { patFirstC7 with instruction_idx := 1 }

/-- A one-space machine whose pattern table lists `patFirstC7` before
`patSecondC7`. -/
def machC7 : MachineDescription :=
  { instructions := [{ space := "logic", name := "alpha" }, { space := "logic", name := "beta" }]
    patterns := [patFirstC7, patSecondC7]
    decode_spaces := [{ name := "logic", word_bits := 8, word_bytes := 1, mask := 0xFF
                        endianness := Endianness.Big, enable := none }] }

/-- Fallback listing entry for indexed access in theorem statements. -/
def defaultEntry : Disassembly := { address := 0, opcode := 0, mnemonic := "" }

/-- A big-endian RAM device backing the MMU witness. -/
def devBigRamC10 : DeviceM :=
  { span_start := 0, span_end := 0x2000, endianness := Endianness.Big
    is_ram := true, ram_base := 0x7000 }

/-- A bus mapping `devBigRamC10` at `[0x1000, 0x3000)`. -/
def busC10 : DeviceBus :=
  { devices := [devBigRamC10]
    map := [(0x1000, { bus_start := 0x1000, bus_end := 0x3000, device_offset := 0
                       device_id := 0, priority := 0, kind := RangeKind.Device })] }

/-- An effective-mode MMU over `busC10` with no virtual regions yet. -/
def mmuC10 : SoftMMU := { regions := [], bus := busC10, mode := AddressMode.Effective }

/-- Two-argument step of the `max_by_key` fold of `max_by_specificity`. -/
def maxStep (best p : InstructionPattern) : InstructionPattern :=
  if p.specificity < best.specificity then best else p

/-! Bus map invariants, as maintained by `DeviceBus` (the `BTreeMap` keeps
keys strictly sorted; every entry is stored under its `bus_start`; live
ranges are pairwise disjoint). -/

/-- Keys strictly ascending (inherent to the `BTreeMap` entry list). -/
def MapSorted (m : BusMap) : Prop := List.Pairwise (fun a b => a.1 < b.1) m

/-- Every entry is keyed by its range's `bus_start`. -/
def MapKeysMatch (m : BusMap) : Prop := ∀ kv ∈ m, kv.1 = kv.2.bus_start

/-- Ranges pairwise disjoint, in map order. -/
def MapDisjoint (m : BusMap) : Prop :=
  List.Pairwise (fun a b => a.2.bus_end ≤ b.2.bus_start) m

instance (m : BusMap) : Decidable (MapSorted m) :=
  inferInstanceAs (Decidable (List.Pairwise _ _))

instance (m : BusMap) : Decidable (MapKeysMatch m) :=
  inferInstanceAs (Decidable (∀ kv ∈ m, _ = _))

instance (m : BusMap) : Decidable (MapDisjoint m) :=
  inferInstanceAs (Decidable (List.Pairwise _ _))

/-- Word-alignment condition of one disassembly position: the space
selected on the remaining stream exists and the word there has exactly
its (positive) word-byte length. -/
def alignedAt (m : MachineDescription) (ws : List (List Nat)) (k : Nat) : Prop :=
  match m.select_space ((ws.drop k).flatten) with
  | some sp => (ws.getD k []).length = sp.word_bytes ∧ 0 < sp.word_bytes
  | none => False

instance (m : MachineDescription) (ws : List (List Nat)) (k : Nat) :
    Decidable (alignedAt m ws k) := by
  unfold alignedAt
  cases m.select_space ((ws.drop k).flatten) with
  | none => exact inferInstanceAs (Decidable False)
  | some sp => exact inferInstanceAs (Decidable (_ ∧ _))

/-- Container mask contributed by a segment (zero for literals). -/
def segMask : BitFieldSegment → Nat
  | .Slice slice => slice.mask
  | .Literal _ _ => 0

/-- Total width of a segment list (equals `data_width`). -/
def sumW (segs : List BitFieldSegment) : Nat := (segs.map segWidth).sum

/-- Well-formedness of a slice, as `BitSlice::new` guarantees it. -/
def SliceWF (s : BitSlice) : Prop :=
  0 < s.width ∧ s.offset + s.width ≤ 64 ∧ s.mask = mask_for_width s.width <<< s.offset

/-- Well-formedness of a segment: parsed slices come from `BitSlice::new`
and parsed literal widths are positive and at most 64. -/
def SegWF : BitFieldSegment → Prop
  | .Slice slice => SliceWF slice
  | .Literal _ width => 0 < width ∧ width ≤ 64

/-- Well-formedness of every segment of a list. -/
def SegsWF (segs : List BitFieldSegment) : Prop := ∀ seg ∈ segs, SegWF seg

/-- Pairwise disjointness of the container bits claimed by the segments. -/
def SegsDisjoint (segs : List BitFieldSegment) : Prop :=
  List.Pairwise (fun a b => segMask a &&& segMask b = 0) segs

instance (s : BitSlice) : Decidable (SliceWF s) :=
  inferInstanceAs (Decidable (_ ∧ _ ∧ _))

instance (seg : BitFieldSegment) : Decidable (SegWF seg) := by
  unfold SegWF
  cases seg with
  | Slice s => exact inferInstanceAs (Decidable (SliceWF s))
  | Literal v w => exact inferInstanceAs (Decidable (_ ∧ _))

instance (segs : List BitFieldSegment) : Decidable (SegsWF segs) :=
  inferInstanceAs (Decidable (∀ seg ∈ segs, _))

instance (segs : List BitFieldSegment) : Decidable (SegsDisjoint segs) :=
  inferInstanceAs (Decidable (List.Pairwise _ _))

/-- Sign extension of a `t`-bit value to 64 bits. -/
def sext64 (t x : Nat) : Nat :=
  if 0 < t ∧ x.testBit (t - 1) then x + (U64 - 2 ^ t) else x

/-- The `w`-bit window of `z` starting at bit `r` (proof helper). -/
def win (r w z : Nat) : Nat := (z >>> r) % 2 ^ w

/-- The tail of `write_to` after pad verification (bitfield.rs lines
398-448): the portable write loop followed by the leftover-width check. -/
def portable_write_result (spec : BitFieldSpec) (container value : Nat) :
    Except BitFieldError Nat :=
  match write_segments value spec.data_width spec.total_width spec.segments container
      spec.data_width with
  | .error e => .error e
  | .ok (c, remaining) =>
    if remaining ≠ 0 then .error (.ValueTooWide spec.data_width spec.total_width)
    else .ok c

/-! Claim theorems. -/

/-- Left-to-right evaluation of `x &&& 2 ^ k`. -/
theorem and_two_pow_eq (x k : Nat) :
    x &&& 2 ^ k = if x.testBit k then 2 ^ k else 0 := by
  apply Nat.eq_of_testBit_eq
  intro i
  rcases eq_or_ne k i with rfl | hki
  · by_cases h : x.testBit k <;>
      simp [Nat.testBit_and, Nat.testBit_two_pow_self, h]
  · by_cases h : x.testBit k <;>
      simp [Nat.testBit_and, Nat.testBit_two_pow_of_ne hki, h]

/-- Non-vanishing of a single-bit mask test. -/
theorem and_two_pow_ne_zero (x k : Nat) :
    x &&& 2 ^ k ≠ 0 ↔ x.testBit k = true := by
  rw [and_two_pow_eq]
  by_cases h : x.testBit k
  · simp [h, (Nat.two_pow_pos k).ne']
  · simp [h]

/-- Bits of the 32-bit complement: bits below 32 flip, higher operand
bits (absent on an actual `u32`) pass through. -/
theorem testBit_not32 (m i : Nat) :
    (not32 m).testBit i = if i < 32 then !(m.testBit i) else m.testBit i := by
  simp only [not32, U32, Nat.testBit_xor, Nat.testBit_two_pow_sub_one]
  by_cases h : i < 32 <;> by_cases hm : m.testBit i <;> simp [h, hm]

/-- Bits of the 64-bit complement: bits below 64 flip, higher operand
bits (absent on an actual `u64`) pass through. -/
theorem testBit_not64 (m i : Nat) :
    (not64 m).testBit i = if i < 64 then !(m.testBit i) else m.testBit i := by
  simp only [not64, U64, Nat.testBit_xor, Nat.testBit_two_pow_sub_one]
  by_cases h : i < 64 <;> by_cases hm : m.testBit i <;> simp [h, hm]

/-- C1: counterexample evaluation.  Inserting the priority-3 range
`[0x08, 0x18)` into a map holding `[0x00, 0x10)` at priority 0 and
`[0x10, 0x20)` at priority 5 is rejected with `Overlap`, yet the map
afterwards holds only the prefix slice `[0x00, 0x08)` of the first range:
the rollback reinserted the already-sliced segment instead of the
original entry, so addresses `0x08..0x0F` lost their mapping. -/
theorem C1_failed_insert_mutates_map :
    insert_range mapC1 rangeNewC1 =
      ([(0, slice_range rangeLowC1 0 0x8), (0x10, rangeHighC1)],
        some (BusError.Overlap 0x8 "higher priority mapping already present")) ∧
    (insert_range mapC1 rangeNewC1).1 ≠ mapC1 := by
  constructor
  · rfl
  · decide

/-- C3: counterexample evaluation.  `advance(0x10)` from offset 0 on a
0x2000-byte handle succeeds but leaves the cursor at 0x20 (the source
adds `delta` twice on the success path; its own test
`move_relative_cursor` expects 0x10), and on a 3-byte handle
`advance(2)` succeeds leaving the cursor at 4, beyond `size`. -/
theorem C3_advance_double_add :
    ((DeviceHandle.new devRam2000 0).advance 0x10).1.offset = 0x20 ∧
    ((DeviceHandle.new devRam2000 0).advance 0x10).2 = none ∧
    ((DeviceHandle.new devTiny3 0).advance 2).2 = none ∧
    ((DeviceHandle.new devTiny3 0).advance 2).1.size <
      ((DeviceHandle.new devTiny3 0).advance 2).1.offset := by
  refine ⟨?_, ?_, ?_, ?_⟩ <;> decide

/-- C4: counterexample.  For the sign-padded spec (data width 16, pad
width 16, total width 32) and `v = 0xFFFF8004 < 2^32`, `write_to(0, v)`
succeeds with container `0x8004`, but `read_bits` of that container
returns `(0xFFFF8004, 32)` — the width counts the pad bits and the value
carries the replicated sign bits — not
`(v & ((1 << data_width) − 1), data_width) = (0x8004, 16)`. -/
theorem C4_read_bits_width_counts_pad :
    specSignC4.total_width = 32 ∧ specSignC4.data_width = 16 ∧
    (0xFFFF8004 : Nat) < 2 ^ specSignC4.total_width ∧
    specSignC4.write_to 0 0xFFFF8004 = .ok 0x8004 ∧
    specSignC4.read_bits 0x8004 = (0xFFFF8004, 32) ∧
    specSignC4.read_bits 0x8004 ≠
      (0xFFFF8004 &&& ((1 <<< specSignC4.data_width) - 1), specSignC4.data_width) := by
  refine ⟨?_, ?_, ?_, ?_, ?_, ?_⟩ <;> decide

/-- C5: counterexample.  For the cache-complete overlapping-slice spec
(union mask `0xF`, both slices ranked 0) and value `0x12`, the parallel
path applies and returns container 3 (`1 ||| 2` deposited), while the
portable loop returns container 2 (last writer wins): the two paths
disagree. -/
theorem C5_parallel_write_diverges :
    specOverlapC5.mask ≠ 0 ∧
    (∀ meta ∈ specOverlapC5.slice_meta, meta.isSome) ∧
    specOverlapC5.try_write_parallel 0 0x12 specOverlapC5.data_width
      specOverlapC5.total_width = some (.ok 3) ∧
    specOverlapC5.write_to 0 0x12 = .ok 2 := by
  refine ⟨?_, ?_, ?_, ?_⟩ <;> decide

/-- C7: counterexample.  Bits `0x15` match both equally specific
patterns; the claim says the first listed (`patFirstC7`, instruction
`alpha`) wins, but `best_match` (Rust `max_by_key`, which keeps the last
of equal maxima) returns `patSecondC7` and the listing shows `beta`. -/
theorem C7_tie_goes_to_last_pattern :
    (0x15 &&& patFirstC7.mask = patFirstC7.value) ∧
    (0x15 &&& patSecondC7.mask = patSecondC7.value) ∧
    patFirstC7.specificity = patSecondC7.specificity ∧
    machC7.best_match "logic" 0x15 = some patSecondC7 ∧
    patSecondC7 ≠ patFirstC7 ∧
    (machC7.disassemble_from [0x15] 0).map Disassembly.mnemonic = ["beta"] := by
  refine ⟨?_, ?_, ?_, ?_, ?_, ?_⟩ <;> decide

/-- C8: counterexample.  `from_spec_str(32, "@(16..29|0b00)")` parses to
the slice `(offset 2, width 14)` plus a two-bit zero literal, and
`read_bits(0x0000_ABCD)` returns `(0xABCC, 16)`, not the `(0xAF34, 16)`
the claim states (`0xAF34` would be the low 14 container bits shifted
up, not bits 16..29 in MSB-0 numbering). -/
theorem C8_read_bits_value_is_ABCC_not_AF34 :
    BitFieldSpec.from_spec_str 32 "@(16..29|0b00)" = .ok spec32C8 ∧
    spec32C8.read_bits 0xABCD ≠ (0xAF34, 16) := by
  constructor
  · decide
  · decide

/-- C8 (amended): the parse succeeds and `read_bits(0x0000_ABCD)`
returns the value `0xABCC` with width 16. -/
theorem C8_spec_parse_and_read :
    BitFieldSpec.from_spec_str 32 "@(16..29|0b00)" = .ok spec32C8 ∧
    spec32C8.read_bits 0xABCD = (0xABCC, 16) := by
  constructor
  · decide
  · decide

/-- C9: a RamMemory access of positive length reaching past `len` fails
with `OutOfRange{offset, len, capacity}`, and an access whose range lies
entirely within the span — including every zero-length access, whose
range is empty — succeeds.  Read and write behave alike. -/
theorem C9_ram_access_bounds (ram : RamMemory) (offset n : Nat) (data : List Nat) :
    (0 < n → ram.len < offset + n →
      ram.read offset n = .error (.OutOfRange offset n ram.len)) ∧
    (n = 0 ∨ offset + n ≤ ram.len → ∃ bytes, ram.read offset n = .ok bytes) ∧
    (0 < data.length → ram.len < offset + data.length →
      ram.write offset data = .error (.OutOfRange offset data.length ram.len)) ∧
    (data = [] ∨ offset + data.length ≤ ram.len →
      ∃ ram', ram.write offset data = .ok ram') := by
  refine ⟨?_, ?_, ?_, ?_⟩
  · intro hn hout
    unfold RamMemory.read
    rw [if_neg (by omega), if_pos hout]
  · rintro (rfl | hin)
    · exact ⟨[], by unfold RamMemory.read; simp⟩
    · unfold RamMemory.read
      by_cases h0 : n = 0
      · exact ⟨[], by rw [if_pos h0]⟩
      · exact ⟨_, by rw [if_neg h0, if_neg (by omega)]⟩
  · intro hn hout
    unfold RamMemory.write
    rw [if_neg (List.ne_nil_of_length_pos hn), if_pos hout]
  · rintro (rfl | hin)
    · exact ⟨ram, by unfold RamMemory.write; simp⟩
    · unfold RamMemory.write
      by_cases h0 : data = []
      · exact ⟨ram, by rw [if_pos h0]⟩
      · exact ⟨_, by rw [if_neg h0, if_neg (by omega)]⟩

/-- C9 witness: on a 0x100-byte RAM, a 2-byte read at 0xFF fails with
`OutOfRange` while a 2-byte read at 0xFE succeeds. -/
theorem C9_ram_access_bounds_witness :
    (RamMemory.new "ram" 0x100 Endianness.Little).read 0xFF 2 =
      .error (.OutOfRange 0xFF 2 0x100) ∧
    ∃ bytes, (RamMemory.new "ram" 0x100 Endianness.Little).read 0xFE 2 = .ok bytes :=
  ⟨(C9_ram_access_bounds (RamMemory.new "ram" 0x100 Endianness.Little) 0xFF 2 []).1
      (by decide) (by decide),
    (C9_ram_access_bounds (RamMemory.new "ram" 0x100 Endianness.Little) 0xFE 2 []).2.1
      (Or.inr (by decide))⟩

/-- Derivation law of `flags_for_device_flags`: the RAM bit reflects the
device's fast path, the BIGENDIAN bit reflects its endianness, and a set
VALID bit in the input survives. -/
theorem flags_for_device_flags_spec (d : DeviceM) (f : Nat) :
    (flags_for_device_flags d f &&& FLAG_RAM ≠ 0 ↔ d.is_ram = true) ∧
    (flags_for_device_flags d f &&& FLAG_BIGENDIAN ≠ 0 ↔ d.endianness = Endianness.Big) ∧
    (f &&& FLAG_VALID ≠ 0 → flags_for_device_flags d f &&& FLAG_VALID ≠ 0) := by
  have key4 : (flags_for_device_flags d f).testBit 4 = d.is_ram := by
    unfold flags_for_device_flags
    cases hr : d.is_ram <;> cases he : d.endianness <;>
      simp [testBit_not32,
        (by decide : FLAG_RAM.testBit 4 = true),
        (by decide : FLAG_BIGENDIAN.testBit 4 = false)]
  have key5 : (flags_for_device_flags d f).testBit 5 =
      decide (d.endianness = Endianness.Big) := by
    unfold flags_for_device_flags
    cases hr : d.is_ram <;> cases he : d.endianness <;>
      simp [he, testBit_not32,
        (by decide : FLAG_RAM.testBit 5 = false),
        (by decide : FLAG_BIGENDIAN.testBit 5 = true)]
  have key0 : (flags_for_device_flags d f).testBit 0 = f.testBit 0 := by
    unfold flags_for_device_flags
    cases hr : d.is_ram <;> cases he : d.endianness <;>
      simp [testBit_not32,
        (by decide : not32 FLAG_RAM % 2 = 1),
        (by decide : not32 FLAG_BIGENDIAN % 2 = 1),
        (by decide : ¬(FLAG_RAM % 2 = 1)),
        (by decide : ¬(FLAG_BIGENDIAN % 2 = 1))]
  refine ⟨?_, ?_, ?_⟩
  · rw [show FLAG_RAM = 2 ^ 4 from rfl, and_two_pow_ne_zero, key4]
  · rw [show FLAG_BIGENDIAN = 2 ^ 5 from rfl, and_two_pow_ne_zero, key5]
    simp
  · rw [show FLAG_VALID = 2 ^ 0 from rfl, and_two_pow_ne_zero, and_two_pow_ne_zero, key0]
    exact id

/-- Set VALID bit of any `f ||| VALID` combination. -/
theorem or_valid_ne_zero (f : Nat) : (f ||| FLAG_VALID) &&& FLAG_VALID ≠ 0 := by
  rw [show FLAG_VALID = 2 ^ 0 from rfl, and_two_pow_ne_zero]
  simp [(by decide : (2 ^ 0 : Nat).testBit 0 = true)]

/-- Self-membership of a fresh insertion into the region map. -/
theorem mem_regionsInsert (k : Nat) (v : MMUEntry) (l : List (Nat × MMUEntry)) :
    (k, v) ∈ regionsInsert k v l := by
  induction l with
  | nil => simp [regionsInsert]
  | cons head rest ih =>
    unfold regionsInsert
    by_cases h1 : k < head.1
    · simp [h1]
    · by_cases h2 : k = head.1 <;> simp [h1, h2, ih]

/-- C10: every entry `map_region` stores has VALID set and carries RAM
and BIGENDIAN flags derived from the bound device, whatever the caller
passed; `translate` returns flags satisfying the same property for the
device it returns. -/
theorem C10_mmu_flags_derived_from_device (mmu : SoftMMU) (vaddr paddr size flags : Nat) :
    ((mmu.map_region vaddr paddr size flags).2 = none →
      ∃ e, (vaddr, e) ∈ (mmu.map_region vaddr paddr size flags).1.regions ∧
        e.flags &&& FLAG_VALID ≠ 0 ∧
        (e.flags &&& FLAG_RAM ≠ 0 ↔ e.device.is_ram = true) ∧
        (e.flags &&& FLAG_BIGENDIAN ≠ 0 ↔ e.device.endianness = Endianness.Big)) ∧
    (∀ addend fl dev, mmu.translate vaddr = .ok (addend, fl, dev) →
      fl &&& FLAG_VALID ≠ 0 ∧
      (fl &&& FLAG_RAM ≠ 0 ↔ dev.is_ram = true) ∧
      (fl &&& FLAG_BIGENDIAN ≠ 0 ↔ dev.endianness = Endianness.Big)) := by
  constructor
  · intro hok
    unfold SoftMMU.map_region at hok ⊢
    by_cases h0 : size = 0
    · simp [h0] at hok
    · rw [if_neg h0] at hok ⊢
      by_cases hov : mmu.overlapsV vaddr (vaddr + size) = true
      · simp [hov] at hok
      · rw [if_neg hov] at hok ⊢
        rcases hres : mmu.bus.resolve_device_at paddr with e | dr
        · simp [hres] at hok
        · rcases hval : validate_physical_span paddr size dr.2 with _ | e
          · simp [hres, hval]
            refine ⟨_, mem_regionsInsert _ _ _, ?_, ?_, ?_⟩
            · exact (flags_for_device_flags_spec dr.1 (flags ||| FLAG_VALID)).2.2
                (or_valid_ne_zero flags)
            · exact (flags_for_device_flags_spec dr.1 (flags ||| FLAG_VALID)).1
            · exact (flags_for_device_flags_spec dr.1 (flags ||| FLAG_VALID)).2.1
          · simp [hres, hval] at hok
  · intro addend fl dev htr
    unfold SoftMMU.translate at htr
    cases hmode : mmu.mode with
    | Physical =>
      rw [hmode] at htr
      unfold SoftMMU.translate_physical at htr
      rcases hres : mmu.bus.resolve_device_at vaddr with e | dr
      · simp [hres] at htr
      · rw [hres] at htr
        have hf : fl = flags_for_device_flags dr.1
            (FLAG_VALID ||| FLAG_READ ||| FLAG_WRITE ||| FLAG_EXEC) ∧ dev = dr.1 := by
          by_cases hram : dr.1.is_ram = true <;> simp [hram] at htr <;>
            exact ⟨htr.2.1.symm, htr.2.2.symm⟩
        rcases hf with ⟨rfl, rfl⟩
        refine ⟨?_, (flags_for_device_flags_spec _ _).1, (flags_for_device_flags_spec _ _).2.1⟩
        exact (flags_for_device_flags_spec _ _).2.2 (by decide)
    | Effective =>
      rw [hmode] at htr
      unfold SoftMMU.translate_effective at htr
      rcases hpred : predLEEntry vaddr mmu.regions with _ | ⟨kk, entry⟩
      · simp [hpred] at htr
      · rw [hpred] at htr
        by_cases hout : entry.vaddr + entry.size ≤ vaddr
        · simp [hout] at htr
        · have hf : fl = flags_for_device_flags entry.device (entry.flags ||| FLAG_VALID) ∧
              dev = entry.device := by
            by_cases hram : entry.device.is_ram = true <;> simp [hram, hout] at htr <;>
              exact ⟨htr.2.1.symm, htr.2.2.symm⟩
          rcases hf with ⟨rfl, rfl⟩
          refine ⟨?_, (flags_for_device_flags_spec _ _).1, (flags_for_device_flags_spec _ _).2.1⟩
          exact (flags_for_device_flags_spec _ _).2.2 (or_valid_ne_zero _)

/-- C10 witness: mapping `[0x8000, 0x8100)` onto physical `0x1800` with
caller flags `READ` (neither RAM nor BIGENDIAN requested) stores an entry
whose VALID, RAM and BIGENDIAN bits are all set, as the device dictates. -/
theorem C10_mmu_flags_derived_from_device_witness :
    (mmuC10.map_region 0x8000 0x1800 0x100 FLAG_READ).2 = none ∧
    ∃ e, (0x8000, e) ∈ (mmuC10.map_region 0x8000 0x1800 0x100 FLAG_READ).1.regions ∧
      e.flags &&& FLAG_VALID ≠ 0 ∧
      (e.flags &&& FLAG_RAM ≠ 0 ↔ e.device.is_ram = true) ∧
      (e.flags &&& FLAG_BIGENDIAN ≠ 0 ↔ e.device.endianness = Endianness.Big) :=
  ⟨by decide,
    (C10_mmu_flags_derived_from_device mmuC10 0x8000 0x1800 0x100 FLAG_READ).1 (by decide)⟩

/-- A hit of the predecessor probe lies in the map with key at most `a`. -/
theorem predLE_mem {a : Nat} {m : BusMap} {p : Nat × BusRange}
    (h : predLE a m = some p) : p ∈ m ∧ p.1 ≤ a := by
  induction m with
  | nil => simp [predLE] at h
  | cons head rest ih =>
    unfold predLE at h
    rcases hr : predLE a rest with _ | q
    · rw [hr] at h
      by_cases hk : head.1 ≤ a
      · rw [if_pos hk] at h
        cases h
        exact ⟨List.mem_cons_self _ _, hk⟩
      · rw [if_neg hk] at h
        cases h
    · rw [hr] at h
      cases h
      rcases ih hr with ⟨hm, hle⟩
      exact ⟨List.mem_cons_of_mem _ hm, hle⟩

/-- When every key exceeds `a`, the predecessor probe misses. -/
theorem predLE_none {a : Nat} {m : BusMap} (h : ∀ kv ∈ m, a < kv.1) :
    predLE a m = none := by
  induction m with
  | nil => rfl
  | cons head rest ih =>
    unfold predLE
    rw [ih fun kv hkv => h kv (List.mem_cons_of_mem _ hkv)]
    rw [if_neg (by exact Nat.not_le.mpr (h head (List.mem_cons_self _ _)))]

/-- On a keys-matching, pairwise-disjoint map, the lookup finds exactly
the range containing the address. -/
theorem range_for_address_found {m : BusMap} {k a : Nat} {r : BusRange}
    (hk : MapKeysMatch m) (hd : MapDisjoint m) (hmem : (k, r) ∈ m)
    (h1 : r.bus_start ≤ a) (h2 : a < r.bus_end) :
    range_for_address m a = some r := by
  induction m with
  | nil => simp at hmem
  | cons head rest ih =>
    rcases List.mem_cons.mp hmem with heq | htail
    · cases heq
      have hnone : predLE a rest = none := by
        apply predLE_none
        intro kv hkv
        have hdisj : r.bus_end ≤ kv.2.bus_start :=
          (List.pairwise_cons.mp hd).1 kv hkv
        have hkey : kv.1 = kv.2.bus_start := hk kv (List.mem_cons_of_mem _ hkv)
        omega
      have hkey : k = r.bus_start := hk (k, r) hmem
      have hpred : predLE a ((k, r) :: rest) = some (k, r) := by
        unfold predLE
        simp [hnone, (show k ≤ a by omega)]
      unfold range_for_address
      rw [hpred]
      simp [h2]
    · have ihr := ih (fun kv hkv => hk kv (List.mem_cons_of_mem _ hkv))
        (List.pairwise_cons.mp hd).2 htail
      unfold range_for_address at ihr ⊢
      rcases hr : predLE a rest with _ | q
      · rw [hr] at ihr
        cases ihr
      · rw [hr] at ihr
        unfold predLE
        rw [hr]
        exact ihr

/-- When no range of a keys-matching map contains the address, the
lookup misses. -/
theorem range_for_address_not_found {m : BusMap} {a : Nat}
    (hk : MapKeysMatch m)
    (h : ∀ kv ∈ m, ¬(kv.2.bus_start ≤ a ∧ a < kv.2.bus_end)) :
    range_for_address m a = none := by
  unfold range_for_address
  rcases hp : predLE a m with _ | p
  · rfl
  · rcases p with ⟨k1, r1⟩
    rcases predLE_mem hp with ⟨hmem, hle⟩
    have hkey : k1 = r1.bus_start := hk (k1, r1) hmem
    have hno := h (k1, r1) hmem
    simp only [not_and, not_lt] at hno
    simp [(show ¬(a < r1.bus_end) by simp at hle hkey ⊢; omega)]

/-- C2: on a bus whose map satisfies the maintained invariants (sorted
keys, each entry keyed by its `bus_start`, pairwise disjoint ranges),
`resolve(a)` succeeds exactly when some range contains `a`; the handle is
built on that range's device with pin and cursor both at
`(a − bus_start) + device_offset`, and otherwise the call fails with
`InvalidAddress(a)`. -/
theorem C2_resolve_offset_and_miss (bus : DeviceBus) (a : Nat)
    (_hs : MapSorted bus.map) (hk : MapKeysMatch bus.map) (hd : MapDisjoint bus.map) :
    (∀ k r, (k, r) ∈ bus.map → r.bus_start ≤ a → a < r.bus_end →
      bus.resolve a = .ok (DeviceHandle.new (bus.devices.getD r.device_id defaultDevice)
        ((a - r.bus_start) + r.device_offset)) ∧
      (DeviceHandle.new (bus.devices.getD r.device_id defaultDevice)
        ((a - r.bus_start) + r.device_offset)).pin = (a - r.bus_start) + r.device_offset ∧
      (DeviceHandle.new (bus.devices.getD r.device_id defaultDevice)
        ((a - r.bus_start) + r.device_offset)).offset = (a - r.bus_start) + r.device_offset) ∧
    ((∀ kv ∈ bus.map, ¬(kv.2.bus_start ≤ a ∧ a < kv.2.bus_end)) →
      bus.resolve a = .error (.InvalidAddress a)) := by
  constructor
  · intro k r hmem h1 h2
    refine ⟨?_, rfl, rfl⟩
    unfold DeviceBus.resolve
    rw [range_for_address_found hk hd hmem h1 h2]
  · intro hnone
    unfold DeviceBus.resolve
    rw [range_for_address_not_found hk hnone]

/-- C2 witness: on `busC10` (one range `[0x1000, 0x3000)`, device offset
0), address `0x1234` resolves to pin = cursor = `0x234`, and address
`0x3000` fails with `InvalidAddress`. -/
theorem C2_resolve_offset_and_miss_witness :
    busC10.resolve 0x1234 = .ok (DeviceHandle.new devBigRamC10 0x234) ∧
    busC10.resolve 0x3000 = .error (.InvalidAddress 0x3000) := by
  have h := C2_resolve_offset_and_miss busC10 0x1234 (by decide) (by decide) (by decide)
  have h2 := C2_resolve_offset_and_miss busC10 0x3000 (by decide) (by decide) (by decide)
  constructor
  · exact (h.1 0x1000
      { bus_start := 0x1000, bus_end := 0x3000, device_offset := 0
        device_id := 0, priority := 0, kind := RangeKind.Device }
      (by decide) (by decide) (by decide)).1
  · exact h2.2 (by decide)

/-- The optioned fold of `max_by_specificity` equals the plain fold once
seeded. -/
theorem max_by_specificity_cons (b : InstructionPattern) (l : List InstructionPattern) :
    max_by_specificity (b :: l) = some (l.foldl maxStep b) := by
  suffices h : ∀ (l : List InstructionPattern) (b : InstructionPattern),
      l.foldl (fun acc p => match acc with
        | none => some p
        | some best => if p.specificity < best.specificity then some best else some p)
        (some b) = some (l.foldl maxStep b) by
    exact h l b
  intro l
  induction l with
  | nil => intro b; rfl
  | cons p rest ih =>
    intro b
    show List.foldl _ (if p.specificity < b.specificity then some b else some p) rest = _
    rw [show (if p.specificity < b.specificity then some b else some p) = some (maxStep b p) by
      unfold maxStep; split <;> rfl]
    exact ih (maxStep b p)

/-- Characterization of the seeded fold: the result is the last element
attaining the maximal specificity (or the seed, when every element is
strictly below it). -/
theorem foldl_maxStep_spec (l : List InstructionPattern) (b : InstructionPattern) :
    (l.foldl maxStep b = b ∧ ∀ q ∈ l, q.specificity < b.specificity) ∨
    (∃ l₁ l₂, l = l₁ ++ l.foldl maxStep b :: l₂ ∧
      b.specificity ≤ (l.foldl maxStep b).specificity ∧
      (∀ q ∈ l₁, q.specificity ≤ (l.foldl maxStep b).specificity) ∧
      (∀ q ∈ l₂, q.specificity < (l.foldl maxStep b).specificity)) := by
  induction l generalizing b with
  | nil => exact Or.inl ⟨rfl, by simp⟩
  | cons p rest ih =>
    have hstep : (p :: rest).foldl maxStep b = rest.foldl maxStep (maxStep b p) := rfl
    by_cases hlt : p.specificity < b.specificity
    · have hb : maxStep b p = b := by unfold maxStep; rw [if_pos hlt]
      rw [hstep, hb]
      rcases ih b with ⟨hr, hall⟩ | ⟨l₁, l₂, heq, hble, h₁, h₂⟩
      · left
        refine ⟨hr, ?_⟩
        intro q hq
        rcases List.mem_cons.mp hq with rfl | hq'
        · exact hlt
        · exact hall q hq'
      · right
        refine ⟨p :: l₁, l₂, by rw [List.cons_append, ← heq], hble, ?_, h₂⟩
        intro q hq
        rcases List.mem_cons.mp hq with rfl | hq'
        · exact Nat.le_of_lt (Nat.lt_of_lt_of_le hlt hble)
        · exact h₁ q hq'
    · have hb : maxStep b p = p := by unfold maxStep; rw [if_neg hlt]
      have hge : b.specificity ≤ p.specificity := Nat.le_of_not_lt hlt
      rw [hstep, hb]
      rcases ih p with ⟨hr, hall⟩ | ⟨l₁, l₂, heq, hble, h₁, h₂⟩
      · right
        rw [hr]
        exact ⟨[], rest, rfl, hge, by simp, hall⟩
      · right
        refine ⟨p :: l₁, l₂, by rw [List.cons_append, ← heq], Nat.le_trans hge hble, ?_, h₂⟩
        intro q hq
        rcases List.mem_cons.mp hq with rfl | hq'
        · exact hble
        · exact h₁ q hq'

/-- C7 (amended): a pattern returned by `best_match` matches the bits in
the requested space, attains the maximal specificity — the popcount of
its mask, given the builder invariant — among all matching patterns, and
is the last such maximal pattern in table order (every matching pattern
listed after it is strictly less specific). -/
theorem C7_best_match_max_specificity_last_wins (m : MachineDescription)
    (space : String) (bits : Nat) (p : InstructionPattern)
    (hpc : ∀ q ∈ m.patterns, q.specificity = popcount q.mask)
    (hbm : m.best_match space bits = some p) :
    p ∈ m.patterns ∧ p.space = space ∧ bits &&& p.mask = p.value ∧
    (∀ q ∈ m.patterns, q.space = space → bits &&& q.mask = q.value →
      popcount q.mask ≤ popcount p.mask) ∧
    (∃ l₁ l₂,
      m.patterns.filter (fun q => q.space == space && bits &&& q.mask == q.value) =
        l₁ ++ p :: l₂ ∧
      ∀ q ∈ l₂, q.specificity < p.specificity) := by
  unfold MachineDescription.best_match at hbm
  set ms := m.patterns.filter (fun q => q.space == space && bits &&& q.mask == q.value)
    with hms
  have hsub : ∀ q ∈ ms, q ∈ m.patterns ∧ q.space = space ∧ bits &&& q.mask = q.value := by
    intro q hq
    have := List.of_mem_filter hq
    simp only [Bool.and_eq_true, beq_iff_eq] at this
    exact ⟨List.mem_of_mem_filter hq, this.1, this.2⟩
  cases hcase : ms with
  | nil => rw [hcase] at hbm; cases hbm
  | cons b rest =>
    rw [hcase, max_by_specificity_cons] at hbm
    have hfold : rest.foldl maxStep b = p := by cases hbm; rfl
    have hmax : ∀ q ∈ ms, q.specificity ≤ p.specificity := by
      rcases foldl_maxStep_spec rest b with ⟨hr, hall⟩ | ⟨l₁, l₂, heq, hble, h₁, h₂⟩
      · intro q hq
        rw [hcase] at hq
        rw [hfold] at hr
        rcases List.mem_cons.mp hq with rfl | hq'
        · rw [hr]
        · rw [hr]; exact Nat.le_of_lt (hall q hq')
      · intro q hq
        rw [hcase] at hq
        rw [hfold] at hble h₁ h₂ heq
        rcases List.mem_cons.mp hq with rfl | hq'
        · exact hble
        · rw [heq] at hq'
          rcases List.mem_append.mp hq' with hq₁ | hq₂
          · exact h₁ q hq₁
          · rcases List.mem_cons.mp hq₂ with rfl | hq₃
            · exact Nat.le_refl _
            · exact Nat.le_of_lt (h₂ q hq₃)
    have hpmem : p ∈ ms := by
      rcases foldl_maxStep_spec rest b with ⟨hr, _⟩ | ⟨l₁, l₂, heq, _, _, _⟩
      · rw [hcase]; rw [hfold] at hr; rw [hr]; exact List.mem_cons_self _ _
      · rw [hcase]; rw [hfold] at heq; rw [heq]
        exact List.mem_cons_of_mem _ (List.mem_append.mpr (Or.inr (List.mem_cons_self _ _)))
    rcases hsub p hpmem with ⟨hpat, hsp, hval⟩
    refine ⟨hpat, hsp, hval, ?_, ?_⟩
    · intro q hq hqs hqv
      have hqms : q ∈ ms := List.mem_filter.mpr ⟨hq, by simp [hqs, hqv]⟩
      have := hmax q hqms
      rw [hpc q (hsub q hqms).1, hpc p hpat] at this
      exact this
    · rcases foldl_maxStep_spec rest b with ⟨hr, hall⟩ | ⟨l₁, l₂, heq, hble, h₁, h₂⟩
      · rw [hfold] at hr
        refine ⟨[], rest, by rw [hr]; rfl, ?_⟩
        intro q hq
        rw [hr]
        exact hall q hq
      · rw [hfold] at heq h₂
        exact ⟨b :: l₁, l₂, by rw [List.cons_append, ← heq], h₂⟩

set_option maxRecDepth 4096 in
/-- C7 amended-theorem witness, at the tie machine: the returned pattern
`patSecondC7` matches, is maximally specific, and is last among maxima. -/
theorem C7_best_match_last_wins_witness :
    patSecondC7 ∈ machC7.patterns ∧ patSecondC7.space = "logic" ∧
    0x15 &&& patSecondC7.mask = patSecondC7.value ∧
    (∀ q ∈ machC7.patterns, q.space = "logic" → 0x15 &&& q.mask = q.value →
      popcount q.mask ≤ popcount patSecondC7.mask) := by
  have h := C7_best_match_max_specificity_last_wins machC7 "logic" 0x15 patSecondC7
    (by decide) (by decide)
  exact ⟨h.1, h.2.1, h.2.2.1, h.2.2.2.1⟩

/-- The decode loop on an empty stream is empty at any fuel. -/
theorem disassembleGo_nil (m : MachineDescription) (fuel address : Nat) :
    disassembleGo m fuel [] address = [] := by
  cases fuel <;> simp [disassembleGo]

/-- Word-aligned characterization of the decode loop: with one selected
space per position and exact word lengths, every word yields exactly one
entry whose opcode is the word decoded and masked by its space. -/
theorem disassembleGo_words (m : MachineDescription) (ws : List (List Nat)) :
    ∀ fuel address, ws.flatten.length ≤ fuel →
    (∀ k, k < ws.length → alignedAt m ws k) →
    (disassembleGo m fuel ws.flatten address).length = ws.length ∧
    (∀ k sp, k < ws.length → m.select_space ((ws.drop k).flatten) = some sp →
      ((disassembleGo m fuel ws.flatten address).getD k defaultEntry).opcode =
        decode_word (ws.getD k []) sp.endianness &&& sp.mask) := by
  induction ws with
  | nil =>
    intro fuel address _ _
    refine ⟨by simp [disassembleGo_nil], ?_⟩
    intro k sp hk
    simp at hk
  | cons w rest ih =>
    intro fuel address hfuel hal
    have hal0 := hal 0 (by simp)
    unfold alignedAt at hal0
    rcases hsel : m.select_space (((w :: rest).drop 0).flatten) with _ | sp
    · rw [hsel] at hal0
      exact hal0.elim
    · rw [hsel] at hal0
      obtain ⟨hwlen, hwpos⟩ := hal0
      simp only [List.getD, List.get?_eq_getElem?] at hwlen
      have hwlen' : w.length = sp.word_bytes := by simpa using hwlen
      have hsel' : m.select_space (w ++ rest.flatten) = some sp := by
        simpa using hsel
      have hflat : (w :: rest).flatten = w ++ rest.flatten := List.flatten_cons
      have hne : w ++ rest.flatten ≠ [] := by
        have hpos : 0 < (w ++ rest.flatten).length := by
          rw [List.length_append]
          omega
        intro h
        rw [h] at hpos
        simp at hpos
      have hlen3 : (w :: rest).flatten.length = w.length + rest.flatten.length := by
        rw [hflat, List.length_append]
      have hlen2 : ¬((w ++ rest.flatten).length < sp.word_bytes) := by
        rw [List.length_append]
        omega
      have htake : (w ++ rest.flatten).take sp.word_bytes = w := by
        rw [← hwlen']
        exact List.take_left w rest.flatten
      have hdrop : (w ++ rest.flatten).drop sp.word_bytes = rest.flatten := by
        rw [← hwlen']
        exact List.drop_left w rest.flatten
      cases fuel with
      | zero =>
        exfalso
        omega
      | succ f =>
        have hgo : ∃ e, disassembleGo m (f + 1) (w ++ rest.flatten) address =
            e :: disassembleGo m f rest.flatten ((address + sp.word_bytes) % U64) ∧
            e.opcode = decode_word w sp.endianness &&& sp.mask := by
          cases hbm : m.best_match sp.name
              (decode_word ((w ++ rest.flatten).take sp.word_bytes) sp.endianness &&&
                sp.mask) with
          | none =>
            refine ⟨{ address := address
                      opcode := decode_word ((w ++ rest.flatten).take sp.word_bytes)
                        sp.endianness &&& sp.mask
                      mnemonic := "unknown" }, ?_, ?_⟩
            · simp only [disassembleGo]
              rw [if_neg hne, hsel']
              show (if (w ++ rest.flatten).length < sp.word_bytes then [] else _) = _
              rw [if_neg hlen2, if_pos hwpos, hbm]
              simp [hdrop]
            · simp [htake]
          | some pat =>
            refine ⟨{ address := address
                      opcode := decode_word ((w ++ rest.flatten).take sp.word_bytes)
                        sp.endianness &&& sp.mask
                      mnemonic := (m.instructions.getD pat.instruction_idx
                        { space := "", name := "" }).name }, ?_, ?_⟩
            · simp only [disassembleGo]
              rw [if_neg hne, hsel']
              show (if (w ++ rest.flatten).length < sp.word_bytes then [] else _) = _
              rw [if_neg hlen2, if_pos hwpos, hbm]
              simp [hdrop]
            · simp [htake]
        obtain ⟨e, hcons, hop⟩ := hgo
        have hrest := ih f ((address + sp.word_bytes) % U64) (by omega)
          (fun k hk => hal (k + 1) (by simpa using Nat.succ_lt_succ hk))
        constructor
        · rw [hflat, hcons]
          simp [hrest.1]
        · intro k sp' hk hsel2
          cases k with
          | zero =>
            have : sp' = sp := by
              rw [hsel] at hsel2
              cases hsel2
              rfl
            subst this
            rw [hflat, hcons]
            simpa using hop
          | succ k' =>
            rw [hflat, hcons]
            have hk' : k' < rest.length := by simpa using hk
            have hsel2' : m.select_space ((rest.drop k').flatten) = some sp' := hsel2
            simpa using hrest.2 k' sp' hk' hsel2'

/-- C6: disassembling the concatenation of words, each exactly as long as
the decode space selected at its position, yields one listing entry per
word, and the k-th opcode is the k-th word decoded with its space's
endianness and masked with that space's mask. -/
theorem C6_disassembly_one_entry_per_word (m : MachineDescription)
    (ws : List (List Nat)) (base : Nat)
    (hal : ∀ k, k < ws.length → alignedAt m ws k) :
    (m.disassemble_from ws.flatten base).length = ws.length ∧
    (∀ k sp, k < ws.length → m.select_space ((ws.drop k).flatten) = some sp →
      ((m.disassemble_from ws.flatten base).getD k defaultEntry).opcode =
        decode_word (ws.getD k []) sp.endianness &&& sp.mask) := by
  unfold MachineDescription.disassemble_from
  by_cases hds : m.decode_spaces = []
  · rw [if_pos hds]
    cases ws with
    | nil => exact ⟨rfl, by intro k sp hk; simp at hk⟩
    | cons w rest =>
      exfalso
      have h0 := hal 0 (by simp)
      unfold alignedAt at h0
      have hnone : m.select_space (((w :: rest).drop 0).flatten) = none := by
        unfold MachineDescription.select_space
        rw [hds]
        rfl
      rw [hnone] at h0
      exact h0
  · rw [if_neg hds]
    exact disassembleGo_words m ws ws.flatten.length base (Nat.le_refl _) hal

set_option maxRecDepth 4096 in
/-- C6 witness: two one-byte words through the single-space machine give
a two-entry listing whose first opcode is the first word. -/
theorem C6_disassembly_one_entry_per_word_witness :
    (machC7.disassemble_from ([0x15] ++ [0x03] ++ []) 0x1000).length = 2 ∧
    ((machC7.disassemble_from ([0x15] ++ [0x03] ++ []) 0x1000).getD 0 defaultEntry).opcode =
      decode_word [0x15] Endianness.Big &&& 0xFF := by
  have h := C6_disassembly_one_entry_per_word machC7 [[0x15], [0x03]] 0x1000
    (by decide)
  refine ⟨h.1, ?_⟩
  have h2 := h.2 0 { name := "logic", word_bits := 8, word_bytes := 1, mask := 0xFF
                     endianness := Endianness.Big, enable := none }
    (by decide) (by decide)
  simpa using h2


/-! Bit-arithmetic toolkit for the write/read round trip (C4) and the
parallel-path equivalence (C5). -/

theorem mask_for_width_eq {w : Nat} (h : w ≤ 64) : mask_for_width w = 2 ^ w - 1 := by
  by_cases h64 : 64 ≤ w
  · have hw : w = 64 := Nat.le_antisymm h h64
    subst hw; rfl
  · simp [mask_for_width, h64]

theorem and_mask_eq_mod {w : Nat} (x : Nat) (h : w ≤ 64) :
    x &&& mask_for_width w = x % 2 ^ w := by
  rw [mask_for_width_eq h, Nat.and_pow_two_sub_one_eq_mod]

theorem shiftLeft_or_eq_add {a p w : Nat} (hp : p < 2 ^ w) :
    a <<< w ||| p = a * 2 ^ w + p := by
  rw [Nat.shiftLeft_eq, Nat.mul_comm a (2 ^ w)]
  exact (Nat.mul_add_lt_is_or hp a).symm

theorem shl_lt {p o w : Nat} (hp : p < 2 ^ w) (how : o + w ≤ 64) : p <<< o < U64 := by
  rw [Nat.shiftLeft_eq]
  calc p * 2 ^ o < 2 ^ w * 2 ^ o := mul_lt_mul_of_pos_right hp (Nat.two_pow_pos o)
    _ = 2 ^ (w + o) := (Nat.pow_add 2 w o).symm
    _ ≤ 2 ^ 64 := Nat.pow_le_pow_right (by omega) (by omega)

theorem shl_shr_cancel (p o : Nat) : (p <<< o) >>> o = p := by
  rw [Nat.shiftLeft_eq, Nat.shiftRight_eq_div_pow]
  exact Nat.mul_div_cancel _ (Nat.two_pow_pos o)

theorem testBit_ge_64_eq_false {x i : Nat} (hx : x < U64) (hi : 64 ≤ i) :
    x.testBit i = false :=
  Nat.testBit_lt_two_pow (lt_of_lt_of_le hx (Nat.pow_le_pow_right (by omega) hi))

theorem and_eq_zero_testBit {m M : Nat} (h : m &&& M = 0) (i : Nat) :
    m.testBit i = false ∨ M.testBit i = false := by
  have h2 := congrArg (fun n => n.testBit i) h
  simp only [Nat.testBit_and, Nat.zero_testBit, Bool.and_eq_false_iff] at h2
  exact h2

theorem sliceWF_mask_lt {s : BitSlice} (h : SliceWF s) : s.mask < U64 := by
  obtain ⟨hw0, how, hm⟩ := h
  rw [hm, mask_for_width_eq (by omega)]
  exact shl_lt (Nat.sub_lt (Nat.two_pow_pos _) Nat.one_pos) how

theorem segWidth_pos {seg : BitFieldSegment} (h : SegWF seg) : 0 < segWidth seg := by
  cases seg with
  | Slice s => exact h.1
  | Literal v w => exact h.1

/-- Writing a slice leaves every container bit outside the slice's mask
unchanged (single step). -/
theorem write_slice_frame {C₀ part o m M : Nat} (_hm : m < U64) (hM : M < U64)
    (hdisj : m &&& M = 0) :
    (C₀ &&& not64 m ||| (part <<< o) &&& m) &&& M = C₀ &&& M := by
  apply Nat.eq_of_testBit_eq
  intro i
  rcases Nat.lt_or_ge i 64 with hi | hi
  · simp only [Nat.testBit_and, Nat.testBit_or]
    rcases and_eq_zero_testBit hdisj i with h | h
    · have hnot : (not64 m).testBit i = true := by
        rw [testBit_not64, if_pos hi, h]
        rfl
      simp [hnot, h]
    · simp [h]
  · have hMi : M.testBit i = false := testBit_ge_64_eq_false hM hi
    simp [Nat.testBit_and, hMi]






















/-- Writing a slice sets exactly the slice's bits of the container to the
shifted part (single step). -/
theorem write_slice_value {C₀ part o w : Nat} (how : o + w ≤ 64) (hp : part < 2 ^ w) :
    (C₀ &&& not64 (mask_for_width w <<< o) |||
      (part <<< o) &&& (mask_for_width w <<< o)) &&& (mask_for_width w <<< o) =
      part <<< o := by
  have hw : w ≤ 64 := by omega
  rw [mask_for_width_eq hw]
  apply Nat.eq_of_testBit_eq
  intro i
  simp only [Nat.testBit_and, Nat.testBit_or, Nat.testBit_shiftLeft,
    Nat.testBit_two_pow_sub_one]
  by_cases hio : o ≤ i
  · by_cases hiw : i - o < w
    · have hi64 : i < 64 := by omega
      have hnot : (not64 ((2 ^ w - 1) <<< o)).testBit i = false := by
        rw [testBit_not64, if_pos hi64]
        simp [Nat.testBit_shiftLeft, Nat.testBit_two_pow_sub_one, hio, hiw]
      simp [hnot, hio, hiw]
    · have hpb : part.testBit (i - o) = false :=
        Nat.testBit_lt_two_pow
          (lt_of_lt_of_le hp (Nat.pow_le_pow_right (by omega) (by omega)))
      simp [hiw, hpb]
  · simp [hio]

/-- The portable write loop never touches container bits outside the union
of the segments' masks. -/
theorem write_segments_frame (v d t M : Nat) (hM : M < U64) :
    ∀ (segs : List BitFieldSegment) (C₀ C r r' : Nat),
      SegsWF segs → (∀ seg ∈ segs, segMask seg &&& M = 0) →
      write_segments v d t segs C₀ r = .ok (C, r') →
      C &&& M = C₀ &&& M := by
  intro segs
  induction segs with
  | nil =>
    intro C₀ C r r' _ _ hw
    simp only [write_segments, Except.ok.injEq, Prod.mk.injEq] at hw
    rw [hw.1]
  | cons seg rest ih =>
    intro C₀ C r r' hwf hdisj hw
    cases seg with
    | Slice sl =>
      simp only [write_segments] at hw
      split at hw
      · exact Except.noConfusion hw
      · have hm : sl.mask < U64 := sliceWF_mask_lt (hwf _ (List.mem_cons_self _ _))
        have hstep := ih _ C _ r'
          (fun s hs => hwf s (List.mem_cons_of_mem _ hs))
          (fun s hs => hdisj s (List.mem_cons_of_mem _ hs)) hw
        rw [hstep]
        exact write_slice_frame hm hM (hdisj _ (List.mem_cons_self _ _))
    | Literal lit width =>
      simp only [write_segments] at hw
      split at hw
      · exact Except.noConfusion hw
      · split at hw
        · exact Except.noConfusion hw
        · exact ih _ C _ r'
            (fun s hs => hwf s (List.mem_cons_of_mem _ hs))
            (fun s hs => hdisj s (List.mem_cons_of_mem _ hs)) hw

theorem acc_append_lt {a wa p w : Nat} (ha : a < 2 ^ wa) (hp : p < 2 ^ w) :
    a * 2 ^ w + p < 2 ^ (wa + w) := by
  calc a * 2 ^ w + p < a * 2 ^ w + 2 ^ w := by omega
    _ = (a + 1) * 2 ^ w := by ring
    _ ≤ 2 ^ wa * 2 ^ w := Nat.mul_le_mul_right _ ha
    _ = 2 ^ (wa + w) := (Nat.pow_add 2 wa w).symm

theorem data_width_eq_sumW (spec : BitFieldSpec) :
    spec.data_width = sumW spec.segments := rfl

theorem sumW_cons (seg : BitFieldSegment) (rest : List BitFieldSegment) :
    sumW (seg :: rest) = segWidth seg + sumW rest := by
  simp [sumW]

/-- Round trip of the portable loops: writing `v`'s low `sumW segs` bits
through pairwise-disjoint well-formed segments and extracting them with the
final container appends exactly those bits to the extraction accumulator. -/
theorem write_then_extract (v d t : Nat) :
    ∀ (segs : List BitFieldSegment) (C₀ C a wa r' : Nat),
      SegsWF segs → SegsDisjoint segs →
      wa + sumW segs ≤ 64 → a < 2 ^ wa →
      write_segments v d t segs C₀ (sumW segs) = .ok (C, r') →
      segs.foldl (extractStep C) (a, wa) =
        (a * 2 ^ sumW segs + v % 2 ^ sumW segs, wa + sumW segs) := by
  intro segs
  induction segs with
  | nil =>
    intro C₀ C a wa r' _ _ _ _ _
    simp [sumW, Nat.mod_one]
  | cons seg rest ih =>
    intro C₀ C a wa r' hwf hdisj hle ha hw
    have hsum := sumW_cons seg rest
    have hwfrest : SegsWF rest := fun s hs => hwf s (List.mem_cons_of_mem _ hs)
    have hdisjrest : SegsDisjoint rest := (List.pairwise_cons.mp hdisj).2
    have hdisjhead := (List.pairwise_cons.mp hdisj).1
    cases seg with
    | Slice sl =>
      obtain ⟨hw0, how, hmask⟩ : SliceWF sl := hwf _ (List.mem_cons_self _ _)
      have hwle : sl.width ≤ 64 := by omega
      rw [show segWidth (BitFieldSegment.Slice sl) = sl.width from rfl] at hsum
      simp only [write_segments] at hw
      split at hw
      · next hcontra =>
          rw [hsum] at hcontra
          omega
      · have hrem : sumW (BitFieldSegment.Slice sl :: rest) - sl.width = sumW rest := by
          omega
        rw [hrem] at hw
        have hpart_lt : (v >>> sumW rest) &&& mask_for_width sl.width < 2 ^ sl.width := by
          rw [and_mask_eq_mod _ hwle]
          exact Nat.mod_lt _ (Nat.two_pow_pos _)
        have hframe := write_segments_frame v d t sl.mask (sliceWF_mask_lt ⟨hw0, how, hmask⟩)
          rest _ C _ r' hwfrest
          (fun s hs => by
            rw [Nat.land_comm]
            exact hdisjhead s hs) hw
        have hCval : C &&& sl.mask =
            ((v >>> sumW rest) &&& mask_for_width sl.width) <<< sl.offset := by
          rw [hframe, hmask]
          exact write_slice_value how hpart_lt
        have hacc_lt : a * 2 ^ sl.width + ((v >>> sumW rest) &&& mask_for_width sl.width)
            < 2 ^ (wa + sl.width) := acc_append_lt ha hpart_lt
        have hstep : extractStep C (a, wa) (BitFieldSegment.Slice sl) =
            (a * 2 ^ sl.width + ((v >>> sumW rest) &&& mask_for_width sl.width),
             wa + sl.width) := by
          simp only [extractStep]
          rw [hCval, shl_shr_cancel, shiftLeft_or_eq_add hpart_lt, Nat.mod_eq_of_lt]
          calc a * 2 ^ sl.width + ((v >>> sumW rest) &&& mask_for_width sl.width)
              < 2 ^ (wa + sl.width) := hacc_lt
            _ ≤ U128 := Nat.pow_le_pow_right (by omega) (by omega)
        have hihapp := ih _ C
          (a * 2 ^ sl.width + ((v >>> sumW rest) &&& mask_for_width sl.width))
          (wa + sl.width) r' hwfrest hdisjrest (by omega) hacc_lt hw
        rw [List.foldl_cons, hstep, hihapp]
        have hpart_eq : (v >>> sumW rest) &&& mask_for_width sl.width =
            v / 2 ^ sumW rest % 2 ^ sl.width := by
          rw [and_mask_eq_mod _ hwle, Nat.shiftRight_eq_div_pow]
        have hmod : v % 2 ^ (sl.width + sumW rest) =
            v % 2 ^ sumW rest + 2 ^ sumW rest * (v / 2 ^ sumW rest % 2 ^ sl.width) := by
          rw [Nat.add_comm sl.width, Nat.pow_add]
          exact Nat.mod_mul
        simp only [Prod.mk.injEq]
        constructor
        · rw [hsum, hmod, hpart_eq, Nat.pow_add]
          ring
        · rw [hsum]
          omega
    | Literal lit width =>
      obtain ⟨hw0, hwle⟩ : 0 < width ∧ width ≤ 64 := hwf _ (List.mem_cons_self _ _)
      rw [show segWidth (BitFieldSegment.Literal lit width) = width from rfl] at hsum
      simp only [write_segments] at hw
      split at hw
      · next hcontra =>
          rw [hsum] at hcontra
          omega
      · split at hw
        · exact Except.noConfusion hw
        · next hne =>
            have hmatch : (v >>> (sumW (BitFieldSegment.Literal lit width :: rest) - width))
                &&& mask_for_width width = lit &&& mask_for_width width :=
              Decidable.not_not.mp hne
            have hrem : sumW (BitFieldSegment.Literal lit width :: rest) - width
                = sumW rest := by
              omega
            rw [hrem] at hw hmatch
            have hpart_lt : (v >>> sumW rest) &&& mask_for_width width < 2 ^ width := by
              rw [and_mask_eq_mod _ hwle]
              exact Nat.mod_lt _ (Nat.two_pow_pos _)
            have hacc_lt : a * 2 ^ width + ((v >>> sumW rest) &&& mask_for_width width)
                < 2 ^ (wa + width) := acc_append_lt ha hpart_lt
            have hstep : extractStep C (a, wa) (BitFieldSegment.Literal lit width) =
                (a * 2 ^ width + ((v >>> sumW rest) &&& mask_for_width width),
                 wa + width) := by
              simp only [extractStep]
              rw [← hmatch, shiftLeft_or_eq_add hpart_lt, Nat.mod_eq_of_lt]
              calc a * 2 ^ width + ((v >>> sumW rest) &&& mask_for_width width)
                  < 2 ^ (wa + width) := hacc_lt
                _ ≤ U128 := Nat.pow_le_pow_right (by omega) (by omega)
            have hihapp := ih C₀ C
              (a * 2 ^ width + ((v >>> sumW rest) &&& mask_for_width width))
              (wa + width) r' hwfrest hdisjrest (by omega) hacc_lt hw
            rw [List.foldl_cons, hstep, hihapp]
            have hpart_eq : (v >>> sumW rest) &&& mask_for_width width =
                v / 2 ^ sumW rest % 2 ^ width := by
              rw [and_mask_eq_mod _ hwle, Nat.shiftRight_eq_div_pow]
            have hmod : v % 2 ^ (width + sumW rest) =
                v % 2 ^ sumW rest + 2 ^ sumW rest * (v / 2 ^ sumW rest % 2 ^ width) := by
              rw [Nat.add_comm width, Nat.pow_add]
              exact Nat.mod_mul
            simp only [Prod.mk.injEq]
            constructor
            · rw [hsum, hmod, hpart_eq, Nat.pow_add]
              ring
            · rw [hsum]
              omega

/-- The top bit of a `t`-bit value tests `2^(t-1) ≤ v`. -/
theorem testBit_top {t v : Nat} (ht : 0 < t) (hv : v < 2 ^ t) :
    v.testBit (t - 1) = decide (2 ^ (t - 1) ≤ v) := by
  rw [Nat.testBit_to_div_mod]
  have h3 : 2 ^ (t - 1) * 2 = 2 ^ t := by
    rw [← Nat.pow_succ]
    congr 1
    omega
  have hq2 : v / 2 ^ (t - 1) < 2 := Nat.div_lt_of_lt_mul (by omega)
  by_cases hle : 2 ^ (t - 1) ≤ v
  · have h1 : 1 ≤ v / 2 ^ (t - 1) := (Nat.one_le_div_iff (Nat.two_pow_pos _)).mpr hle
    have h2 : v / 2 ^ (t - 1) % 2 = 1 := by omega
    simp [h2, hle]
  · have h1 : v / 2 ^ (t - 1) = 0 := Nat.div_eq_of_lt (by omega)
    simp [h1, hle]

/-- The source's shift-up/arithmetic-shift-down sequence on a `t`-bit value
is 64-bit sign extension. -/
theorem sar64_sext {t v : Nat} (ht : 0 < t) (ht64 : t ≤ 64) (hv : v < 2 ^ t) :
    sar64 ((v <<< (64 - t)) % U64) (64 - t) = sext64 t v := by
  have hlt : v * 2 ^ (64 - t) < U64 := by
    calc v * 2 ^ (64 - t) < 2 ^ t * 2 ^ (64 - t) :=
      mul_lt_mul_of_pos_right hv (Nat.two_pow_pos _)
    _ = U64 := by
      rw [← Nat.pow_add, show t + (64 - t) = 64 from by omega]
      rfl
  rw [Nat.shiftLeft_eq, Nat.mod_eq_of_lt hlt]
  simp only [sar64]
  rw [Nat.mod_eq_of_lt hlt]
  have hshr : (v * 2 ^ (64 - t)) >>> (64 - t) = v := by
    rw [Nat.shiftRight_eq_div_pow]
    exact Nat.mul_div_cancel _ (Nat.two_pow_pos _)
  have hU : U64 >>> (64 - t) = 2 ^ t := by
    rw [Nat.shiftRight_eq_div_pow]
    show 2 ^ 64 / 2 ^ (64 - t) = 2 ^ t
    rw [Nat.pow_div (by omega) (by omega)]
    congr 1
    omega
  have hcond : (v * 2 ^ (64 - t) < 2 ^ 63) ↔ v < 2 ^ (t - 1) := by
    have h1 : (2 : Nat) ^ 63 = 2 ^ (t - 1) * 2 ^ (64 - t) := by
      rw [← Nat.pow_add]
      congr 1
      omega
    rw [h1]
    exact mul_lt_mul_right (Nat.two_pow_pos _)
  by_cases hlow : v < 2 ^ (t - 1)
  · have hb : v.testBit (t - 1) = false := by
      rw [testBit_top ht hv]
      exact decide_eq_false (Nat.not_le.mpr hlow)
    rw [if_pos (hcond.mpr hlow), hshr]
    unfold sext64
    rw [if_neg (by simp [hb])]
  · have hb : v.testBit (t - 1) = true := by
      rw [testBit_top ht hv]
      exact decide_eq_true (Nat.not_lt.mp hlow)
    rw [if_neg (by rw [hcond]; exact hlow), hshr, hU]
    unfold sext64
    rw [if_pos ⟨ht, hb⟩]

/-- Sign extension preserves the sign: the extended value has its 64-bit
sign bit set exactly when the `t`-bit value is negative as a `t`-bit
two's-complement number. -/
theorem sext64_top_bit {t v : Nat} (ht : 0 < t) (ht64 : t ≤ 64) (hv : v < 2 ^ t) :
    2 ^ 63 ≤ sext64 t v ↔ v.testBit (t - 1) = true := by
  have htop := testBit_top ht hv
  have h3 : 2 ^ (t - 1) * 2 = 2 ^ t := by
    rw [← Nat.pow_succ]
    congr 1
    omega
  have h2 : (2 : Nat) ^ t ≤ 2 ^ 64 := Nat.pow_le_pow_right (by omega) ht64
  have h4 : (2 : Nat) ^ (t - 1) ≤ 2 ^ 63 := Nat.pow_le_pow_right (by omega) (by omega)
  have h5 : (2 : Nat) ^ 64 = 2 ^ 63 * 2 := by norm_num
  by_cases hlow : v < 2 ^ (t - 1)
  · have hb : v.testBit (t - 1) = false := by
      rw [htop]
      exact decide_eq_false (Nat.not_le.mpr hlow)
    unfold sext64
    rw [if_neg (by simp [hb]), hb]
    simp only [Bool.false_eq_true, iff_false]
    omega
  · have hb : v.testBit (t - 1) = true := by
      rw [htop]
      exact decide_eq_true (Nat.not_lt.mp hlow)
    unfold sext64
    rw [if_pos ⟨ht, hb⟩, hb]
    simp only [iff_true]
    unfold U64
    omega

/-- Bit `d - 1` survives reduction mod `2 ^ d`. -/
theorem mod_shr_and_one (v d : Nat) (hd : 0 < d) :
    ((v % 2 ^ d) >>> (d - 1)) &&& 1 = (v >>> (d - 1)) &&& 1 := by
  rw [Nat.and_one_is_mod, Nat.and_one_is_mod, Nat.shiftRight_eq_div_pow,
    Nat.shiftRight_eq_div_pow]
  have hsplit : 2 ^ d = 2 ^ (d - 1) * 2 := by
    rw [← Nat.pow_succ]
    congr 1
    omega
  rw [hsplit, Nat.mod_mul, Nat.add_mul_div_left _ _ (Nat.two_pow_pos (d - 1)),
    Nat.div_eq_of_lt (Nat.mod_lt _ (Nat.two_pow_pos (d - 1))), Nat.zero_add]
  omega

theorem lt_of_shiftRight_eq_zero {v d : Nat} (h : v >>> d = 0) : v < 2 ^ d := by
  rw [Nat.shiftRight_eq_div_pow] at h
  by_contra hge
  have h1 := (Nat.one_le_div_iff (Nat.two_pow_pos d)).mpr (Nat.not_lt.mp hge)
  omega

theorem segs_nil_of_sumW_zero {segs : List BitFieldSegment} (hwf : SegsWF segs)
    (h : sumW segs = 0) : segs = [] := by
  cases segs with
  | nil => rfl
  | cons seg rest =>
    have h1 := segWidth_pos (hwf _ (List.mem_cons_self _ _))
    rw [sumW_cons] at h
    omega

/-- `read_from` on a container whose `read_bits` round-trips is 64-bit
sign extension, for a signed spec. -/
theorem read_from_of_read_bits {spec : BitFieldSpec} {c v : Nat}
    (hrb : spec.read_bits c = (v, spec.total_width))
    (ht : 0 < spec.total_width) (ht64 : spec.total_width ≤ 64)
    (hv : v < 2 ^ spec.total_width) (hsigned : spec.is_signed = true) :
    spec.read_from c = sext64 spec.total_width v := by
  simp only [BitFieldSpec.read_from, hrb, hsigned, if_true]
  rw [if_neg (by omega), Nat.min_eq_left ht64]
  exact sar64_sext ht ht64 hv

/-- Extraction after a successful portable write of `v` recovers the low
`data_width` bits of `v`, for disjoint well-formed segments. -/
theorem write_segments_extract_data {spec : BitFieldSpec} {v c rem : Nat}
    (hwf : SegsWF spec.segments) (hdisj : SegsDisjoint spec.segments)
    (hd64 : spec.data_width ≤ 64)
    (hw : write_segments v spec.data_width spec.total_width spec.segments 0
      spec.data_width = .ok (c, rem)) :
    spec.extract_data c = (v % 2 ^ spec.data_width, spec.data_width) := by
  rw [data_width_eq_sumW] at hd64 ⊢
  rw [show (spec.data_width : Nat) = sumW spec.segments from rfl] at hw
  have hfold := write_then_extract v (sumW spec.segments) spec.total_width spec.segments
    0 c 0 0 rem hwf hdisj (by omega) (Nat.two_pow_pos 0) hw
  simp only [BitFieldSpec.extract_data]
  rw [hfold]
  simp only [Nat.zero_mul, Nat.zero_add]
  refine congrArg (fun x => (x, sumW spec.segments)) ?_
  exact Nat.mod_eq_of_lt (lt_of_lt_of_le (Nat.mod_lt _ (Nat.two_pow_pos _))
    (Nat.pow_le_pow_right (by omega) hd64))

/-- `write_to` into a zero container followed by `read_bits` returns
exactly `(v, total_width)`, for a spec with disjoint well-formed segments
(and a positive data width if the pad is a sign pad). -/
theorem write_to_read_bits {spec : BitFieldSpec} {v c : Nat}
    (hwf : SegsWF spec.segments) (hdisj : SegsDisjoint spec.segments)
    (htot : spec.total_width ≤ 64) (hv : v < 2 ^ spec.total_width)
    (hd0 : ∀ pad, spec.pad = some pad → pad.kind = PadKind.Sign → 0 < spec.data_width)
    (hw : spec.write_to 0 v = .ok c) :
    spec.read_bits c = (v, spec.total_width) := by
  have hdle : spec.data_width ≤ spec.total_width := Nat.le_add_right _ _
  have hd64 : spec.data_width ≤ 64 := le_trans hdle htot
  by_cases ht0 : spec.total_width = 0
  · have hv0 : v = 0 := by
      rw [ht0] at hv
      have h1 : (2 : Nat) ^ 0 = 1 := rfl
      omega
    simp only [BitFieldSpec.write_to] at hw
    rw [if_pos ht0] at hw
    have hc : c = 0 := by
      have h2 := hw
      simp only [Except.ok.injEq] at h2
      omega
    have hdz : spec.data_width = 0 := by omega
    have hnil : spec.segments = [] := segs_nil_of_sumW_zero hwf
      (by rw [← data_width_eq_sumW]; exact hdz)
    simp only [BitFieldSpec.read_bits, BitFieldSpec.extract_data, hnil, List.foldl_nil, hc]
    cases hpad : spec.pad with
    | none =>
      simp only [BitFieldSpec.apply_pad, hpad, hv0, ht0]
      rfl
    | some p =>
      have hpw : p.width = 0 := by
        have h3 : spec.total_width = spec.data_width + p.width := by
          simp [BitFieldSpec.total_width, hpad]
        omega
      simp only [BitFieldSpec.apply_pad, hpad]
      rw [if_neg (by simp)]
      simp only [Prod.mk.injEq]
      constructor
      · rw [hv0]
        exact Nat.zero_mod _
      · omega
  · simp only [BitFieldSpec.write_to] at hw
    rw [if_neg ht0] at hw
    have hvshr : v >>> spec.total_width = 0 := by
      rw [Nat.shiftRight_eq_div_pow]
      exact Nat.div_eq_of_lt hv
    rw [if_neg (by intro hcon; exact hcon.2 hvshr)] at hw
    cases hpc : padCheckAndMask spec.pad spec.data_width v with
    | error e =>
      rw [hpc] at hw
      simp at hw
    | ok v' =>
      simp only [hpc] at hw
      cases hws : write_segments v' spec.data_width spec.total_width spec.segments 0
          spec.data_width with
      | error e =>
        simp only [hws] at hw
        exact Except.noConfusion hw
      | ok pr =>
        obtain ⟨c', rem⟩ := pr
        simp only [hws] at hw
        split at hw
        · exact Except.noConfusion hw
        · next hrem0 =>
          have hc : c' = c := by
            simpa using hw
          rw [hc] at hws
          have hext := write_segments_extract_data hwf hdisj hd64 hws
          simp only [BitFieldSpec.read_bits]
          rw [hext]
          cases hpad : spec.pad with
          | none =>
            have htd : spec.total_width = spec.data_width := by
              simp [BitFieldSpec.total_width, hpad]
            have hv' : v' = v := by
              rw [hpad] at hpc
              have h4 : v = v' := by simpa [padCheckAndMask] using hpc
              omega
            simp only [BitFieldSpec.apply_pad, hpad, hv']
            rw [htd] at hv ⊢
            rw [Nat.mod_eq_of_lt hv]
          | some p =>
            obtain ⟨pk, pw⟩ := p
            have htd : spec.total_width = spec.data_width + pw := by
              simp [BitFieldSpec.total_width, hpad]
            rw [hpad] at hpc
            cases pk with
            | Zero =>
              rw [show padCheckAndMask (some ⟨PadKind.Zero, pw⟩) spec.data_width v =
                  (if v >>> spec.data_width ≠ 0 then
                    Except.error BitFieldError.PadBitsMismatch
                   else Except.ok (v &&& mask_for_width spec.data_width)) from rfl] at hpc
              by_cases hvd : v >>> spec.data_width = 0
              · rw [if_neg (fun h => h hvd)] at hpc
                have hvlt : v < 2 ^ spec.data_width := lt_of_shiftRight_eq_zero hvd
                have hv' : v' = v := by
                  have h4 : v &&& mask_for_width spec.data_width = v' := by
                    simpa using hpc
                  rw [← h4, and_mask_eq_mod _ hd64, Nat.mod_eq_of_lt hvlt]
                simp only [BitFieldSpec.apply_pad, hpad, hv']
                rw [if_neg (by simp)]
                rw [Nat.mod_eq_of_lt hvlt, htd]
              · rw [if_pos hvd] at hpc
                exact Except.noConfusion hpc
            | Sign =>
              have hdpos : 0 < spec.data_width := hd0 ⟨PadKind.Sign, pw⟩ hpad rfl
              rw [show padCheckAndMask (some ⟨PadKind.Sign, pw⟩) spec.data_width v =
                  (if 0 < spec.data_width then
                    (if v >>> spec.data_width ≠
                        (if (v >>> (spec.data_width - 1)) &&& 1 = 1 then mask_for_width pw
                         else 0) then Except.error BitFieldError.PadBitsMismatch
                     else Except.ok (v &&& mask_for_width spec.data_width))
                   else Except.ok (v &&& mask_for_width spec.data_width)) from rfl] at hpc
              rw [if_pos hdpos] at hpc
              by_cases hs : (v >>> (spec.data_width - 1)) &&& 1 = 1
              · rw [if_pos hs] at hpc
                by_cases hvd : v >>> spec.data_width = mask_for_width pw
                · rw [if_neg (fun h => h hvd)] at hpc
                  have hv' : v' = v % 2 ^ spec.data_width := by
                    have h4 : v &&& mask_for_width spec.data_width = v' := by
                      simpa using hpc
                    rw [← h4, and_mask_eq_mod _ hd64]
                  have hmm : v' % 2 ^ spec.data_width = v % 2 ^ spec.data_width := by
                    rw [hv', Nat.mod_mod_of_dvd _ (dvd_refl _)]
                  simp only [BitFieldSpec.apply_pad, hpad]
                  rw [hmm, mod_shr_and_one v spec.data_width hdpos,
                    if_pos (show True ∧ 0 < spec.data_width from ⟨trivial, hdpos⟩),
                    if_pos hs]
                  have hvm : v % 2 ^ spec.data_width < 2 ^ spec.data_width :=
                    Nat.mod_lt _ (Nat.two_pow_pos _)
                  have hdm : v / 2 ^ spec.data_width = mask_for_width pw := by
                    rw [← Nat.shiftRight_eq_div_pow]
                    exact hvd
                  have hval : v % 2 ^ spec.data_width |||
                      mask_for_width pw <<< spec.data_width = v := by
                    calc v % 2 ^ spec.data_width |||
                        mask_for_width pw <<< spec.data_width
                        = mask_for_width pw <<< spec.data_width |||
                          v % 2 ^ spec.data_width := Nat.lor_comm _ _
                      _ = mask_for_width pw * 2 ^ spec.data_width +
                          v % 2 ^ spec.data_width := shiftLeft_or_eq_add hvm
                      _ = v := by
                        rw [← hdm, Nat.mul_comm]
                        exact Nat.div_add_mod v (2 ^ spec.data_width)
                  rw [hval, htd]
                · rw [if_pos hvd] at hpc
                  exact Except.noConfusion hpc
              · rw [if_neg hs] at hpc
                by_cases hvd : v >>> spec.data_width = 0
                · rw [if_neg (fun h => h hvd)] at hpc
                  have hvlt : v < 2 ^ spec.data_width := lt_of_shiftRight_eq_zero hvd
                  have hv' : v' = v % 2 ^ spec.data_width := by
                    have h4 : v &&& mask_for_width spec.data_width = v' := by
                      simpa using hpc
                    rw [← h4, and_mask_eq_mod _ hd64]
                  have hmm : v' % 2 ^ spec.data_width = v := by
                    rw [hv', Nat.mod_mod_of_dvd _ (dvd_refl _), Nat.mod_eq_of_lt hvlt]
                  simp only [BitFieldSpec.apply_pad, hpad]
                  rw [hmm, if_pos (show True ∧ 0 < spec.data_width from ⟨trivial, hdpos⟩),
                    if_neg hs, htd]
                · rw [if_pos hvd] at hpc
                  exact Except.noConfusion hpc

/-- C4 (amended): for a `BitFieldSpec` with pairwise-disjoint well-formed
segments, total width at most 64 (and positive data width if the pad is a
sign pad), and every `v < 2 ^ total_width` that `write_to(0, v)` accepts
with container `c`, `read_bits c` returns exactly `(v, total_width)` — so
the low `data_width` bits equal those of `v` and the returned width counts
the pad bits — and for a signed spec `read_from c` is the 64-bit sign
extension of `v`, whose 64-bit sign bit equals bit `total_width - 1` of
`v` (sign preservation as an `i64`). -/
theorem C4_roundtrip_value_and_sign (spec : BitFieldSpec) (v c : Nat)
    (hwf : SegsWF spec.segments) (hdisj : SegsDisjoint spec.segments)
    (htot : spec.total_width ≤ 64) (hv : v < 2 ^ spec.total_width)
    (hd0 : ∀ pad, spec.pad = some pad → pad.kind = PadKind.Sign → 0 < spec.data_width)
    (hw : spec.write_to 0 v = .ok c) :
    spec.read_bits c = (v, spec.total_width) ∧
      (spec.is_signed = true → 0 < spec.total_width →
        spec.read_from c = sext64 spec.total_width v ∧
        (2 ^ 63 ≤ spec.read_from c ↔ v.testBit (spec.total_width - 1) = true)) := by
  have hrb := write_to_read_bits hwf hdisj htot hv hd0 hw
  refine ⟨hrb, fun hsigned ht => ?_⟩
  have hrf := read_from_of_read_bits hrb ht htot hv hsigned
  refine ⟨hrf, ?_⟩
  rw [hrf]
  exact sext64_top_bit ht htot hv

set_option maxRecDepth 8192 in
/-- C4 amended-theorem witness at the sign-padded 32-bit spec and
`v = 0xFFFF8004`: every hypothesis holds and the round trip returns
`(0xFFFF8004, 32)` with sign-extended `read_from`. -/
theorem C4_roundtrip_value_and_sign_witness :
    SegsWF specSignC4.segments ∧ SegsDisjoint specSignC4.segments ∧
    specSignC4.total_width ≤ 64 ∧ 0xFFFF8004 < 2 ^ specSignC4.total_width ∧
    (∀ pad, specSignC4.pad = some pad → pad.kind = PadKind.Sign →
      0 < specSignC4.data_width) ∧
    specSignC4.write_to 0 0xFFFF8004 = .ok 0x8004 ∧
    (specSignC4.read_bits 0x8004 = (0xFFFF8004, specSignC4.total_width) ∧
      (specSignC4.is_signed = true → 0 < specSignC4.total_width →
        specSignC4.read_from 0x8004 = sext64 specSignC4.total_width 0xFFFF8004 ∧
        (2 ^ 63 ≤ specSignC4.read_from 0x8004 ↔
          (0xFFFF8004 : Nat).testBit (specSignC4.total_width - 1) = true))) :=
  ⟨by decide, by decide, by decide, by decide, fun _ _ _ => by decide, by decide,
   C4_roundtrip_value_and_sign specSignC4 0xFFFF8004 0x8004 (by decide) (by decide)
     (by decide) (by decide) (fun _ _ _ => by decide) (by decide)⟩

/-! Popcount library, used to reason about the cached PEXT/PDEP ranks. -/

theorem popcountAux_zero : ∀ f, popcountAux f 0 = 0
  | 0 => rfl
  | f + 1 => by
    show 0 % 2 + popcountAux f (0 / 2) = 0
    simp [popcountAux_zero f]

theorem popcountAux_congr (n : Nat) : ∀ (f f' : Nat), n < f → n < f' →
    popcountAux f n = popcountAux f' n := by
  induction n using Nat.strong_induction_on with
  | _ n ih =>
    intro f f' hf hf'
    match f, f' with
    | f + 1, f' + 1 =>
      show n % 2 + popcountAux f (n / 2) = n % 2 + popcountAux f' (n / 2)
      by_cases hn : n = 0
      · subst hn
        simp [popcountAux_zero]
      · have hhalf : n / 2 < n := Nat.div_lt_self (Nat.pos_of_ne_zero hn) (by omega)
        rw [ih (n / 2) hhalf f f' (by omega) (by omega)]

theorem popcount_div2 (n : Nat) : popcount n = n % 2 + popcount (n / 2) := by
  by_cases hn : n = 0
  · subst hn
    rfl
  · show popcountAux (n + 1) n = n % 2 + popcount (n / 2)
    show n % 2 + popcountAux n (n / 2) = n % 2 + popcount (n / 2)
    have hhalf : n / 2 < n := Nat.div_lt_self (Nat.pos_of_ne_zero hn) (by omega)
    rw [popcountAux_congr (n / 2) n (n / 2 + 1) (by omega) (by omega)]
    rfl

/-- Splitting a number below bit `k` and above bit `k` splits its
population count. -/
theorem popcount_split : ∀ (k x y : Nat), x < 2 ^ k →
    popcount (x + 2 ^ k * y) = popcount x + popcount y := by
  intro k
  induction k with
  | zero =>
    intro x y hx
    have hx0 : x = 0 := by omega
    subst hx0
    simp [popcount, popcountAux_zero]
  | succ k ih =>
    intro x y hx
    have hsplit : (2 : Nat) ^ (k + 1) = 2 * 2 ^ k := by
      rw [Nat.pow_succ]
      ring
    rw [popcount_div2 (x + 2 ^ (k + 1) * y), popcount_div2 x]
    have hmod : (x + 2 ^ (k + 1) * y) % 2 = x % 2 := by
      rw [hsplit, Nat.mul_assoc]
      omega
    have hdiv : (x + 2 ^ (k + 1) * y) / 2 = x / 2 + 2 ^ k * y := by
      rw [hsplit, Nat.mul_assoc, Nat.mul_comm 2 (2 ^ k * y),
        Nat.add_mul_div_right _ _ (by omega)]
    rw [hmod, hdiv, ih (x / 2) y (by omega)]
    omega

theorem popcount_two_pow_sub_one : ∀ w, popcount (2 ^ w - 1) = w := by
  intro w
  induction w with
  | zero => rfl
  | succ w ih =>
    have hsplit : (2 : Nat) ^ (w + 1) = 2 * 2 ^ w := by
      rw [Nat.pow_succ]
      ring
    have hpos : (0 : Nat) < 2 ^ w := Nat.two_pow_pos w
    rw [popcount_div2]
    have hmod : (2 ^ (w + 1) - 1) % 2 = 1 := by omega
    have hdiv : (2 ^ (w + 1) - 1) / 2 = 2 ^ w - 1 := by omega
    rw [hmod, hdiv, ih]
    omega

theorem popcount_le_of_lt : ∀ (k x : Nat), x < 2 ^ k → popcount x ≤ k := by
  intro k
  induction k with
  | zero =>
    intro x hx
    have hx0 : x = 0 := by omega
    subst hx0
    exact Nat.le_refl _
  | succ k ih =>
    intro x hx
    rw [popcount_div2]
    have hsplit : (2 : Nat) ^ (k + 1) = 2 * 2 ^ k := by
      rw [Nat.pow_succ]
      ring
    have hhalf := ih (x / 2) (by omega)
    omega

/-- Prefix popcounts split additively at any cut point. -/
theorem popcount_mod_add (M o k : Nat) :
    popcount (M % 2 ^ (o + k)) = popcount (M % 2 ^ o) + popcount (M / 2 ^ o % 2 ^ k) := by
  have hmod : M % 2 ^ (o + k) = M % 2 ^ o + 2 ^ o * (M / 2 ^ o % 2 ^ k) := by
    rw [Nat.pow_add]
    exact Nat.mod_mul
  rw [hmod, popcount_split o _ _ (Nat.mod_lt _ (Nat.two_pow_pos o))]

/-! Bit-window lemmas for the deposit accumulator of `try_write_parallel`. -/

theorem win_testBit (r w z i : Nat) :
    (win r w z).testBit i = (decide (i < w) && z.testBit (r + i)) := by
  simp [win, Nat.testBit_mod_two_pow, Nat.testBit_shiftRight]

theorem win_zero (r w : Nat) : win r w 0 = 0 := by
  simp [win]

theorem win_or (r w x y : Nat) : win r w (x ||| y) = win r w x ||| win r w y := by
  apply Nat.eq_of_testBit_eq
  intro i
  simp only [Nat.testBit_or, win_testBit]
  cases Decidable.em (i < w) with
  | inl h => simp [h]
  | inr h => simp [h]

theorem win_shl_self {y w : Nat} (r : Nat) (hy : y < 2 ^ w) : win r w (y <<< r) = y := by
  unfold win
  rw [shl_shr_cancel, Nat.mod_eq_of_lt hy]

theorem win_shl_disjoint {y w' : Nat} (r w r' : Nat) (hy : y < 2 ^ w')
    (hdisj : r' + w' ≤ r ∨ r + w ≤ r') : win r w (y <<< r') = 0 := by
  apply Nat.eq_of_testBit_eq
  intro i
  simp only [win_testBit, Nat.zero_testBit, Nat.testBit_shiftLeft]
  cases Decidable.em (i < w) with
  | inr h => simp [h]
  | inl h =>
    simp only [h, decide_True, Bool.true_and]
    cases Decidable.em (r' ≤ r + i) with
    | inr h2 => simp [h2]
    | inl h2 =>
      have hout : y.testBit (r + i - r') = false := by
        apply Nat.testBit_lt_two_pow
        apply lt_of_lt_of_le hy
        apply Nat.pow_le_pow_right (by omega)
        omega
      simp [h2, hout]

theorem win_mod_two_pow {r w k : Nat} (z : Nat) (h : r + w ≤ k) :
    win r w (z % 2 ^ k) = win r w z := by
  apply Nat.eq_of_testBit_eq
  intro i
  simp only [win_testBit, Nat.testBit_mod_two_pow]
  cases Decidable.em (i < w) with
  | inr hi => simp [hi]
  | inl hi =>
    have hk : r + i < k := by omega
    simp [hi, hk]

/-- `&&&` with a shifted width mask extracts the window at the mask's
offset and reshifts it. -/
theorem and_shl_eq_win {w : Nat} (y m o : Nat) (hw : w ≤ 64)
    (hm : m = mask_for_width w <<< o) :
    y &&& m = win o w y <<< o := by
  subst hm
  rw [mask_for_width_eq hw]
  apply Nat.eq_of_testBit_eq
  intro i
  simp only [Nat.testBit_and, Nat.testBit_shiftLeft, Nat.testBit_two_pow_sub_one,
    win_testBit]
  cases Decidable.em (o ≤ i) with
  | inr h => simp [h]
  | inl h =>
    have hoi : o + (i - o) = i := by omega
    simp only [h, decide_True, Bool.true_and, ge_iff_le, hoi]
    cases Decidable.em (i - o < w) with
    | inl h2 => simp [h2, Bool.and_comm]
    | inr h2 => simp [h2]

/-! PEXT/PDEP structure lemmas. -/

theorem pextAux_succ_one {f x m : Nat} (h : m % 2 = 1) :
    pextAux (f + 1) x m = x % 2 + 2 * pextAux f (x / 2) (m / 2) := by
  show (if m % 2 = 1 then x % 2 + 2 * pextAux f (x / 2) (m / 2)
        else pextAux f (x / 2) (m / 2)) = x % 2 + 2 * pextAux f (x / 2) (m / 2)
  rw [if_pos h]

theorem pextAux_succ_zero {f x m : Nat} (h : ¬ m % 2 = 1) :
    pextAux (f + 1) x m = pextAux f (x / 2) (m / 2) := by
  show (if m % 2 = 1 then x % 2 + 2 * pextAux f (x / 2) (m / 2)
        else pextAux f (x / 2) (m / 2)) = pextAux f (x / 2) (m / 2)
  rw [if_neg h]

theorem pdepAux_succ_one {f x m : Nat} (h : m % 2 = 1) :
    pdepAux (f + 1) x m = x % 2 + 2 * pdepAux f (x / 2) (m / 2) := by
  show (if m % 2 = 1 then x % 2 + 2 * pdepAux f (x / 2) (m / 2)
        else 2 * pdepAux f x (m / 2)) = x % 2 + 2 * pdepAux f (x / 2) (m / 2)
  rw [if_pos h]

theorem pdepAux_succ_zero {f x m : Nat} (h : ¬ m % 2 = 1) :
    pdepAux (f + 1) x m = 2 * pdepAux f x (m / 2) := by
  show (if m % 2 = 1 then x % 2 + 2 * pdepAux f (x / 2) (m / 2)
        else 2 * pdepAux f x (m / 2)) = 2 * pdepAux f x (m / 2)
  rw [if_neg h]

/-- The PEXT recursion splits at mask position `o`: the low `o` mask
positions pack into the low `popcount (m % 2^o)` result bits, the rest of
the recursion continues above them. -/
theorem pextAux_split (f : Nat) : ∀ (o x m : Nat),
    pextAux (o + f) x m =
      pextAux o x m + 2 ^ popcount (m % 2 ^ o) * pextAux f (x / 2 ^ o) (m / 2 ^ o) ∧
    pextAux o x m < 2 ^ popcount (m % 2 ^ o) := by
  intro o
  induction o with
  | zero =>
    intro x m
    constructor
    · have h1 : pextAux (0 + f) x m = pextAux f x m := by rw [Nat.zero_add]
      have h2 : (2 : Nat) ^ popcount (m % 2 ^ 0) = 1 := by
        rw [Nat.pow_zero, Nat.mod_one, show popcount 0 = 0 from rfl, Nat.pow_zero]
      rw [h1, h2, Nat.pow_zero, Nat.div_one, Nat.div_one]
      show pextAux f x m = 0 + 1 * pextAux f x m
      omega
    · show (0 : Nat) < 2 ^ popcount (m % 2 ^ 0)
      exact Nat.two_pow_pos _
  | succ o ih =>
    intro x m
    obtain ⟨ihe, ihl⟩ := ih (x / 2) (m / 2)
    have hco : o + 1 + f = (o + f) + 1 := by omega
    have hr : popcount (m % 2 ^ (o + 1)) = popcount (m % 2) + popcount (m / 2 % 2 ^ o) := by
      have h1 := popcount_mod_add m 1 o
      rw [Nat.add_comm 1 o] at h1
      simpa using h1
    have hdd : x / 2 / 2 ^ o = x / 2 ^ (o + 1) := by
      rw [Nat.div_div_eq_div_mul]
      congr 1
      rw [Nat.pow_succ]
      ring
    have hddm : m / 2 / 2 ^ o = m / 2 ^ (o + 1) := by
      rw [Nat.div_div_eq_div_mul]
      congr 1
      rw [Nat.pow_succ]
      ring
    by_cases hm2 : m % 2 = 1
    · have hpc1 : popcount (m % 2) = 1 := by rw [hm2]; rfl
      have h2 : (2 : Nat) ^ (1 + popcount (m / 2 % 2 ^ o)) =
          2 * 2 ^ popcount (m / 2 % 2 ^ o) := by
        rw [Nat.pow_add, Nat.pow_one]
      constructor
      · rw [hco, pextAux_succ_one hm2, pextAux_succ_one hm2, ihe, hr, hpc1, hdd, hddm, h2]
        ring
      · rw [pextAux_succ_one hm2, hr, hpc1, h2]
        omega
    · have hpc0 : popcount (m % 2) = 0 := by
        have h0 : m % 2 = 0 := by omega
        rw [h0]
        rfl
      constructor
      · rw [hco, pextAux_succ_zero hm2, pextAux_succ_zero hm2, ihe, hr, hpc0, hdd, hddm,
          Nat.zero_add]
      · rw [pextAux_succ_zero hm2, hr, hpc0, Nat.zero_add]
        exact ihl

/-- Through an all-set low mask run, PEXT is the identity on the low bits. -/
theorem pextAux_run : ∀ (w f x m : Nat), w ≤ f → (∀ j, j < w → m.testBit j = true) →
    pextAux f x m % 2 ^ w = x % 2 ^ w := by
  intro w
  induction w with
  | zero =>
    intro f x m _ _
    show pextAux f x m % 1 = x % 1
    rw [Nat.mod_one, Nat.mod_one]
  | succ w ih =>
    intro f x m hf hrun
    match f, hf with
    | f + 1, hf =>
      have hm2 : m % 2 = 1 := by
        have h0 := hrun 0 (by omega)
        rw [Nat.testBit_zero] at h0
        exact of_decide_eq_true h0
      rw [pextAux_succ_one hm2]
      have hsplit : (2 : Nat) ^ (w + 1) = 2 * 2 ^ w := by
        rw [Nat.pow_succ]
        ring
      have hkey : ∀ z : Nat, (x % 2 + 2 * z) % 2 ^ (w + 1) = x % 2 + 2 * (z % 2 ^ w) := by
        intro z
        rw [hsplit, Nat.mod_mul]
        have hm : (x % 2 + 2 * z) % 2 = x % 2 := by omega
        have hd : (x % 2 + 2 * z) / 2 = z := by omega
        rw [hm, hd]
      rw [hkey]
      have htail : ∀ j, j < w → (m / 2).testBit j = true := by
        intro j hj
        have h1 := hrun (j + 1) (by omega)
        rw [← Nat.testBit_succ]
        exact h1
      rw [ih f (x / 2) (m / 2) (by omega) htail]
      have hx : x % 2 ^ (w + 1) = x % 2 + 2 * (x / 2 % 2 ^ w) := by
        rw [hsplit, Nat.mod_mul]
      omega

/-- The PDEP recursion splits at mask position `o`: the low `o` mask
positions consume the low `popcount (m % 2^o)` source bits and fill bits
below `o`, the rest of the recursion continues above. -/
theorem pdepAux_split (f : Nat) : ∀ (o x m : Nat),
    pdepAux (o + f) x m =
      pdepAux o x m + 2 ^ o * pdepAux f (x / 2 ^ popcount (m % 2 ^ o)) (m / 2 ^ o) ∧
    pdepAux o x m < 2 ^ o := by
  intro o
  induction o with
  | zero =>
    intro x m
    constructor
    · have h1 : pdepAux (0 + f) x m = pdepAux f x m := by rw [Nat.zero_add]
      have h2 : (2 : Nat) ^ popcount (m % 2 ^ 0) = 1 := by
        rw [Nat.pow_zero, Nat.mod_one, show popcount 0 = 0 from rfl, Nat.pow_zero]
      rw [h1, h2, Nat.div_one, Nat.pow_zero, Nat.div_one]
      show pdepAux f x m = 0 + 1 * pdepAux f x m
      omega
    · show (0 : Nat) < 2 ^ 0
      exact Nat.one_pos
  | succ o ih =>
    intro x m
    have hco : o + 1 + f = (o + f) + 1 := by omega
    have hr : popcount (m % 2 ^ (o + 1)) = popcount (m % 2) + popcount (m / 2 % 2 ^ o) := by
      have h1 := popcount_mod_add m 1 o
      rw [Nat.add_comm 1 o] at h1
      simpa using h1
    have hddm : m / 2 / 2 ^ o = m / 2 ^ (o + 1) := by
      rw [Nat.div_div_eq_div_mul]
      congr 1
      rw [Nat.pow_succ]
      ring
    have hp2 : (2 : Nat) ^ (o + 1) = 2 * 2 ^ o := by
      rw [Nat.pow_succ]
      ring
    by_cases hm2 : m % 2 = 1
    · obtain ⟨ihe, ihl⟩ := ih (x / 2) (m / 2)
      have hpc1 : popcount (m % 2) = 1 := by rw [hm2]; rfl
      have hdd : x / 2 / 2 ^ popcount (m / 2 % 2 ^ o) =
          x / 2 ^ (1 + popcount (m / 2 % 2 ^ o)) := by
        rw [Nat.div_div_eq_div_mul]
        congr 1
        rw [Nat.pow_add, Nat.pow_one]
      constructor
      · rw [hco, pdepAux_succ_one hm2, pdepAux_succ_one hm2, ihe, hr, hpc1, hdd, hddm, hp2]
        ring
      · rw [pdepAux_succ_one hm2, hp2]
        omega
    · obtain ⟨ihe, ihl⟩ := ih x (m / 2)
      have hpc0 : popcount (m % 2) = 0 := by
        have h0 : m % 2 = 0 := by omega
        rw [h0]
        rfl
      constructor
      · rw [hco, pdepAux_succ_zero hm2, pdepAux_succ_zero hm2, ihe, hr, hpc0, hddm,
          Nat.zero_add, hp2]
        ring
      · rw [pdepAux_succ_zero hm2, hp2]
        omega

/-- Through an all-set low mask run, PDEP is the identity on the low bits. -/
theorem pdepAux_run : ∀ (w f x m : Nat), w ≤ f → (∀ j, j < w → m.testBit j = true) →
    pdepAux f x m % 2 ^ w = x % 2 ^ w := by
  intro w
  induction w with
  | zero =>
    intro f x m _ _
    show pdepAux f x m % 1 = x % 1
    rw [Nat.mod_one, Nat.mod_one]
  | succ w ih =>
    intro f x m hf hrun
    match f, hf with
    | f + 1, hf =>
      have hm2 : m % 2 = 1 := by
        have h0 := hrun 0 (by omega)
        rw [Nat.testBit_zero] at h0
        exact of_decide_eq_true h0
      rw [pdepAux_succ_one hm2]
      have hsplit : (2 : Nat) ^ (w + 1) = 2 * 2 ^ w := by
        rw [Nat.pow_succ]
        ring
      have hkey : ∀ z : Nat, (x % 2 + 2 * z) % 2 ^ (w + 1) = x % 2 + 2 * (z % 2 ^ w) := by
        intro z
        rw [hsplit, Nat.mod_mul]
        have hm : (x % 2 + 2 * z) % 2 = x % 2 := by omega
        have hd : (x % 2 + 2 * z) / 2 = z := by omega
        rw [hm, hd]
      rw [hkey]
      have htail : ∀ j, j < w → (m / 2).testBit j = true := by
        intro j hj
        have h1 := hrun (j + 1) (by omega)
        rw [← Nat.testBit_succ]
        exact h1
      rw [ih f (x / 2) (m / 2) (by omega) htail]
      have hx : x % 2 ^ (w + 1) = x % 2 + 2 * (x / 2 % 2 ^ w) := by
        rw [hsplit, Nat.mod_mul]
      omega

/-- PDEP deposits bits only at set mask positions. -/
theorem pdepAux_subset : ∀ (f x m i : Nat),
    (pdepAux f x m).testBit i = true → m.testBit i = true := by
  intro f
  induction f with
  | zero =>
    intro x m i h
    rw [show pdepAux 0 x m = 0 from rfl, Nat.zero_testBit] at h
    exact absurd h (by simp)
  | succ f ih =>
    intro x m i h
    by_cases hm2 : m % 2 = 1
    · rw [pdepAux_succ_one hm2] at h
      cases i with
      | zero =>
        rw [Nat.testBit_zero]
        rw [hm2]
        rfl
      | succ i =>
        rw [Nat.testBit_succ] at h ⊢
        have hd : (x % 2 + 2 * pdepAux f (x / 2) (m / 2)) / 2 =
            pdepAux f (x / 2) (m / 2) := by omega
        rw [hd] at h
        exact ih _ _ _ h
    · rw [pdepAux_succ_zero hm2] at h
      cases i with
      | zero =>
        rw [Nat.testBit_zero] at h
        have hd : 2 * pdepAux f x (m / 2) % 2 = 0 := by omega
        rw [hd] at h
        exact absurd h (by simp)
      | succ i =>
        rw [Nat.testBit_succ] at h ⊢
        have hd : 2 * pdepAux f x (m / 2) / 2 = pdepAux f x (m / 2) := by omega
        rw [hd] at h
        exact ih _ _ _ h

/-- PEXT moves the window at mask offset `o` down to the window at the
cached rank, for a run `[o, o+w)` fully set in `M`. -/
theorem pext_win {x M o w : Nat} (how : o + w ≤ 64) (hM : M < U64)
    (hrun : ∀ j, j < w → M.testBit (o + j) = true) :
    win (popcount (M % 2 ^ o)) w (pext64 x M) = win o w x := by
  have hMm : M % U64 = M := Nat.mod_eq_of_lt hM
  obtain ⟨he, hl⟩ := pextAux_split (64 - o) o (x % U64) M
  unfold pext64
  rw [hMm, show pextAux 64 (x % U64) M = pextAux (o + (64 - o)) (x % U64) M from by
    rw [show o + (64 - o) = 64 from by omega], he]
  unfold win
  have hdiv : (pextAux o (x % U64) M + 2 ^ popcount (M % 2 ^ o) *
      pextAux (64 - o) (x % U64 / 2 ^ o) (M / 2 ^ o)) >>> popcount (M % 2 ^ o) =
      pextAux (64 - o) (x % U64 / 2 ^ o) (M / 2 ^ o) := by
    rw [Nat.shiftRight_eq_div_pow,
      Nat.add_mul_div_left _ _ (Nat.two_pow_pos (popcount (M % 2 ^ o))),
      Nat.div_eq_of_lt hl, Nat.zero_add]
  rw [hdiv]
  have htail : ∀ j, j < w → (M / 2 ^ o).testBit j = true := by
    intro j hj
    rw [← Nat.shiftRight_eq_div_pow, Nat.testBit_shiftRight]
    exact hrun j hj
  rw [pextAux_run w (64 - o) _ _ (by omega) htail]
  have hwin := @win_mod_two_pow o w 64 x how
  unfold win at hwin
  rw [← Nat.shiftRight_eq_div_pow]
  exact hwin

/-- PDEP moves the window at the cached rank up to the window at mask
offset `o`, for a run `[o, o+w)` fully set in `M`. -/
theorem pdep_win {x M o w : Nat} (how : o + w ≤ 64) (hM : M < U64)
    (hrun : ∀ j, j < w → M.testBit (o + j) = true) :
    win o w (pdep64 x M) = win (popcount (M % 2 ^ o)) w x := by
  have hMm : M % U64 = M := Nat.mod_eq_of_lt hM
  obtain ⟨he, hl⟩ := pdepAux_split (64 - o) o (x % U64) M
  unfold pdep64
  rw [hMm, show pdepAux 64 (x % U64) M = pdepAux (o + (64 - o)) (x % U64) M from by
    rw [show o + (64 - o) = 64 from by omega], he]
  unfold win
  have hdiv : (pdepAux o (x % U64) M + 2 ^ o *
      pdepAux (64 - o) (x % U64 / 2 ^ popcount (M % 2 ^ o)) (M / 2 ^ o)) >>> o =
      pdepAux (64 - o) (x % U64 / 2 ^ popcount (M % 2 ^ o)) (M / 2 ^ o) := by
    rw [Nat.shiftRight_eq_div_pow, Nat.add_mul_div_left _ _ (Nat.two_pow_pos o),
      Nat.div_eq_of_lt hl, Nat.zero_add]
  rw [hdiv]
  have htail : ∀ j, j < w → (M / 2 ^ o).testBit j = true := by
    intro j hj
    rw [← Nat.shiftRight_eq_div_pow, Nat.testBit_shiftRight]
    exact hrun j hj
  rw [pdepAux_run w (64 - o) _ _ (by omega) htail]
  have hrank : popcount (M % 2 ^ o) + w ≤ 64 := by
    have h1 : popcount (M % 2 ^ o) ≤ o :=
      popcount_le_of_lt o _ (Nat.mod_lt _ (Nat.two_pow_pos o))
    omega
  have hwin := @win_mod_two_pow (popcount (M % 2 ^ o)) w 64 x hrank
  unfold win at hwin
  rw [← Nat.shiftRight_eq_div_pow]
  exact hwin

/-! Lemmas about the cached union mask and per-slice ranks. -/

theorem cacheMask_fold_mono : ∀ (segs : List BitFieldSegment) (acc i : Nat),
    acc.testBit i = true →
    (segs.foldl (fun acc seg => match seg with
      | BitFieldSegment.Slice slice => acc ||| slice.mask
      | BitFieldSegment.Literal _ _ => acc) acc).testBit i = true := by
  intro segs
  induction segs with
  | nil =>
    intro acc i h
    exact h
  | cons seg rest ih =>
    intro acc i h
    rw [List.foldl_cons]
    cases seg with
    | Slice slice =>
      apply ih
      rw [Nat.testBit_or, h]
      rfl
    | Literal lv lw =>
      exact ih acc i h

theorem cacheMask_fold_mem : ∀ (segs : List BitFieldSegment) (acc : Nat) (s : BitSlice)
    (i : Nat), BitFieldSegment.Slice s ∈ segs → s.mask.testBit i = true →
    (segs.foldl (fun acc seg => match seg with
      | BitFieldSegment.Slice slice => acc ||| slice.mask
      | BitFieldSegment.Literal _ _ => acc) acc).testBit i = true := by
  intro segs
  induction segs with
  | nil =>
    intro acc s i hmem
    exact absurd hmem (List.not_mem_nil _)
  | cons seg rest ih =>
    intro acc s i hmem hbit
    rw [List.foldl_cons]
    rcases List.mem_cons.mp hmem with heq | hmem'
    · subst heq
      apply cacheMask_fold_mono
      rw [Nat.testBit_or, hbit]
      exact Bool.or_true _
    · cases seg with
      | Slice slice => exact ih _ s i hmem' hbit
      | Literal lv lw => exact ih _ s i hmem' hbit

theorem cacheMask_fold_bit : ∀ (segs : List BitFieldSegment) (acc i : Nat),
    (segs.foldl (fun acc seg => match seg with
      | BitFieldSegment.Slice slice => acc ||| slice.mask
      | BitFieldSegment.Literal _ _ => acc) acc).testBit i = true →
    acc.testBit i = true ∨
      ∃ s : BitSlice, BitFieldSegment.Slice s ∈ segs ∧ s.mask.testBit i = true := by
  intro segs
  induction segs with
  | nil =>
    intro acc i h
    exact Or.inl h
  | cons seg rest ih =>
    intro acc i h
    rw [List.foldl_cons] at h
    cases seg with
    | Slice slice =>
      rcases ih _ i h with hacc | ⟨s, hmem, hbit⟩
      · rw [Nat.testBit_or] at hacc
        cases h1 : acc.testBit i with
        | true => exact Or.inl rfl
        | false =>
          rw [h1] at hacc
          simp only [Bool.false_or] at hacc
          exact Or.inr ⟨slice, List.mem_cons_self _ _, hacc⟩
      · exact Or.inr ⟨s, List.mem_cons_of_mem _ hmem, hbit⟩
    | Literal lv lw =>
      rcases ih _ i h with hacc | ⟨s, hmem, hbit⟩
      · exact Or.inl hacc
      · exact Or.inr ⟨s, List.mem_cons_of_mem _ hmem, hbit⟩

theorem cacheMask_fold_lt : ∀ (segs : List BitFieldSegment) (acc : Nat),
    acc < U64 → SegsWF segs →
    (segs.foldl (fun acc seg => match seg with
      | BitFieldSegment.Slice slice => acc ||| slice.mask
      | BitFieldSegment.Literal _ _ => acc) acc) < U64 := by
  intro segs
  induction segs with
  | nil =>
    intro acc h _
    exact h
  | cons seg rest ih =>
    intro acc h hwf
    rw [List.foldl_cons]
    cases seg with
    | Slice slice =>
      apply ih
      · exact Nat.or_lt_two_pow h (sliceWF_mask_lt (hwf _ (List.mem_cons_self _ _)))
      · exact fun s hs => hwf s (List.mem_cons_of_mem _ hs)
    | Literal lv lw =>
      exact ih acc h (fun s hs => hwf s (List.mem_cons_of_mem _ hs))

theorem cacheMask_testBit_of_mem {segs : List BitFieldSegment} {s : BitSlice} {i : Nat}
    (hmem : BitFieldSegment.Slice s ∈ segs) (hbit : s.mask.testBit i = true) :
    (cacheMask segs).testBit i = true :=
  cacheMask_fold_mem segs 0 s i hmem hbit

theorem cacheMask_testBit_elim {segs : List BitFieldSegment} {i : Nat}
    (h : (cacheMask segs).testBit i = true) :
    ∃ s : BitSlice, BitFieldSegment.Slice s ∈ segs ∧ s.mask.testBit i = true := by
  rcases cacheMask_fold_bit segs 0 i h with h0 | hs
  · rw [Nat.zero_testBit] at h0
    exact absurd h0 (by simp)
  · exact hs

theorem cacheMask_lt {segs : List BitFieldSegment} (hwf : SegsWF segs) :
    cacheMask segs < U64 :=
  cacheMask_fold_lt segs 0 (Nat.two_pow_pos 64) hwf

/-- Bit `offset + j` of a well-formed slice's mask tests `j < width`. -/
theorem slice_mask_testBit {s : BitSlice} (hwf : SliceWF s) (j : Nat) :
    s.mask.testBit (s.offset + j) = decide (j < s.width) := by
  obtain ⟨hw0, how, hm⟩ := hwf
  rw [hm, mask_for_width_eq (by omega)]
  simp [Nat.testBit_shiftLeft, Nat.testBit_two_pow_sub_one, Nat.le_add_right,
    Nat.add_sub_cancel_left]

/-- Every bit of a run of a well-formed member slice is set in the union
mask. -/
theorem run_in_cacheMask {segs : List BitFieldSegment} {s : BitSlice}
    (hmem : BitFieldSegment.Slice s ∈ segs) (hwf : SliceWF s) :
    ∀ j, j < s.width → (cacheMask segs).testBit (s.offset + j) = true := by
  intro j hj
  apply cacheMask_testBit_of_mem hmem
  rw [slice_mask_testBit hwf j]
  exact decide_eq_true hj

/-- `prefix_popcount` is the popcount of the mask's low `offset` bits. -/
theorem prefix_popcount_eq (M : Nat) {o : Nat} (h : o < 64) :
    prefix_popcount M o = popcount (M % 2 ^ o) := by
  unfold prefix_popcount
  congr 1
  unfold lower_bits_mask
  by_cases ho : o = 0
  · subst ho
    rw [if_pos rfl]
    show M &&& 0 = M % 1
    rw [Nat.mod_one]
    exact Nat.and_zero M
  · rw [if_neg ho, if_neg (by omega)]
    exact Nat.and_pow_two_sub_one_eq_mod M o

theorem zip_map_mem {α β : Type} (f : α → β) :
    ∀ (l : List α) (a : α) (b : β), (a, b) ∈ l.zip (l.map f) → a ∈ l ∧ b = f a := by
  intro l
  induction l with
  | nil =>
    intro a b h
    exact absurd h (List.not_mem_nil _)
  | cons x xs ih =>
    intro a b h
    rw [List.map_cons, List.zip_cons_cons] at h
    rcases List.mem_cons.mp h with heq | hmem
    · simp only [Prod.mk.injEq] at heq
      obtain ⟨h1, h2⟩ := heq
      subst h1
      exact ⟨List.mem_cons_self _ _, h2⟩
    · obtain ⟨ha, hb⟩ := ih a b hmem
      exact ⟨List.mem_cons_of_mem _ ha, hb⟩

/-- The parallel extraction loop over cache-consistent metadata computes
exactly the portable extraction fold. -/
theorem edpLoop_eq (bits M : Nat) (hM : M < U64) :
    ∀ (segs : List BitFieldSegment) (acc accw : Nat),
      SegsWF segs →
      (∀ s : BitSlice, BitFieldSegment.Slice s ∈ segs →
        ∀ j, j < s.width → M.testBit (s.offset + j) = true) →
      edpLoop (pext64 bits M) (segs.zip (cacheMeta M segs)) acc accw =
        some (segs.foldl (extractStep bits) (acc, accw)) := by
  intro segs
  induction segs with
  | nil =>
    intro acc accw _ _
    rfl
  | cons seg rest ih =>
    intro acc accw hwf hrun
    have hwfrest : SegsWF rest := fun s hs => hwf s (List.mem_cons_of_mem _ hs)
    have hrunrest : ∀ s : BitSlice, BitFieldSegment.Slice s ∈ rest →
        ∀ j, j < s.width → M.testBit (s.offset + j) = true :=
      fun s hs => hrun s (List.mem_cons_of_mem _ hs)
    cases seg with
    | Slice s =>
      obtain ⟨hw0, how, hm⟩ : SliceWF s := hwf _ (List.mem_cons_self _ _)
      have ho64 : s.offset < 64 := by omega
      have hfrag : (pext64 bits M >>> prefix_popcount M s.offset) &&&
          mask_for_width s.width = (bits &&& s.mask) >>> s.offset := by
        rw [and_mask_eq_mod _ (by omega), prefix_popcount_eq M ho64]
        have h1 := @pext_win bits M s.offset s.width how hM
          (hrun s (List.mem_cons_self _ _))
        unfold win at h1
        rw [h1, and_shl_eq_win bits s.mask s.offset (by omega) hm, shl_shr_cancel]
        rfl
      have hcm : cacheMeta M (BitFieldSegment.Slice s :: rest) =
          some { rank_start := prefix_popcount M s.offset, width := s.width } ::
            cacheMeta M rest := by
        simp [cacheMeta]
      rw [hcm, List.zip_cons_cons]
      rw [show edpLoop (pext64 bits M)
          ((BitFieldSegment.Slice s,
            some { rank_start := prefix_popcount M s.offset, width := s.width }) ::
            rest.zip (cacheMeta M rest)) acc accw =
          edpLoop (pext64 bits M) (rest.zip (cacheMeta M rest))
            ((acc <<< s.width |||
              ((pext64 bits M >>> prefix_popcount M s.offset) &&&
                mask_for_width s.width)) % U128) (accw + s.width) from rfl]
      rw [hfrag, List.foldl_cons]
      exact ih _ _ hwfrest hrunrest
    | Literal lv lw =>
      have hcm : cacheMeta M (BitFieldSegment.Literal lv lw :: rest) =
          none :: cacheMeta M rest := by
        simp [cacheMeta]
      rw [hcm, List.zip_cons_cons]
      rw [show edpLoop (pext64 bits M)
          ((BitFieldSegment.Literal lv lw, none) :: rest.zip (cacheMeta M rest)) acc accw =
          edpLoop (pext64 bits M) (rest.zip (cacheMeta M rest))
            ((acc <<< lw ||| (lv &&& mask_for_width lw)) % U128) (accw + lw) from rfl]
      rw [List.foldl_cons]
      exact ih _ _ hwfrest hrunrest

/-- The BMI2 read path agrees with the portable read path whenever the
cached union mask is nonzero and the cached metadata is the one
`rebuild_cache` computes. -/
theorem extract_data_parallel_eq {spec : BitFieldSpec} (bits : Nat)
    (hwf : SegsWF spec.segments)
    (hmask : spec.mask = cacheMask spec.segments)
    (hmeta : spec.slice_meta = cacheMeta spec.mask spec.segments)
    (hmne : spec.mask ≠ 0) :
    spec.extract_data_parallel bits = some (spec.extract_data bits) := by
  unfold BitFieldSpec.extract_data_parallel
  rw [if_neg hmne, hmeta, hmask]
  have hrun : ∀ s : BitSlice, BitFieldSegment.Slice s ∈ spec.segments →
      ∀ j, j < s.width → (cacheMask spec.segments).testBit (s.offset + j) = true :=
    fun s hs j hj => run_in_cacheMask hs (hwf _ hs) j hj
  rw [edpLoop_eq bits (cacheMask spec.segments) (cacheMask_lt hwf) spec.segments 0 0
    hwf hrun]
  rfl

/-! Unfolding equations for the write loops and the rank cache. -/

theorem write_segments_cons_slice (v d t : Nat) (sl : BitSlice)
    (rest : List BitFieldSegment) (container remaining : Nat) :
    write_segments v d t (BitFieldSegment.Slice sl :: rest) container remaining =
      if remaining < sl.width then Except.error (BitFieldError.ValueTooWide d t)
      else write_segments v d t rest
        (container &&& not64 sl.mask |||
          (((v >>> (remaining - sl.width)) &&& mask_for_width sl.width) <<< sl.offset)
            &&& sl.mask) (remaining - sl.width) := rfl

theorem write_segments_cons_literal (v d t lit width : Nat)
    (rest : List BitFieldSegment) (container remaining : Nat) :
    write_segments v d t (BitFieldSegment.Literal lit width :: rest) container remaining =
      if remaining < width then Except.error (BitFieldError.ValueTooWide d t)
      else if (v >>> (remaining - width)) &&& mask_for_width width ≠
          lit &&& mask_for_width width then
        Except.error (BitFieldError.LiteralMismatch (lit &&& mask_for_width width)
          ((v >>> (remaining - width)) &&& mask_for_width width) width)
      else write_segments v d t rest container (remaining - width) := rfl

theorem twpLoop_cons_slice (v d t : Nat) (sl : BitSlice) (meta : SliceMeta)
    (pairs : List (BitFieldSegment × Option SliceMeta)) (deposit remaining : Nat) :
    twpLoop v d t ((BitFieldSegment.Slice sl, some meta) :: pairs) deposit remaining =
      if remaining < meta.width then none
      else twpLoop v d t pairs
        (deposit ||| ((v >>> (remaining - meta.width)) &&& mask_for_width meta.width)
          <<< meta.rank_start) (remaining - meta.width) := rfl

theorem twpLoop_cons_literal (v d t lit width : Nat) (m? : Option SliceMeta)
    (pairs : List (BitFieldSegment × Option SliceMeta)) (deposit remaining : Nat) :
    twpLoop v d t ((BitFieldSegment.Literal lit width, m?) :: pairs) deposit remaining =
      if remaining < width then none
      else if (v >>> (remaining - width)) &&& mask_for_width width ≠
          lit &&& mask_for_width width then
        some (Except.error (BitFieldError.LiteralMismatch (lit &&& mask_for_width width)
          ((v >>> (remaining - width)) &&& mask_for_width width) width))
      else twpLoop v d t pairs deposit (remaining - width) := rfl

theorem cacheMeta_cons_slice (M : Nat) (s : BitSlice) (rest : List BitFieldSegment) :
    cacheMeta M (BitFieldSegment.Slice s :: rest) =
      some { rank_start := prefix_popcount M s.offset, width := s.width } ::
        cacheMeta M rest := rfl

theorem cacheMeta_cons_literal (M lv lw : Nat) (rest : List BitFieldSegment) :
    cacheMeta M (BitFieldSegment.Literal lv lw :: rest) = none :: cacheMeta M rest := rfl

/-! Rank-interval disjointness for disjoint slices. -/

theorem mod_all_bits {y w : Nat} (h : ∀ j, j < w → y.testBit j = true) :
    y % 2 ^ w = 2 ^ w - 1 := by
  apply Nat.eq_of_testBit_eq
  intro j
  rw [Nat.testBit_mod_two_pow, Nat.testBit_two_pow_sub_one]
  by_cases hj : j < w
  · simp [hj, h j hj]
  · simp [hj]

/-- A fully-set run adds exactly its width to the prefix popcount. -/
theorem popcount_run_add {M o w : Nat}
    (hr : ∀ j, j < w → M.testBit (o + j) = true) :
    popcount (M % 2 ^ (o + w)) = popcount (M % 2 ^ o) + w := by
  rw [popcount_mod_add M o w]
  congr 1
  have hall : ∀ j, j < w → (M / 2 ^ o).testBit j = true := by
    intro j hj
    rw [← Nat.shiftRight_eq_div_pow, Nat.testBit_shiftRight]
    exact hr j hj
  rw [mod_all_bits hall, popcount_two_pow_sub_one]

theorem popcount_mod_mono (M : Nat) {a b : Nat} (h : a ≤ b) :
    popcount (M % 2 ^ a) ≤ popcount (M % 2 ^ b) := by
  have h1 := popcount_mod_add M a (b - a)
  rw [show a + (b - a) = b from by omega] at h1
  omega

/-- Disjoint well-formed slices claim disjoint offset intervals. -/
theorem slice_runs_disjoint {s₁ s₂ : BitSlice} (h1 : SliceWF s₁) (h2 : SliceWF s₂)
    (hdisj : s₁.mask &&& s₂.mask = 0) :
    s₁.offset + s₁.width ≤ s₂.offset ∨ s₂.offset + s₂.width ≤ s₁.offset := by
  by_contra hcon
  push_neg at hcon
  obtain ⟨hc1, hc2⟩ := hcon
  have hw1 : 0 < s₁.width := h1.1
  have hw2 : 0 < s₂.width := h2.1
  have hb1 : s₁.mask.testBit (max s₁.offset s₂.offset) = true := by
    rw [show max s₁.offset s₂.offset = s₁.offset + (max s₁.offset s₂.offset - s₁.offset)
      from by omega, slice_mask_testBit h1]
    apply decide_eq_true
    omega
  have hb2 : s₂.mask.testBit (max s₁.offset s₂.offset) = true := by
    rw [show max s₁.offset s₂.offset = s₂.offset + (max s₁.offset s₂.offset - s₂.offset)
      from by omega, slice_mask_testBit h2]
    apply decide_eq_true
    omega
  rcases and_eq_zero_testBit hdisj (max s₁.offset s₂.offset) with hz | hz
  · rw [hb1] at hz
    exact Bool.noConfusion hz
  · rw [hb2] at hz
    exact Bool.noConfusion hz

/-- Disjoint slices with runs inside `M` occupy disjoint rank intervals of
the packed PEXT/PDEP value. -/
theorem rank_intervals_disjoint {M : Nat} {s₁ s₂ : BitSlice}
    (h1 : SliceWF s₁) (h2 : SliceWF s₂)
    (hr1 : ∀ j, j < s₁.width → M.testBit (s₁.offset + j) = true)
    (hr2 : ∀ j, j < s₂.width → M.testBit (s₂.offset + j) = true)
    (hdisj : s₁.mask &&& s₂.mask = 0) :
    popcount (M % 2 ^ s₁.offset) + s₁.width ≤ popcount (M % 2 ^ s₂.offset) ∨
    popcount (M % 2 ^ s₂.offset) + s₂.width ≤ popcount (M % 2 ^ s₁.offset) := by
  rcases slice_runs_disjoint h1 h2 hdisj with ho | ho
  · left
    have ha := popcount_run_add hr1
    have hb := popcount_mod_mono M ho
    omega
  · right
    have ha := popcount_run_add hr2
    have hb := popcount_mod_mono M ho
    omega

/-- If the parallel write loop finishes with a deposit, the portable loop
finishes with the same leftover width. -/
theorem twpLoop_ok_write (v d t M : Nat) :
    ∀ (segs : List BitFieldSegment) (dep₀ c₀ R dep rem : Nat),
      twpLoop v d t (segs.zip (cacheMeta M segs)) dep₀ R = some (.ok (dep, rem)) →
      ∃ C, write_segments v d t segs c₀ R = .ok (C, rem) := by
  intro segs
  induction segs with
  | nil =>
    intro dep₀ c₀ R dep rem h
    have h1 : dep₀ = dep ∧ R = rem := by
      have h2 : (some (Except.ok (dep₀, R)) :
          Option (Except BitFieldError (Nat × Nat))) = some (.ok (dep, rem)) := h
      simp only [Option.some.injEq, Except.ok.injEq, Prod.mk.injEq] at h2
      exact h2
    exact ⟨c₀, by rw [h1.2]; rfl⟩
  | cons seg rest ih =>
    intro dep₀ c₀ R dep rem h
    cases seg with
    | Slice sl =>
      rw [cacheMeta_cons_slice, List.zip_cons_cons, twpLoop_cons_slice] at h
      by_cases hR : R < sl.width
      · rw [if_pos hR] at h
        exact Option.noConfusion h
      · rw [if_neg hR] at h
        rw [write_segments_cons_slice, if_neg hR]
        exact ih _ _ _ _ _ h
    | Literal lit width =>
      rw [cacheMeta_cons_literal, List.zip_cons_cons, twpLoop_cons_literal] at h
      by_cases hR : R < width
      · rw [if_pos hR] at h
        exact Option.noConfusion h
      · rw [if_neg hR] at h
        rw [write_segments_cons_literal, if_neg hR]
        by_cases hlit : (v >>> (R - width)) &&& mask_for_width width ≠
            lit &&& mask_for_width width
        · rw [if_pos hlit] at h
          simp at h
        · rw [if_neg hlit] at h
          rw [if_neg hlit]
          exact ih _ _ _ _ _ h

/-- If the parallel write loop reports an error, the portable loop reports
the same error. -/
theorem twpLoop_err_write (v d t M : Nat) :
    ∀ (segs : List BitFieldSegment) (dep₀ c₀ R : Nat) (e : BitFieldError),
      twpLoop v d t (segs.zip (cacheMeta M segs)) dep₀ R = some (.error e) →
      write_segments v d t segs c₀ R = .error e := by
  intro segs
  induction segs with
  | nil =>
    intro dep₀ c₀ R e h
    have h2 : (some (Except.ok (dep₀, R)) :
        Option (Except BitFieldError (Nat × Nat))) = some (.error e) := h
    simp at h2
  | cons seg rest ih =>
    intro dep₀ c₀ R e h
    cases seg with
    | Slice sl =>
      rw [cacheMeta_cons_slice, List.zip_cons_cons, twpLoop_cons_slice] at h
      by_cases hR : R < sl.width
      · rw [if_pos hR] at h
        exact Option.noConfusion h
      · rw [if_neg hR] at h
        rw [write_segments_cons_slice, if_neg hR]
        exact ih _ _ _ _ h
    | Literal lit width =>
      rw [cacheMeta_cons_literal, List.zip_cons_cons, twpLoop_cons_literal] at h
      by_cases hR : R < width
      · rw [if_pos hR] at h
        exact Option.noConfusion h
      · rw [if_neg hR] at h
        rw [write_segments_cons_literal, if_neg hR]
        by_cases hlit : (v >>> (R - width)) &&& mask_for_width width ≠
            lit &&& mask_for_width width
        · rw [if_pos hlit] at h
          rw [if_pos hlit]
          have h3 := h
          simp only [Option.some.injEq, Except.error.injEq] at h3
          rw [h3]
        · rw [if_neg hlit] at h
          rw [if_neg hlit]
          exact ih _ _ _ _ h

/-- Rank windows disjoint from every slice of the remaining segment list
pass through the parallel write loop unchanged. -/
theorem twpLoop_win_frame (v d t M : Nat) :
    ∀ (segs : List BitFieldSegment) (dep₀ R dep rem r w : Nat),
      SegsWF segs →
      (∀ s : BitSlice, BitFieldSegment.Slice s ∈ segs →
        prefix_popcount M s.offset + s.width ≤ r ∨ r + w ≤ prefix_popcount M s.offset) →
      twpLoop v d t (segs.zip (cacheMeta M segs)) dep₀ R = some (.ok (dep, rem)) →
      win r w dep = win r w dep₀ := by
  intro segs
  induction segs with
  | nil =>
    intro dep₀ R dep rem r w _ _ h
    have h2 : (some (Except.ok (dep₀, R)) :
        Option (Except BitFieldError (Nat × Nat))) = some (.ok (dep, rem)) := h
    simp only [Option.some.injEq, Except.ok.injEq, Prod.mk.injEq] at h2
    rw [h2.1]
  | cons seg rest ih =>
    intro dep₀ R dep rem r w hwf hint h
    cases seg with
    | Slice sl =>
      obtain ⟨hw0, how, hm⟩ : SliceWF sl := hwf _ (List.mem_cons_self _ _)
      rw [cacheMeta_cons_slice, List.zip_cons_cons, twpLoop_cons_slice] at h
      by_cases hR : R < sl.width
      · rw [if_pos hR] at h
        exact Option.noConfusion h
      · rw [if_neg hR] at h
        have hstep := ih _ _ dep rem r w
          (fun s hs => hwf s (List.mem_cons_of_mem _ hs))
          (fun s hs => hint s (List.mem_cons_of_mem _ hs)) h
        rw [hstep, win_or]
        have hpart : (v >>> (R - sl.width)) &&& mask_for_width sl.width
            < 2 ^ sl.width := by
          rw [and_mask_eq_mod _ (by omega)]
          exact Nat.mod_lt _ (Nat.two_pow_pos _)
        rw [win_shl_disjoint r w (prefix_popcount M sl.offset) hpart
          (hint sl (List.mem_cons_self _ _))]
        exact Nat.or_zero _
    | Literal lit width =>
      rw [cacheMeta_cons_literal, List.zip_cons_cons, twpLoop_cons_literal] at h
      by_cases hR : R < width
      · rw [if_pos hR] at h
        exact Option.noConfusion h
      · rw [if_neg hR] at h
        by_cases hlit : (v >>> (R - width)) &&& mask_for_width width ≠
            lit &&& mask_for_width width
        · rw [if_pos hlit] at h
          simp at h
        · rw [if_neg hlit] at h
          exact ih _ _ dep rem r w
            (fun s hs => hwf s (List.mem_cons_of_mem _ hs))
            (fun s hs => hint s (List.mem_cons_of_mem _ hs)) h

/-- Joint induction over the parallel and portable write loops: for every
slice of a disjoint well-formed segment list whose runs lie in `M`, the
PDEP of the final deposit and the final portable container agree on the
slice's mask (given the slice's rank window starts empty). -/
theorem twp_write_masked (v d t M : Nat) (hM : M < U64) :
    ∀ (segs : List BitFieldSegment) (dep₀ c₀ R dep rem C rem' : Nat),
      SegsWF segs → SegsDisjoint segs →
      (∀ s : BitSlice, BitFieldSegment.Slice s ∈ segs →
        ∀ j, j < s.width → M.testBit (s.offset + j) = true) →
      twpLoop v d t (segs.zip (cacheMeta M segs)) dep₀ R = some (.ok (dep, rem)) →
      write_segments v d t segs c₀ R = .ok (C, rem') →
      ∀ s : BitSlice, BitFieldSegment.Slice s ∈ segs →
        win (prefix_popcount M s.offset) s.width dep₀ = 0 →
        pdep64 dep M &&& s.mask = C &&& s.mask := by
  intro segs
  induction segs with
  | nil =>
    intro dep₀ c₀ R dep rem C rem' _ _ _ _ _ s hmem
    exact absurd hmem (List.not_mem_nil _)
  | cons seg rest ih =>
    intro dep₀ c₀ R dep rem C rem' hwf hdisj hrun htw hws s hmem hwin0
    have hwfrest : SegsWF rest := fun x hx => hwf x (List.mem_cons_of_mem _ hx)
    have hdisjrest : SegsDisjoint rest := (List.pairwise_cons.mp hdisj).2
    have hdisjhead := (List.pairwise_cons.mp hdisj).1
    have hrunrest : ∀ x : BitSlice, BitFieldSegment.Slice x ∈ rest →
        ∀ j, j < x.width → M.testBit (x.offset + j) = true :=
      fun x hx => hrun x (List.mem_cons_of_mem _ hx)
    cases seg with
    | Slice sl =>
      obtain ⟨hw0, how, hm⟩ : SliceWF sl := hwf _ (List.mem_cons_self _ _)
      have ho64 : sl.offset < 64 := by omega
      have hrunsl := hrun sl (List.mem_cons_self _ _)
      rw [cacheMeta_cons_slice, List.zip_cons_cons, twpLoop_cons_slice] at htw
      rw [write_segments_cons_slice] at hws
      by_cases hR : R < sl.width
      · rw [if_pos hR] at htw
        exact Option.noConfusion htw
      · rw [if_neg hR] at htw
        rw [if_neg hR] at hws
        have hpart : (v >>> (R - sl.width)) &&& mask_for_width sl.width
            < 2 ^ sl.width := by
          rw [and_mask_eq_mod _ (by omega)]
          exact Nat.mod_lt _ (Nat.two_pow_pos _)
        -- rank-interval disjointness of the head against every tail slice
        have hint : ∀ x : BitSlice, BitFieldSegment.Slice x ∈ rest →
            prefix_popcount M x.offset + x.width ≤ prefix_popcount M sl.offset ∨
            prefix_popcount M sl.offset + sl.width ≤ prefix_popcount M x.offset := by
          intro x hx
          have hxwf : SliceWF x := hwfrest _ hx
          have hx64 : x.offset < 64 := by
            obtain ⟨a, b, _⟩ := hxwf
            omega
          rw [prefix_popcount_eq M hx64, prefix_popcount_eq M ho64]
          exact rank_intervals_disjoint hxwf ⟨hw0, how, hm⟩ (hrunrest x hx) hrunsl
            (by rw [Nat.land_comm]; exact hdisjhead _ hx)
        rcases List.mem_cons.mp hmem with heq | hmem'
        · -- the head slice itself
          have hss : s = sl := by injection heq
          subst hss
          -- portable side: frame over the tail then the head write
          have hframe := write_segments_frame v d t s.mask
            (sliceWF_mask_lt ⟨hw0, how, hm⟩) rest _ C _ rem' hwfrest
            (fun x hx => by
              rw [Nat.land_comm]
              exact hdisjhead _ hx) hws
          have hCval : C &&& s.mask =
              ((v >>> (R - s.width)) &&& mask_for_width s.width) <<< s.offset := by
            rw [hframe, hm]
            exact write_slice_value how hpart
          -- parallel side: the head's rank window of the final deposit
          have hwality := twpLoop_win_frame v d t M rest _ _ dep rem
            (prefix_popcount M s.offset) s.width hwfrest
            (fun x hx => (hint x hx).imp id id) htw
          have hwin_dep : win (prefix_popcount M s.offset) s.width dep =
              (v >>> (R - s.width)) &&& mask_for_width s.width := by
            rw [hwality, win_or, hwin0, win_shl_self _ hpart]
            exact Nat.zero_or _
          have hpdep : pdep64 dep M &&& s.mask =
              ((v >>> (R - s.width)) &&& mask_for_width s.width) <<< s.offset := by
            rw [and_shl_eq_win (pdep64 dep M) s.mask s.offset (by omega) hm]
            have h1 := @pdep_win dep M s.offset s.width how hM hrunsl
            rw [h1, ← prefix_popcount_eq M ho64, hwin_dep]
          rw [hpdep, hCval]
        · -- a tail slice
          have hswf : SliceWF s := hwfrest _ hmem'
          have hs64 : s.offset < 64 := by
            obtain ⟨a, b, _⟩ := hswf
            omega
          have hwin0' : win (prefix_popcount M s.offset) s.width
              (dep₀ ||| ((v >>> (R - sl.width)) &&& mask_for_width sl.width)
                <<< prefix_popcount M sl.offset) = 0 := by
            rw [win_or, hwin0,
              win_shl_disjoint (prefix_popcount M s.offset) s.width
                (prefix_popcount M sl.offset) hpart (hint s hmem').symm]
            rfl
          exact ih _ _ _ dep rem C rem' hwfrest hdisjrest hrunrest htw hws s hmem' hwin0'
    | Literal lit width =>
      rw [cacheMeta_cons_literal, List.zip_cons_cons, twpLoop_cons_literal] at htw
      rw [write_segments_cons_literal] at hws
      by_cases hR : R < width
      · rw [if_pos hR] at htw
        exact Option.noConfusion htw
      · rw [if_neg hR] at htw
        rw [if_neg hR] at hws
        by_cases hlit : (v >>> (R - width)) &&& mask_for_width width ≠
            lit &&& mask_for_width width
        · rw [if_pos hlit] at htw
          simp at htw
        · rw [if_neg hlit] at htw
          rw [if_neg hlit] at hws
          rcases List.mem_cons.mp hmem with heq | hmem'
          · exact absurd heq (by simp)
          · exact ih _ _ _ dep rem C rem' hwfrest hdisjrest hrunrest htw hws s hmem' hwin0

/-- The portable write loop keeps the container inside 64 bits. -/
theorem write_segments_lt (v d t : Nat) :
    ∀ (segs : List BitFieldSegment) (c₀ C R rem : Nat), SegsWF segs → c₀ < U64 →
      write_segments v d t segs c₀ R = .ok (C, rem) → C < U64 := by
  intro segs
  induction segs with
  | nil =>
    intro c₀ C R rem _ hc h
    simp only [write_segments, Except.ok.injEq, Prod.mk.injEq] at h
    rw [← h.1]
    exact hc
  | cons seg rest ih =>
    intro c₀ C R rem hwf hc h
    cases seg with
    | Slice sl =>
      rw [write_segments_cons_slice] at h
      by_cases hR : R < sl.width
      · rw [if_pos hR] at h
        exact Except.noConfusion h
      · rw [if_neg hR] at h
        apply ih _ _ _ _ (fun x hx => hwf x (List.mem_cons_of_mem _ hx)) _ h
        apply Nat.or_lt_two_pow
        · exact lt_of_le_of_lt Nat.and_le_left hc
        · exact lt_of_le_of_lt Nat.and_le_right
            (sliceWF_mask_lt (hwf _ (List.mem_cons_self _ _)))
    | Literal lit width =>
      rw [write_segments_cons_literal] at h
      by_cases hR : R < width
      · rw [if_pos hR] at h
        exact Except.noConfusion h
      · rw [if_neg hR] at h
        by_cases hlit : (v >>> (R - width)) &&& mask_for_width width ≠
            lit &&& mask_for_width width
        · rw [if_pos hlit] at h
          exact Except.noConfusion h
        · rw [if_neg hlit] at h
          exact ih _ _ _ _ (fun x hx => hwf x (List.mem_cons_of_mem _ hx)) hc h

/-- PDEP stays inside the mask, which in turn is a 64-bit value. -/
theorem pdep64_subset {x M i : Nat} (h : (pdep64 x M).testBit i = true) :
    M.testBit i = true ∧ i < 64 := by
  unfold pdep64 at h
  have h1 := pdepAux_subset 64 (x % U64) (M % U64) i h
  rw [show (U64 : Nat) = 2 ^ 64 from rfl, Nat.testBit_mod_two_pow] at h1
  simp only [Bool.and_eq_true, decide_eq_true_eq] at h1
  exact ⟨h1.2, h1.1⟩

theorem testBit_eq_of_and_two_pow {a b k : Nat} (h : a &&& 2 ^ k = b &&& 2 ^ k) :
    a.testBit k = b.testBit k := by
  rw [and_two_pow_eq, and_two_pow_eq] at h
  by_cases ha : a.testBit k <;> by_cases hb : b.testBit k
  · rw [ha, hb]
  · rw [if_pos ha, if_neg hb] at h
    exact absurd h (Nat.pos_iff_ne_zero.mp (Nat.two_pow_pos k))
  · rw [if_neg ha, if_pos hb] at h
    exact absurd h.symm (Nat.pos_iff_ne_zero.mp (Nat.two_pow_pos k))
  · rw [Bool.not_eq_true] at ha hb
    rw [ha, hb]

/-- The BMI2 write path, whenever it returns a result, returns exactly the
portable write-loop result, for a cache-consistent spec with disjoint
well-formed segments and a 64-bit container. -/
theorem try_write_parallel_eq {spec : BitFieldSpec} (container v : Nat)
    (hwf : SegsWF spec.segments) (hdisj : SegsDisjoint spec.segments)
    (hmask : spec.mask = cacheMask spec.segments)
    (hmeta : spec.slice_meta = cacheMeta spec.mask spec.segments)
    (hc : container < U64) :
    ∀ r, spec.try_write_parallel container v spec.data_width spec.total_width = some r →
      r = portable_write_result spec container v := by
  intro r hr
  unfold BitFieldSpec.try_write_parallel at hr
  by_cases hm0 : spec.mask = 0
  · rw [if_pos hm0] at hr
    exact Option.noConfusion hr
  · rw [if_neg hm0] at hr
    rw [hmeta, hmask] at hr
    have hrunall : ∀ s : BitSlice, BitFieldSegment.Slice s ∈ spec.segments →
        ∀ j, j < s.width → (cacheMask spec.segments).testBit (s.offset + j) = true :=
      fun s hs j hj => run_in_cacheMask hs (hwf _ hs) j hj
    cases htw : twpLoop v spec.data_width spec.total_width
        (spec.segments.zip (cacheMeta (cacheMask spec.segments) spec.segments)) 0
        spec.data_width with
    | none =>
      rw [htw] at hr
      exact Option.noConfusion hr
    | some res =>
      simp only [htw] at hr
      cases res with
      | error e =>
        have hre : r = .error e := by
          have h2 := hr
          simp only [Option.some.injEq] at h2
          exact h2.symm
        have hwe := twpLoop_err_write v spec.data_width spec.total_width
          (cacheMask spec.segments) spec.segments 0 container spec.data_width e htw
        rw [hre]
        unfold portable_write_result
        rw [hwe]
      | ok pr =>
        obtain ⟨dep, rem⟩ := pr
        obtain ⟨C, hC⟩ := twpLoop_ok_write v spec.data_width spec.total_width
          (cacheMask spec.segments) spec.segments 0 container spec.data_width dep rem htw
        have hr2 : (if rem ≠ 0 then
            (some (Except.error (BitFieldError.ValueTooWide spec.data_width
              spec.total_width)) : Option (Except BitFieldError Nat))
          else some (Except.ok (container &&& not64 (cacheMask spec.segments) |||
            pdep64 dep (cacheMask spec.segments)))) = some r := hr
        have hport : portable_write_result spec container v =
            (if rem ≠ 0 then
              Except.error (BitFieldError.ValueTooWide spec.data_width spec.total_width)
            else Except.ok C) := by
          show (match write_segments v spec.data_width spec.total_width spec.segments
              container spec.data_width with
            | .error e => .error e
            | .ok (c, remaining) =>
              if remaining ≠ 0 then
                Except.error (BitFieldError.ValueTooWide spec.data_width spec.total_width)
              else Except.ok c) =
            (if rem ≠ 0 then
              Except.error (BitFieldError.ValueTooWide spec.data_width spec.total_width)
            else Except.ok C)
          rw [hC]
        rw [hport]
        by_cases hrem : rem ≠ 0
        · rw [if_pos hrem] at hr2
          rw [if_pos hrem]
          have h2 := hr2
          simp only [Option.some.injEq] at h2
          exact h2.symm
        · rw [if_neg hrem] at hr2
          rw [if_neg hrem]
          have h2 := hr2
          simp only [Option.some.injEq] at h2
          rw [← h2]
          -- the deposited container equals the portable container
          have hfinal : container &&& not64 (cacheMask spec.segments) |||
              pdep64 dep (cacheMask spec.segments) = C := by
            have hMlt : cacheMask spec.segments < U64 := cacheMask_lt hwf
            have hClt : C < U64 := write_segments_lt v spec.data_width spec.total_width
              spec.segments container C spec.data_width rem hwf hc hC
            apply Nat.eq_of_testBit_eq
            intro i
            rw [Nat.testBit_or, Nat.testBit_and]
            by_cases hi64 : i < 64
            · by_cases hMi : (cacheMask spec.segments).testBit i = true
              · obtain ⟨s, hmem, hbit⟩ := cacheMask_testBit_elim hMi
                have hmeq := twp_write_masked v spec.data_width spec.total_width
                  (cacheMask spec.segments) hMlt spec.segments 0 container
                  spec.data_width dep rem C rem hwf hdisj hrunall htw hC s hmem
                  (win_zero _ _)
                have hpc := congrArg (fun n => n.testBit i) hmeq
                simp only [Nat.testBit_and, hbit, Bool.and_true] at hpc
                have hnot : (not64 (cacheMask spec.segments)).testBit i = false := by
                  rw [testBit_not64, if_pos hi64, hMi]
                  rfl
                rw [hnot, Bool.and_false, Bool.false_or]
                exact hpc
              · have hMif : (cacheMask spec.segments).testBit i = false := by
                  have h3 := hMi
                  rw [Bool.not_eq_true] at h3
                  exact h3
                have hnot : (not64 (cacheMask spec.segments)).testBit i = true := by
                  rw [testBit_not64, if_pos hi64, hMif]
                  rfl
                have hpdep : (pdep64 dep (cacheMask spec.segments)).testBit i = false := by
                  cases hp : (pdep64 dep (cacheMask spec.segments)).testBit i with
                  | false => rfl
                  | true => exact absurd (pdep64_subset hp).1 hMi
                have hframe := write_segments_frame v spec.data_width spec.total_width
                  (2 ^ i) (Nat.pow_lt_pow_right (by omega) hi64) spec.segments container C
                  spec.data_width rem hwf
                  (fun seg hs => by
                    cases seg with
                    | Slice x =>
                      show x.mask &&& 2 ^ i = 0
                      rw [and_two_pow_eq]
                      cases hx : x.mask.testBit i with
                      | false => rfl
                      | true => exact absurd (cacheMask_testBit_of_mem hs hx) hMi
                    | Literal a b =>
                      show 0 &&& 2 ^ i = 0
                      exact Nat.zero_and _) hC
                rw [hnot, Bool.and_true, hpdep, Bool.or_false]
                exact (testBit_eq_of_and_two_pow hframe).symm
            · have hcont : container.testBit i = false :=
                testBit_ge_64_eq_false hc (by omega)
              have hCbit : C.testBit i = false :=
                testBit_ge_64_eq_false hClt (by omega)
              have hpdep : (pdep64 dep (cacheMask spec.segments)).testBit i = false := by
                cases hp : (pdep64 dep (cacheMask spec.segments)).testBit i with
                | false => rfl
                | true => exact absurd (pdep64_subset hp).2 hi64
              rw [hcont, hCbit, hpdep, Bool.false_and, Bool.false_or]
          rw [hfinal]

/-- C5 (amended): for a spec whose cached mask and slice metadata are the
ones `rebuild_cache` computes and whose slices are pairwise disjoint, the
BMI2 PEXT/PDEP path agrees with the portable path exactly: when the union
mask is nonzero, `extract_data_parallel` returns precisely
`extract_data`, and whenever `try_write_parallel` returns a result it is
the same container or the same error as the portable write loop. -/
theorem C5_parallel_equals_portable (spec : BitFieldSpec) (bits container v : Nat)
    (hwf : SegsWF spec.segments) (hdisj : SegsDisjoint spec.segments)
    (hmask : spec.mask = cacheMask spec.segments)
    (hmeta : spec.slice_meta = cacheMeta spec.mask spec.segments)
    (hc : container < U64) :
    (spec.mask ≠ 0 → spec.extract_data_parallel bits = some (spec.extract_data bits)) ∧
    (∀ r, spec.try_write_parallel container v spec.data_width spec.total_width = some r →
      r = portable_write_result spec container v) :=
  ⟨fun hmne => extract_data_parallel_eq bits hwf hmask hmeta hmne,
   try_write_parallel_eq container v hwf hdisj hmask hmeta hc⟩

set_option maxRecDepth 8192 in
/-- C5 amended-theorem witness at the 32-bit parsed spec of C8: the
parallel read of container `0xABCD` and the parallel write of value
`0xABCC` into container `0` both match the portable path. -/
theorem C5_parallel_equals_portable_witness :
    SegsWF spec32C8.segments ∧ SegsDisjoint spec32C8.segments ∧
    spec32C8.mask = cacheMask spec32C8.segments ∧
    spec32C8.slice_meta = cacheMeta spec32C8.mask spec32C8.segments ∧
    (0 : Nat) < U64 ∧ spec32C8.mask ≠ 0 ∧
    spec32C8.extract_data_parallel 0xABCD = some (spec32C8.extract_data 0xABCD) ∧
    spec32C8.try_write_parallel 0 0xABCC spec32C8.data_width spec32C8.total_width =
      some (.ok 0xABCC) ∧
    Except.ok 0xABCC = portable_write_result spec32C8 0 0xABCC :=
  ⟨by decide, by decide, by decide, by decide, by decide, by decide,
   (C5_parallel_equals_portable spec32C8 0xABCD 0 0xABCC (by decide) (by decide)
     (by decide) (by decide) (by decide)).1 (by decide),
   by decide,
   (C5_parallel_equals_portable spec32C8 0xABCD 0 0xABCC (by decide) (by decide)
     (by decide) (by decide) (by decide)).2 (Except.ok 0xABCC) (by decide)⟩

end Emul
